import Mathlib

/-!
Verification of the UBPE tokenizer core (C++ sources under `src/ubpe_cpp`,
with `src/ubpe_cython` an earlier revision).  Every definition below is a
shallow embedding of the corresponding C++ entity; machine-integer wrap is
made explicit with `% 2 ^ 32` / `% 2 ^ 64` exactly where the C++ type system
makes it observable, and every operation that can abort in C++ (assertion
failure, `std::map::at` on a missing key, an out-of-range element access, or
`throw`) is value-level: such operations return `Except Err _`.
Loops whose termination the C++ code does not make structurally evident run
on explicit fuel; exhausted fuel is the distinguished error `Err.fuel`, so a
`.ok` result always corresponds to a genuine terminating C++ run.
-/

namespace UbpeV

/-- Failure kinds of the embedded operations.  `oob` is an out-of-range
element access (undefined behaviour in the C++ source), `assertFail` a failed
`assert`, `atFail` a `std::map::at` / alphabet miss, `emptyTop` reading the
top/back of an empty container, `fuel` exhausted fuel. -/
inductive Err where
  | oob
  | assertFail
  | atFail
  | emptyTop
  | fuel
  | range
  deriving DecidableEq, Repr

/-! ## `std::map` as a key-sorted association list

A `std::map<K, V>` is embedded as a `List (κ × β)` iterated in list order;
all construction functions below keep the key list strictly ascending, which
mirrors the in-order iteration of the red-black tree.  The lookup lemmas do
not need the sortedness invariant. -/

section SMap

variable {κ : Type} [LinearOrder κ] {β : Type}

/-- `std::map` lookup (`find` / `contains` / `at`). -/
def mlook : List (κ × β) → κ → Option β
  | [], _ => none
  | (k, v) :: rest, key => if key = k then some v else mlook rest key

/-- `std::map::operator[] = v` and `insert_or_assign`: sorted insert,
overwriting the value when the key is already present. -/
def msetk : List (κ × β) → κ → β → List (κ × β)
  | [], key, v => [(key, v)]
  | (k, w) :: rest, key, v =>
    if key < k then (key, v) :: (k, w) :: rest
    else if key = k then (key, v) :: rest
    else (k, w) :: msetk rest key v

/-- `std::map::insert` (also via `std::inserter`): sorted insert that keeps
the existing value when the key is already present. -/
def minsk : List (κ × β) → κ → β → List (κ × β)
  | [], key, v => [(key, v)]
  | (k, w) :: rest, key, v =>
    if key < k then (key, v) :: (k, w) :: rest
    else if key = k then (k, w) :: rest
    else (k, w) :: minsk rest key v

/-- `std::map::at`: lookup that fails on a missing key. -/
def mat (m : List (κ × β)) (key : κ) : Except Err β :=
  match mlook m key with
  | some v => .ok v
  | none => .error .atFail

theorem mlook_msetk_self (m : List (κ × β)) (k : κ) (v : β) :
    mlook (msetk m k v) k = some v := by
  induction m with
  | nil => simp [msetk, mlook]
  | cons hd tl ih =>
    obtain ⟨k', w⟩ := hd
    by_cases h1 : k < k'
    · simp [msetk, h1, mlook]
    · by_cases h2 : k = k'
      · simp [msetk, h1, h2, mlook]
      · simp [msetk, h1, h2, mlook, ih]

theorem mlook_msetk_ne (m : List (κ × β)) (k k' : κ) (v : β) (h : k' ≠ k) :
    mlook (msetk m k v) k' = mlook m k' := by
  induction m with
  | nil => simp [msetk, mlook, h]
  | cons hd tl ih =>
    obtain ⟨k0, w⟩ := hd
    by_cases h1 : k < k0
    · simp [msetk, h1, mlook, h]
    · by_cases h2 : k = k0
      · subst h2
        simp [msetk, h1, mlook, h]
      · simp only [msetk, if_neg h1, if_neg h2]
        by_cases h3 : k' = k0 <;> simp [mlook, h3, ih]

theorem msetk_length_le (m : List (κ × β)) (k : κ) (v : β) :
    (msetk m k v).length ≤ m.length + 1 := by
  induction m with
  | nil => simp [msetk]
  | cons hd tl ih =>
    obtain ⟨k', w⟩ := hd
    by_cases h1 : k < k'
    · simp [msetk, h1]
    · by_cases h2 : k = k'
      · simp [msetk, h1, h2]
      · simp only [msetk, if_neg h1, if_neg h2, List.length_cons]
        omega

theorem minsk_length_le (m : List (κ × β)) (k : κ) (v : β) :
    (minsk m k v).length ≤ m.length + 1 := by
  induction m with
  | nil => simp [minsk]
  | cons hd tl ih =>
    obtain ⟨k', w⟩ := hd
    by_cases h1 : k < k'
    · simp [minsk, h1]
    · by_cases h2 : k = k'
      · simp [minsk, h1, h2]
      · simp only [minsk, if_neg h1, if_neg h2, List.length_cons]
        omega

end SMap

/-! ## `std::unordered_map` as an association list

Only membership / `at` / `operator[]` are performed on the unordered maps of
the source (`sub` in the fit loops, the pair-counter table); their iteration
order is never observable except through `most_common`, whose output is
proved below to be ordering-independent for the comparator used.  New keys
are appended, i.e. the model iterates in first-insertion order. -/

section AList

variable {κ : Type} [DecidableEq κ] {β : Type}

/-- Association-list lookup (first match). -/
def alook : List (κ × β) → κ → Option β
  | [], _ => none
  | (k, v) :: rest, key => if key = k then some v else alook rest key

/-- `unordered_map::operator[] = v`: overwrite in place, or append. -/
def aset : List (κ × β) → κ → β → List (κ × β)
  | [], key, v => [(key, v)]
  | (k, w) :: rest, key, v =>
    if key = k then (key, v) :: rest else (k, w) :: aset rest key v

/-- `unordered_map::operator[]` with default-construction of a missing
value, then applying `f` to it (models `m[k]++` etc.). -/
def aupd (m : List (κ × β)) (key : κ) (dflt : β) (f : β → β) : List (κ × β) :=
  aset m key (f ((alook m key).getD dflt))

theorem alook_aset_self (m : List (κ × β)) (k : κ) (v : β) :
    alook (aset m k v) k = some v := by
  induction m with
  | nil => simp [aset, alook]
  | cons hd tl ih =>
    obtain ⟨k', w⟩ := hd
    by_cases h : k = k'
    · simp [aset, h, alook]
    · simp [aset, h, alook, ih]

theorem alook_aset_ne (m : List (κ × β)) (k k' : κ) (v : β) (h : k' ≠ k) :
    alook (aset m k v) k' = alook m k' := by
  induction m with
  | nil => simp [aset, alook, h]
  | cons hd tl ih =>
    obtain ⟨k0, w⟩ := hd
    by_cases h1 : k = k0
    · subst h1
      simp [aset, alook, h]
    · by_cases h2 : k' = k0 <;> simp [aset, h1, alook, h2, ih]

end AList

end UbpeV

namespace UbpeV

/-! ## `ubpe::heapq` (heapq.hpp)

The heap stores its elements in a `List α` read as the usual implicit binary
tree (children of `i` at `2*i+1`, `2*i+2`); `lt` is the `Comparator::compare`
function (no `key` extractor is ever supplied by this code base), `d` a
default only read at indices proved in range.  `siftdown` moves an element
towards the root, `siftup` is the python-heapq two-phase sift towards the
leaves; both mirror `heapq.hpp` line by line. -/

section Heapq

variable {α : Type}

/-- Loop of `heapq::siftdown`: walk from `pos` towards `startPos`, moving
parents down while `new_element` compares below them, then write
`new_element` at the final position. -/
def siftdownFrom (lt : α → α → Bool) (d newEl : α) (startPos : Nat)
    (data : List α) (pos : Nat) : List α :=
  if _h : startPos < pos then
    let parentPos := (pos - 1) / 2
    let parent := data.getD parentPos d
    if lt newEl parent then
      siftdownFrom lt d newEl startPos (data.set pos parent) parentPos
    else data.set pos newEl
  else data.set pos newEl
termination_by pos
decreasing_by
  have := Nat.div_le_self (pos - 1) 2
  omega

/-- `heapq::siftdown(start_pos, pos)`: reads `new_element = data[pos]`. -/
def siftdown (lt : α → α → Bool) (d : α) (data : List α)
    (startPos pos : Nat) : List α :=
  siftdownFrom lt d (data.getD pos d) startPos data pos

/-- Child selection inside `heapq::siftup`: move to the right child when it
exists and the left child does not compare below it. -/
def chooseChild (lt : α → α → Bool) (d : α) (data : List α)
    (pos : Nat) : Nat :=
  if 2 * pos + 1 + 1 < data.length &&
      !(lt (data.getD (2 * pos + 1) d) (data.getD (2 * pos + 1 + 1) d)) then
    2 * pos + 1 + 1
  else 2 * pos + 1

/-- First phase of `heapq::siftup`: bubble the smaller child up until a leaf
is reached; returns the updated data and the final (leaf) position. -/
def siftupBubble (lt : α → α → Bool) (d : α) (data : List α) (pos : Nat) :
    List α × Nat :=
  if _h : 2 * pos + 1 < data.length then
    let c := chooseChild lt d data pos
    siftupBubble lt d (data.set pos (data.getD c d)) c
  else (data, pos)
termination_by data.length - pos
decreasing_by
  simp only [List.length_set]
  simp only [chooseChild]
  split <;> omega

/-- `heapq::siftup(pos)`: bubble to a leaf, write the saved element there,
then sift it back down towards `pos`. -/
def siftup (lt : α → α → Bool) (d : α) (data : List α) (pos : Nat) :
    List α :=
  let newEl := data.getD pos d
  let br := siftupBubble lt d data pos
  siftdownFrom lt d newEl pos (br.1.set br.2 newEl) br.2

/-- `heapq::push`: append, then sift the new last element towards the root. -/
def hpush (lt : α → α → Bool) (d : α) (data : List α) (el : α) : List α :=
  siftdown lt d (data ++ [el]) 0 data.length

/-- `heapq::pop`: throws on an empty heap; otherwise removes the root,
moves the last element to the root and sifts it up. -/
def hpop (lt : α → α → Bool) (d : α) (data : List α) :
    Except Err (α × List α) :=
  match data with
  | [] => .error .emptyTop
  | [x] => .ok (x, [])
  | x :: y :: rest =>
    let bottom := (x :: y :: rest).getLast (by simp)
    let shrunk := (x :: y :: rest).dropLast
    .ok (x, siftup lt d (shrunk.set 0 bottom) 0)

/-- `heapq::replace`: throws on an empty heap; otherwise overwrites the root
with `el`, sifts, and returns the previous root. -/
def hreplace (lt : α → α → Bool) (d : α) (data : List α) (el : α) :
    Except Err (α × List α) :=
  match data with
  | [] => .error .emptyTop
  | x :: rest => .ok (x, siftup lt d ((x :: rest).set 0 el) 0)

/-- `heapq::pushpop`: if the heap is non-empty and its root compares below
`el`, swap `el` with the root and sift; returns the element left outside. -/
def hpushpop (lt : α → α → Bool) (d : α) (data : List α) (el : α) :
    α × List α :=
  match data with
  | [] => (el, data)
  | x :: rest =>
    if lt x el then (x, siftup lt d ((x :: rest).set 0 el) 0)
    else (el, x :: rest)

/-- Countdown of the heapify loop in the `heapq(data, comp)` constructor. -/
def heapifyGo (lt : α → α → Bool) (d : α) : List α → Nat → List α
  | data, 0 => data
  | data, i + 1 => heapifyGo lt d (siftup lt d data i) i

/-- `heapq(data, comp)` constructor: bottom-up heapify
(`for i = n/2 - 1 downto 0: siftup(i)`). -/
def heapify (lt : α → α → Bool) (d : α) (data : List α) : List α :=
  heapifyGo lt d data (data.length / 2)

theorem siftdownFrom_length (lt : α → α → Bool) (d newEl : α)
    (startPos : Nat) (data : List α) (pos : Nat) :
    (siftdownFrom lt d newEl startPos data pos).length = data.length := by
  induction data, pos using siftdownFrom.induct lt d newEl startPos with
  | case1 data pos h parentPos parent hlt ih =>
    rw [siftdownFrom, dif_pos h, if_pos hlt]
    exact ih.trans (by simp)
  | case2 data pos h parentPos parent hlt =>
    rw [siftdownFrom, dif_pos h, if_neg hlt]
    simp
  | case3 data pos h =>
    rw [siftdownFrom, dif_neg h]
    simp

theorem siftupBubble_length (lt : α → α → Bool) (d : α) (data : List α)
    (pos : Nat) :
    (siftupBubble lt d data pos).1.length = data.length := by
  induction data, pos using siftupBubble.induct lt d with
  | case1 data pos h c ih =>
    rw [siftupBubble]
    simp only [dif_pos h]
    exact ih.trans (by simp)
  | case2 data pos h =>
    rw [siftupBubble]
    simp [h]

theorem siftup_length (lt : α → α → Bool) (d : α) (data : List α)
    (pos : Nat) :
    (siftup lt d data pos).length = data.length := by
  rw [siftup]
  simp [siftdownFrom_length, siftupBubble_length]

theorem hpop_length (lt : α → α → Bool) (d : α) (data : List α) (t : α)
    (rest : List α) (h : hpop lt d data = .ok (t, rest)) :
    rest.length + 1 = data.length := by
  match data with
  | [] => simp [hpop] at h
  | [x] =>
    simp only [hpop, Except.ok.injEq, Prod.mk.injEq] at h
    simp [← h.2]
  | x :: y :: rest0 =>
    simp only [hpop, Except.ok.injEq, Prod.mk.injEq] at h
    rw [← h.2]
    simp [siftup_length]

/-- Repeatedly pop until empty (the extraction loops of `TopElements::sorted`
and `nlargest` read the heap back to front, i.e. they produce the reverse of
this pop order). -/
def drainAll (lt : α → α → Bool) (d : α) (data : List α) : List α :=
  match h : hpop lt d data with
  | .error _ => []
  | .ok (t, rest) => t :: drainAll lt d rest
termination_by data.length
decreasing_by
  have := hpop_length lt d data t rest h
  omega

end Heapq

end UbpeV

namespace UbpeV

section HeapLemmas

variable {α : Type}

/-- Strict weak order assumptions satisfied by every comparator this code
base passes to `heapq` (`EncodingCandidate::operator<`, the pair-counter
comparator, and the tuple comparators built inside `nlargest`). -/
structure SWO (lt : α → α → Bool) : Prop where
  irrefl : ∀ a, lt a a = false
  trans : ∀ a b c, lt a b = true → lt b c = true → lt a c = true
  negTrans : ∀ a b c, lt a b = false → lt b c = false → lt a c = false

theorem SWO.asymm {lt : α → α → Bool} (h : SWO lt) (a b : α)
    (hab : lt a b = true) : lt b a = false := by
  by_contra hba
  have hba' : lt b a = true := by
    cases hb : lt b a
    · exact absurd hb hba
    · rfl
  have := h.trans a b a hab hba'
  rw [h.irrefl a] at this
  exact Bool.noConfusion this

/-- If `a` is not below `b` while `c` is, then `a` is not below `c`. -/
theorem SWO.notBelowOfBelow {lt : α → α → Bool} (h : SWO lt) (a b c : α)
    (hab : lt a b = false) (hcb : lt c b = true) : lt a c = false := by
  cases hac : lt a c
  · rfl
  · have := h.trans a c b hac hcb
    rw [hab] at this
    exact Bool.noConfusion this

/-- `i` lies in the subtree rooted at `s` of the implicit binary tree. -/
inductive IsDesc (s : Nat) : Nat → Prop
  | refl : IsDesc s s
  | child : ∀ i j, IsDesc s i → (j = 2 * i + 1 ∨ j = 2 * i + 2) → IsDesc s j

theorem IsDesc.le {s i : Nat} (h : IsDesc s i) : s ≤ i := by
  induction h with
  | refl => exact le_refl s
  | child i j _ hj ih => omega

theorem isDesc_parent {s j : Nat} (h : IsDesc s j) (hne : j ≠ s) :
    IsDesc s ((j - 1) / 2) := by
  cases h with
  | refl => exact absurd rfl hne
  | child i j hi hj =>
    have : (j - 1) / 2 = i := by omega
    rw [this]
    exact hi

theorem isDesc_zero (i : Nat) : IsDesc 0 i := by
  induction i using Nat.strong_induction_on with
  | _ i ih =>
    match i with
    | 0 => exact IsDesc.refl
    | Nat.succ k =>
      have hp : (k + 1 - 1) / 2 < k + 1 := by
        have := Nat.div_le_self k 2
        omega
      refine IsDesc.child _ _ (ih ((k + 1 - 1) / 2) hp) ?_
      omega

theorem child_eq_of_parent {j : Nat} (hj : 0 < j) :
    j = 2 * ((j - 1) / 2) + 1 ∨ j = 2 * ((j - 1) / 2) + 2 := by
  omega

end HeapLemmas

end UbpeV

namespace UbpeV

section ListHelpers

variable {α : Type}

theorem getD_set_self (l : List α) (i : Nat) (a d : α) (h : i < l.length) :
    (l.set i a).getD i d = a := by
  simp [List.getD, List.getElem?_set, h]

theorem getD_set_ne (l : List α) (i j : Nat) (a d : α) (h : i ≠ j) :
    (l.set i a).getD j d = l.getD j d := by
  simp [List.getD, List.getElem?_set, h]

theorem set_getD_self (l : List α) (i : Nat) (d : α) (h : i < l.length) :
    l.set i (l.getD i d) = l := by
  have : l.getD i d = l.get ⟨i, h⟩ := by
    simp [List.getD, List.getElem?_eq_getElem h]
  rw [this]
  apply List.ext_getElem
  · simp
  · intro n h1 h2
    simp [List.getElem_set]
    intro he
    subst he
    rfl

theorem cons_set_perm (l : List α) (j : Nat) (d b : α) (h : j < l.length) :
    (l.getD j d :: l.set j b).Perm (b :: l) := by
  induction l generalizing j with
  | nil => simp at h
  | cons x t ih =>
    match j with
    | 0 =>
      simp only [List.getD_cons_zero, List.set_cons_zero]
      exact List.Perm.swap b x t
    | Nat.succ k =>
      simp only [List.getD_cons_succ, List.set_cons_succ]
      have hk : k < t.length := by simpa using h
      have h1 : (t.getD k d :: x :: t.set k b).Perm
          (x :: t.getD k d :: t.set k b) := List.Perm.swap x _ _
      have h2 : (x :: t.getD k d :: t.set k b).Perm (x :: b :: t) :=
        (ih k hk).cons x
      have h3 : (x :: b :: t).Perm (b :: x :: t) := List.Perm.swap b x t
      exact h1.trans (h2.trans h3)

theorem cons_set_swap_perm (l : List α) (i : Nat) (a b : α)
    (h : i < l.length) : (b :: l.set i a).Perm (a :: l.set i b) := by
  induction l generalizing i with
  | nil => simp at h
  | cons x t ih =>
    match i with
    | 0 =>
      simp only [List.set_cons_zero]
      exact List.Perm.swap a b t
    | Nat.succ k =>
      simp only [List.set_cons_succ]
      have hk : k < t.length := by simpa using h
      have h1 : (b :: x :: t.set k a).Perm (x :: b :: t.set k a) :=
        List.Perm.swap x b _
      have h2 : (x :: b :: t.set k a).Perm (x :: a :: t.set k b) :=
        (ih k hk).cons x
      have h3 : (x :: a :: t.set k b).Perm (a :: x :: t.set k b) :=
        List.Perm.swap a x _
      exact h1.trans (h2.trans h3)

theorem set_set_perm (l : List α) (i j : Nat) (d b : α) (hij : i ≠ j)
    (hi : i < l.length) (hj : j < l.length) :
    ((l.set i (l.getD j d)).set j b).Perm (l.set i b) := by
  induction l generalizing i j with
  | nil => simp at hi
  | cons x t ih =>
    match i, j with
    | 0, 0 => exact absurd rfl hij
    | 0, Nat.succ k =>
      simp only [List.getD_cons_succ, List.set_cons_zero, List.set_cons_succ]
      have hk : k < t.length := by simpa using hj
      exact cons_set_perm t k d b hk
    | Nat.succ m, 0 =>
      simp only [List.getD_cons_zero, List.set_cons_succ, List.set_cons_zero]
      have hm : m < t.length := by simpa using hi
      exact cons_set_swap_perm t m x b hm
    | Nat.succ m, Nat.succ k =>
      simp only [List.getD_cons_succ, List.set_cons_succ]
      have hmk : m ≠ k := by omega
      have hm : m < t.length := by simpa using hi
      have hk : k < t.length := by simpa using hj
      exact (ih m k hmk hm hk).cons x

theorem isDesc_split {p i : Nat} (h : IsDesc p i) :
    i = p ∨ IsDesc (2 * p + 1) i ∨ IsDesc (2 * p + 2) i := by
  induction h with
  | refl => exact Or.inl rfl
  | child a j ha hj ih =>
    rcases ih with h1 | h2 | h3
    · subst h1
      rcases hj with hj | hj
      · exact Or.inr (Or.inl (hj ▸ IsDesc.refl))
      · exact Or.inr (Or.inr (hj ▸ IsDesc.refl))
    · exact Or.inr (Or.inl (IsDesc.child a j h2 hj))
    · exact Or.inr (Or.inr (IsDesc.child a j h3 hj))

theorem isDesc_chain {a b k : Nat} (ha : IsDesc a k) (hb : IsDesc b k) :
    IsDesc a b ∨ IsDesc b a := by
  induction k using Nat.strong_induction_on with
  | _ k ih =>
    by_cases hka : k = a
    · subst hka
      exact Or.inr hb
    · by_cases hkb : k = b
      · subst hkb
        exact Or.inl ha
      · have hk0 : 0 < k := by
          rcases Nat.eq_zero_or_pos k with h0 | h0
          · subst h0
            have := ha.le
            omega
          · exact h0
        have hlt : (k - 1) / 2 < k := by
          have := Nat.div_le_self (k - 1) 2
          omega
        exact ih _ hlt (isDesc_parent ha hka) (isDesc_parent hb hkb)

theorem isDesc_sibling_disjoint {p k : Nat} (h1 : IsDesc (2 * p + 1) k)
    (h2 : IsDesc (2 * p + 2) k) : False := by
  rcases isDesc_chain h1 h2 with h | h
  · by_cases he : 2 * p + 2 = 2 * p + 1
    · omega
    · have := (isDesc_parent h he).le
      omega
  · have := h.le
    omega

theorem isDesc_trans {a b c : Nat} (h1 : IsDesc a b) (h2 : IsDesc b c) :
    IsDesc a c := by
  induction h2 with
  | refl => exact h1
  | child i j hi hj ih => exact IsDesc.child i j ih hj

end ListHelpers

end UbpeV

namespace UbpeV

section HeapSpec

variable {α : Type}

/-- `j` is a child index of `i` in the implicit binary tree. -/
def isChild (i j : Nat) : Prop := j = 2 * i + 1 ∨ j = 2 * i + 2

theorem isChild_parent {i j : Nat} (h : isChild i j) :
    i = (j - 1) / 2 ∧ 0 < j ∧ i < j := by
  rcases h with h | h <;> omega

/-- Heap property on the subtree rooted at `root`, with the edge into the
`hole` position exempted. -/
def SubHeapExcept (lt : α → α → Bool) (d : α) (l : List α)
    (root hole : Nat) : Prop :=
  ∀ i j, isChild i j → j < l.length → IsDesc root j → j ≠ root →
    j ≠ hole → lt (l.getD j d) (l.getD i d) = false

/-- Heap property on the subtree rooted at `root`. -/
def SubHeap (lt : α → α → Bool) (d : α) (l : List α) (root : Nat) : Prop :=
  ∀ i j, isChild i j → j < l.length → IsDesc root j → j ≠ root →
    lt (l.getD j d) (l.getD i d) = false

/-- The heap invariant of `heapq`: no child compares strictly below its
parent. -/
def IsHeap (lt : α → α → Bool) (d : α) (l : List α) : Prop :=
  ∀ i j, isChild i j → j < l.length → lt (l.getD j d) (l.getD i d) = false

theorem isHeap_iff_subHeap_zero (lt : α → α → Bool) (d : α) (l : List α) :
    IsHeap lt d l ↔ SubHeap lt d l 0 := by
  constructor
  · intro h i j hij hlen _ _
    exact h i j hij hlen
  · intro h i j hij hlen
    have h0 : j ≠ 0 := by
      rcases hij with hc | hc <;> omega
    exact h i j hij hlen (isDesc_zero j) h0

theorem siftdownFrom_perm (lt : α → α → Bool) (d newEl : α) (startPos : Nat)
    (data : List α) (pos : Nat) (hlen : pos < data.length) :
    (siftdownFrom lt d newEl startPos data pos).Perm (data.set pos newEl) := by
  induction data, pos using siftdownFrom.induct lt d newEl startPos with
  | case1 data pos h parentPos parent hlt ih =>
    rw [siftdownFrom, dif_pos h, if_pos hlt]
    have hpp : parentPos < pos := by
      have : parentPos = (pos - 1) / 2 := rfl
      have := Nat.div_le_self (pos - 1) 2
      omega
    have hpp_len : parentPos < (data.set pos parent).length := by
      simp
      omega
    have step := ih hpp_len
    refine step.trans ?_
    exact set_set_perm data pos parentPos d newEl (by omega) hlen (by omega)
  | case2 data pos h parentPos parent hlt =>
    rw [siftdownFrom, dif_pos h, if_neg hlt]
  | case3 data pos h =>
    rw [siftdownFrom, dif_neg h]

theorem siftdownFrom_frame (lt : α → α → Bool) (d newEl : α)
    (startPos : Nat) (data : List α) (pos : Nat) (hlen : pos < data.length)
    (hdesc : IsDesc startPos pos) (k : Nat) (hk : ¬ IsDesc startPos k) :
    (siftdownFrom lt d newEl startPos data pos).getD k d = data.getD k d := by
  induction data, pos using siftdownFrom.induct lt d newEl startPos with
  | case1 data pos h parentPos parent hlt ih =>
    rw [siftdownFrom, dif_pos h, if_pos hlt]
    have hpp : parentPos < pos := by
      have : parentPos = (pos - 1) / 2 := rfl
      have := Nat.div_le_self (pos - 1) 2
      omega
    have hkp : k ≠ pos := fun he => hk (he ▸ hdesc)
    have hdesc' : IsDesc startPos parentPos :=
      isDesc_parent hdesc (by omega)
    have step := ih (by simp; omega) hdesc'
    rw [step]
    exact getD_set_ne data pos k parent d (Ne.symm hkp)
  | case2 data pos h parentPos parent hlt =>
    rw [siftdownFrom, dif_pos h, if_neg hlt]
    exact getD_set_ne data pos k newEl d (Ne.symm (fun he => hk (he ▸ hdesc)))
  | case3 data pos h =>
    rw [siftdownFrom, dif_neg h]
    exact getD_set_ne data pos k newEl d (Ne.symm (fun he => hk (he ▸ hdesc)))

end HeapSpec

end UbpeV

namespace UbpeV

section HeapSpec2

variable {α : Type}

theorem siftdownFrom_spec (lt : α → α → Bool) (d : α) (hswo : SWO lt)
    (newEl : α) (startPos : Nat) (data : List α) (pos : Nat)
    (hlen : pos < data.length) (hdesc : IsDesc startPos pos)
    (H1 : SubHeapExcept lt d (data.set pos newEl) startPos pos)
    (H2 : startPos < pos → ∀ c, isChild pos c → c < data.length →
      lt ((data.set pos newEl).getD c d)
        ((data.set pos newEl).getD ((pos - 1) / 2) d) = false) :
    SubHeap lt d (siftdownFrom lt d newEl startPos data pos) startPos := by
  revert hlen hdesc H1 H2
  induction data, pos using siftdownFrom.induct lt d newEl startPos with
  | case1 data pos h parentPos parent hlt ih =>
    intro hlen hdesc H1 H2
    rw [siftdownFrom, dif_pos h, if_pos hlt]
    have hppdef : parentPos = (pos - 1) / 2 := rfl
    have hpdef : parent = data.getD parentPos d := rfl
    have hpp : parentPos < pos := by
      have := Nat.div_le_self (pos - 1) 2
      omega
    have hplen : parentPos < data.length := by omega
    have hdesc' : IsDesc startPos parentPos := isDesc_parent hdesc (by omega)
    have hsp_le : startPos ≤ parentPos := hdesc'.le
    -- value computations for v := data.set pos newEl
    have wA : ∀ k, k ≠ pos →
        (data.set pos newEl).getD k d = data.getD k d := fun k hk =>
      getD_set_ne data pos k newEl d (Ne.symm hk)
    have wB : (data.set pos newEl).getD pos d = newEl :=
      getD_set_self data pos newEl d hlen
    -- value computations for v' := (data.set pos parent).set parentPos newEl
    have vA : ∀ k, k ≠ pos → k ≠ parentPos →
        ((data.set pos parent).set parentPos newEl).getD k d =
          data.getD k d := by
      intro k h1 h2
      rw [getD_set_ne _ _ _ _ _ (Ne.symm h2), getD_set_ne _ _ _ _ _ (Ne.symm h1)]
    have vB : ((data.set pos parent).set parentPos newEl).getD parentPos d =
        newEl := getD_set_self _ _ _ _ (by simp; omega)
    have vC : ((data.set pos parent).set parentPos newEl).getD pos d =
        parent := by
      rw [getD_set_ne _ _ _ _ _ (show parentPos ≠ pos by omega)]
      exact getD_set_self data pos parent d hlen
    apply ih
    · simp
      omega
    · exact hdesc'
    · -- SubHeapExcept for the recursive call (hole at parentPos)
      intro i j hij hjlen hdj hjroot hjhole
      have hjlen' : j < data.length := by simpa using hjlen
      obtain ⟨hi_eq, hj0, hij_lt⟩ := isChild_parent hij
      by_cases hjp : j = pos
      · -- the edge (parentPos, pos): parent moved down, newEl above it
        subst hjp
        have hi : i = parentPos := by omega
        subst hi
        rw [vC, vB]
        exact hswo.asymm newEl parent hlt
      · by_cases hip : i = pos
        · -- j is a child of pos; compare against the moved-down parent
          have hchild : isChild pos j := hip ▸ hij
          have hjgt : pos < j := by
            rcases hchild with hc | hc <;> omega
          have hjpp : j ≠ parentPos := by omega
          rw [vA j hjp hjpp, hip, vC]
          have h2j := H2 h j hchild hjlen'
          rw [wA j hjp, ← hppdef, wA parentPos (by omega), ← hpdef] at h2j
          exact h2j
        · by_cases hipp : i = parentPos
          · -- j is the sibling of pos below parentPos
            have hchild : isChild parentPos j := hipp ▸ hij
            have hjgt : parentPos < j := by
              rcases hchild with hc | hc <;> omega
            rw [vA j hjp hjhole, hipp, vB]
            have hedge := H1 parentPos j hchild (by simp; omega)
              hdj (by omega) hjp
            rw [wA j hjp, wA parentPos (by omega), ← hpdef] at hedge
            exact hswo.notBelowOfBelow _ parent newEl hedge hlt
          · -- edge untouched by the two writes
            rw [vA j hjp hjhole, vA i hip hipp]
            have hedge := H1 i j hij (by simpa using hjlen) hdj hjroot hjp
            rw [wA j hjp, wA i hip] at hedge
            exact hedge
    · -- the guarded hypothesis for the recursive call
      intro hgp c hc hclen
      have hclen' : c < data.length := by simpa using hclen
      have hg_lt : (parentPos - 1) / 2 < parentPos := by
        have := Nat.div_le_self (parentPos - 1) 2
        omega
      have hgne1 : (parentPos - 1) / 2 ≠ pos := by omega
      have hgne2 : (parentPos - 1) / 2 ≠ parentPos := by omega
      have hppchild : isChild ((parentPos - 1) / 2) parentPos :=
        child_eq_of_parent (show 0 < parentPos by omega)
      have hEg := H1 _ parentPos hppchild (by simp; omega) hdesc'
        (by omega) (by omega)
      rw [wA parentPos (by omega), ← hpdef, wA _ hgne1] at hEg
      by_cases hcp : c = pos
      · subst hcp
        rw [vC, vA _ hgne1 hgne2]
        exact hEg
      · have hcgt : parentPos < c := by
          rcases hc with h' | h' <;> omega
        have hcpp : c ≠ parentPos := by omega
        rw [vA c hcp hcpp, vA _ hgne1 hgne2]
        have hdc : IsDesc startPos c := IsDesc.child parentPos c hdesc' hc
        have hEc := H1 parentPos c hc (by simp; omega) hdc (by omega) hcp
        rw [wA c hcp, wA parentPos (by omega), ← hpdef] at hEc
        exact hswo.negTrans _ _ _ hEc hEg
  | case2 data pos h parentPos parent hlt =>
    intro hlen hdesc H1 _H2
    rw [siftdownFrom, dif_pos h, if_neg hlt]
    intro i j hij hjlen hdj hjroot
    have hjlen' : j < data.length := by simpa using hjlen
    obtain ⟨hi_eq, hj0, hij_lt⟩ := isChild_parent hij
    by_cases hjp : j = pos
    · have hppdef : parentPos = (pos - 1) / 2 := rfl
      have hpp : parentPos < pos := by
        have := Nat.div_le_self (pos - 1) 2
        omega
      have hi : i = parentPos := by omega
      have hpdef : parent = data.getD parentPos d := rfl
      rw [hjp, hi, getD_set_self data pos newEl d hlen,
        getD_set_ne data pos parentPos newEl d (by omega), ← hpdef]
      simpa using hlt
    · exact H1 i j hij hjlen hdj hjroot hjp
  | case3 data pos h =>
    intro hlen hdesc H1 _H2
    rw [siftdownFrom, dif_neg h]
    have hps : pos = startPos := by
      have := hdesc.le
      omega
    intro i j hij hjlen hdj hjroot
    exact H1 i j hij hjlen hdj hjroot (by omega)

end HeapSpec2

end UbpeV


namespace UbpeV

section BubbleSpec

variable {α : Type}

theorem chooseChild_cases (lt : α → α → Bool) (d : α) (data : List α)
    (pos : Nat) :
    chooseChild lt d data pos = 2 * pos + 1 ∨
      (chooseChild lt d data pos = 2 * pos + 2 ∧
        2 * pos + 2 < data.length ∧
        lt (data.getD (2 * pos + 1) d) (data.getD (2 * pos + 2) d) = false) := by
  unfold chooseChild
  split
  · rename_i hc
    simp only [Bool.and_eq_true, decide_eq_true_eq, Bool.not_eq_true'] at hc
    right
    exact ⟨rfl, by omega, hc.2⟩
  · left
    rfl

theorem chooseChild_isChild (lt : α → α → Bool) (d : α) (data : List α)
    (pos : Nat) : isChild pos (chooseChild lt d data pos) := by
  rcases chooseChild_cases lt d data pos with h | h
  · exact Or.inl h
  · exact Or.inr h.1

theorem chooseChild_lt_length (lt : α → α → Bool) (d : α) (data : List α)
    (pos : Nat) (h : 2 * pos + 1 < data.length) :
    chooseChild lt d data pos < data.length := by
  rcases chooseChild_cases lt d data pos with hc | hc
  · omega
  · omega

theorem chooseChild_gt (lt : α → α → Bool) (d : α) (data : List α)
    (pos : Nat) : pos < chooseChild lt d data pos := by
  rcases chooseChild_cases lt d data pos with h | h <;> omega

/-- The sibling not chosen by `chooseChild` does not compare below the
chosen child. -/
theorem chooseChild_other (lt : α → α → Bool) (d : α) (hswo : SWO lt)
    (data : List α) (pos : Nat) (o : Nat) (ho : isChild pos o)
    (holen : o < data.length) (hne : o ≠ chooseChild lt d data pos) :
    lt (data.getD o d) (data.getD (chooseChild lt d data pos) d) = false := by
  rcases chooseChild_cases lt d data pos with hc | hc
  · -- chosen the left child; `o` must be the right child
    have ho2 : o = 2 * pos + 2 := by
      rcases ho with h' | h' <;> omega
    rw [hc]
    subst ho2
    -- the guard failed although the right child exists
    have : lt (data.getD (2 * pos + 1) d) (data.getD (2 * pos + 2) d) = true := by
      by_contra hfalse
      have hf : lt (data.getD (2 * pos + 1) d) (data.getD (2 * pos + 2) d) =
          false := by
        cases hx : lt (data.getD (2 * pos + 1) d) (data.getD (2 * pos + 2) d)
        · rfl
        · exact absurd hx hfalse
      have : chooseChild lt d data pos = 2 * pos + 1 + 1 := by
        unfold chooseChild
        rw [if_pos]
        simp only [Bool.and_eq_true, decide_eq_true_eq, Bool.not_eq_true']
        exact ⟨by omega, hf⟩
      omega
    exact hswo.asymm _ _ this
  · -- chosen the right child; `o` must be the left child
    have ho1 : o = 2 * pos + 1 := by
      rcases ho with h' | h' <;> omega
    rw [hc.1, ho1]
    exact hc.2.2

theorem siftupBubble_bounds (lt : α → α → Bool) (d : α) (data : List α)
    (pos : Nat) (hlen : pos < data.length) :
    pos ≤ (siftupBubble lt d data pos).2 ∧
      (siftupBubble lt d data pos).2 < data.length ∧
      IsDesc pos (siftupBubble lt d data pos).2 ∧
      data.length ≤ 2 * (siftupBubble lt d data pos).2 + 1 := by
  revert hlen
  induction data, pos using siftupBubble.induct lt d with
  | case1 data pos h c ih =>
    intro hlen
    rw [siftupBubble]
    simp only [dif_pos h]
    have hcc : c = chooseChild lt d data pos := rfl
    rw [← hcc]
    have hc1 : pos < c := hcc ▸ chooseChild_gt lt d data pos
    have hc2 : c < data.length := hcc ▸ chooseChild_lt_length lt d data pos h
    have ih' := ih (by simp; omega)
    obtain ⟨ih1, ih2, ih3, ih4⟩ := ih'
    simp only [List.length_set] at ih2 ih4
    refine ⟨by omega, ih2, ?_, ih4⟩
    have hchild : IsDesc pos c :=
      IsDesc.child pos c IsDesc.refl (hcc ▸ chooseChild_isChild lt d data pos)
    exact isDesc_trans hchild ih3
  | case2 data pos h =>
    intro hlen
    rw [siftupBubble]
    simp only [dif_neg h]
    exact ⟨le_refl pos, hlen, IsDesc.refl, by omega⟩

theorem siftupBubble_frame (lt : α → α → Bool) (d : α) (data : List α)
    (pos : Nat) (k : Nat) (hk : ¬ IsDesc pos k) :
    (siftupBubble lt d data pos).1.getD k d = data.getD k d := by
  revert hk
  induction data, pos using siftupBubble.induct lt d with
  | case1 data pos h c ih =>
    intro hk
    rw [siftupBubble]
    simp only [dif_pos h]
    have hcc : c = chooseChild lt d data pos := rfl
    have hchild : IsDesc pos c :=
      IsDesc.child pos c IsDesc.refl (hcc ▸ chooseChild_isChild lt d data pos)
    have hck : ¬ IsDesc c k := fun hd => hk (isDesc_trans hchild hd)
    rw [ih hck]
    exact getD_set_ne data pos k _ d (Ne.symm (fun he => hk (he ▸ IsDesc.refl)))
  | case2 data pos h =>
    intro _
    rw [siftupBubble]
    simp only [dif_neg h]

theorem siftupBubble_set_perm (lt : α → α → Bool) (d : α) (data : List α)
    (pos : Nat) (hlen : pos < data.length) (x : α) :
    ((siftupBubble lt d data pos).1.set (siftupBubble lt d data pos).2 x).Perm
      (data.set pos x) := by
  revert hlen
  induction data, pos using siftupBubble.induct lt d with
  | case1 data pos h c ih =>
    intro hlen
    rw [siftupBubble]
    simp only [dif_pos h]
    have hcc : c = chooseChild lt d data pos := rfl
    have hc1 : pos < c := hcc ▸ chooseChild_gt lt d data pos
    have hc2 : c < data.length := hcc ▸ chooseChild_lt_length lt d data pos h
    have step := ih (by simp; omega)
    refine step.trans ?_
    exact set_set_perm data pos c d x (by omega) hlen hc2
  | case2 data pos h =>
    intro hlen
    rw [siftupBubble]
    simp only [dif_neg h]
    exact List.Perm.refl _

end BubbleSpec

end UbpeV

namespace UbpeV

section BubbleHeap

variable {α : Type}

theorem siftupBubble_heap (lt : α → α → Bool) (d : α) (hswo : SWO lt)
    (data : List α) (pos : Nat) (hlen : pos < data.length)
    (Pre : ∀ i j, isChild i j → j < data.length → IsDesc pos i → i ≠ pos →
      lt (data.getD j d) (data.getD i d) = false) :
    ∀ i j, isChild i j → j < data.length → IsDesc pos i →
      j ≠ (siftupBubble lt d data pos).2 →
      lt ((siftupBubble lt d data pos).1.getD j d)
        ((siftupBubble lt d data pos).1.getD i d) = false := by
  revert hlen Pre
  induction data, pos using siftupBubble.induct lt d with
  | case2 data pos h =>
    intro hlen Pre i j hij hjlen hdi hjhole
    rw [siftupBubble] at hjhole ⊢
    simp only [dif_neg h] at hjhole ⊢
    by_cases hip : i = pos
    · exfalso
      rcases hij with h' | h' <;> omega
    · exact Pre i j hij hjlen hdi hip
  | case1 data pos h c ih =>
    intro hlen Pre
    rw [siftupBubble]
    simp only [dif_pos h]
    have hcc : c = chooseChild lt d data pos := rfl
    rw [← hcc]
    intro i j hij hjlen hdi hjhole
    have hcchild : isChild pos c := hcc ▸ chooseChild_isChild lt d data pos
    have hc1 : pos < c := hcc ▸ chooseChild_gt lt d data pos
    have hc2 : c < data.length := hcc ▸ chooseChild_lt_length lt d data pos h
    have hlen' : (data.set pos (data.getD c d)).length = data.length := by simp
    have Pre' : ∀ i j, isChild i j →
        j < (data.set pos (data.getD c d)).length → IsDesc c i → i ≠ c →
        lt ((data.set pos (data.getD c d)).getD j d)
          ((data.set pos (data.getD c d)).getD i d) = false := by
      intro i j hij hjlen2 hdi2 hine
      have hi_gt : c < i := lt_of_le_of_ne hdi2.le (Ne.symm hine)
      have hj_gt : i < j := (isChild_parent hij).2.2
      rw [getD_set_ne data pos j _ d (by omega),
        getD_set_ne data pos i _ d (by omega)]
      exact Pre i j hij (by simpa using hjlen2)
        (isDesc_trans (IsDesc.child pos c IsDesc.refl hcchild) hdi2)
        (by omega)
    have IH := ih (by simp; omega) Pre'
    have hframe : ∀ k, ¬ IsDesc c k →
        (siftupBubble lt d (data.set pos (data.getD c d)) c).1.getD k d =
          (data.set pos (data.getD c d)).getD k d :=
      fun k hk => siftupBubble_frame lt d _ c k hk
    by_cases hdc : IsDesc c i
    · exact IH i j hij (by simpa using hjlen) hdc hjhole
    · by_cases hip : i = pos
      · -- `i` is the vacated root of the local step
        have hfpos : (siftupBubble lt d (data.set pos (data.getD c d)) c).1.getD
            pos d = data.getD c d := by
          rw [hframe pos (fun hd => by have := hd.le; omega)]
          exact getD_set_self data pos _ d hlen
        have hjo : isChild pos j := hip ▸ hij
        by_cases hjc : j = c
        · -- edge from the vacated root into the chosen child
          have hdeep : 2 * c + 1 < (data.set pos (data.getD c d)).length := by
            by_contra hnd
            have hstop : siftupBubble lt d (data.set pos (data.getD c d)) c =
                (data.set pos (data.getD c d), c) := by
              rw [siftupBubble, dif_neg hnd]
            rw [hstop] at hjhole
            exact hjhole hjc
          have hstep : siftupBubble lt d (data.set pos (data.getD c d)) c =
              siftupBubble lt d
                ((data.set pos (data.getD c d)).set c
                  ((data.set pos (data.getD c d)).getD
                    (chooseChild lt d (data.set pos (data.getD c d)) c) d))
                (chooseChild lt d (data.set pos (data.getD c d)) c) := by
            rw [siftupBubble, dif_pos hdeep]
          have hagree : chooseChild lt d (data.set pos (data.getD c d)) c =
              chooseChild lt d data c := by
            unfold chooseChild
            rw [List.length_set,
              getD_set_ne data pos (2 * c + 1) _ d (by omega),
              getD_set_ne data pos (2 * c + 1 + 1) _ d (by omega)]
          have hc'1 : c < chooseChild lt d data c := chooseChild_gt lt d data c
          have hc'2 : chooseChild lt d data c < data.length :=
            chooseChild_lt_length lt d data c (by simpa using hdeep)
          have hfc : (siftupBubble lt d (data.set pos (data.getD c d))
              c).1.getD c d = data.getD (chooseChild lt d data c) d := by
            rw [hstep, hagree]
            rw [siftupBubble_frame lt d _ _ c
              (fun hd => by have := hd.le; omega)]
            rw [getD_set_self _ c _ d (by simp; omega)]
            exact getD_set_ne data pos _ _ d (by omega)
          rw [hjc, hip, hfc, hfpos]
          exact Pre c (chooseChild lt d data c)
            (chooseChild_isChild lt d data c) hc'2
            (IsDesc.child pos c IsDesc.refl hcchild) (by omega)
        · -- edge from the vacated root into the unchosen sibling
          have hogt : pos < j := by rcases hjo with h' | h' <;> omega
          have hfj : (siftupBubble lt d (data.set pos (data.getD c d))
              c).1.getD j d = data.getD j d := by
            rw [hframe j ?_]
            · exact getD_set_ne data pos j _ d (by omega)
            · intro hd
              rcases hcchild with h1 | h1 <;> rcases hjo with h2 | h2
              · exact hjc (by omega)
              · exact isDesc_sibling_disjoint (h1 ▸ hd) (h2 ▸ IsDesc.refl)
              · exact isDesc_sibling_disjoint (h2 ▸ IsDesc.refl) (h1 ▸ hd)
              · exact hjc (by omega)
          rw [hip, hfj, hfpos]
          have hother := chooseChild_other lt d hswo data pos j hjo hjlen
            (by rw [← hcc]; exact hjc)
          rw [← hcc] at hother
          exact hother
      · -- `i` lies in the sibling subtree: everything untouched
        have hio : ∃ o, isChild pos o ∧ ¬ IsDesc o c ∧ IsDesc o i := by
          rcases isDesc_split hdi with h1 | h1 | h1
          · exact absurd h1 hip
          · refine ⟨2 * pos + 1, Or.inl rfl, ?_, h1⟩
            intro hd
            rcases hcchild with h2 | h2
            · exact hdc (h2 ▸ h1)
            · exact isDesc_sibling_disjoint hd (h2 ▸ IsDesc.refl)
          · refine ⟨2 * pos + 2, Or.inr rfl, ?_, h1⟩
            intro hd
            rcases hcchild with h2 | h2
            · exact isDesc_sibling_disjoint (h2 ▸ IsDesc.refl) hd
            · exact hdc (h2 ▸ h1)
        obtain ⟨o, ho_child, ho_nc, ho_desc⟩ := hio
        have ho_gt : pos < o := by rcases ho_child with h' | h' <;> omega
        have hi_ge : o ≤ i := ho_desc.le
        have hj_gt : i < j := (isChild_parent hij).2.2
        have hdcj : ¬ IsDesc c j := by
          intro hd
          have hanc := isDesc_chain (IsDesc.child i j ho_desc hij) hd
          rcases hanc with h' | h'
          · exact ho_nc h'
          · rcases hcchild with h2 | h2 <;> rcases ho_child with h3 | h3
            · exact ho_nc (by rw [h2, h3]; exact IsDesc.refl)
            · exact isDesc_sibling_disjoint (h2 ▸ h') (h3 ▸ IsDesc.refl)
            · exact isDesc_sibling_disjoint (h3 ▸ IsDesc.refl) (h2 ▸ h')
            · exact ho_nc (by rw [h2, h3]; exact IsDesc.refl)
        have hfi : (siftupBubble lt d (data.set pos (data.getD c d))
            c).1.getD i d = data.getD i d := by
          rw [hframe i hdc]
          exact getD_set_ne data pos i _ d (by omega)
        have hfj : (siftupBubble lt d (data.set pos (data.getD c d))
            c).1.getD j d = data.getD j d := by
          rw [hframe j hdcj]
          exact getD_set_ne data pos j _ d (by omega)
        rw [hfi, hfj]
        exact Pre i j hij hjlen hdi hip

end BubbleHeap

end UbpeV

namespace UbpeV

section HeapOps

variable {α : Type}

theorem getD_append_lt (l : List α) (x : α) (n : Nat) (d : α)
    (h : n < l.length) : (l ++ [x]).getD n d = l.getD n d := by
  simp [List.getD, List.getElem?_append_left h]

theorem getD_append_len (l : List α) (x : α) (d : α) :
    (l ++ [x]).getD l.length d = x := by
  simp [List.getD, List.getElem?_append_right (le_refl _)]

theorem getD_dropLast (l : List α) (k : Nat) (d : α)
    (h : k < l.length - 1) : l.dropLast.getD k d = l.getD k d := by
  have hk : k < l.length := by omega
  simp [List.getD, List.getElem?_dropLast, h, List.getElem?_eq_getElem hk]

theorem siftup_perm (lt : α → α → Bool) (d : α) (data : List α) (pos : Nat)
    (hlen : pos < data.length) : (siftup lt d data pos).Perm data := by
  unfold siftup
  obtain ⟨hb1, hb2, hb3, hb4⟩ := siftupBubble_bounds lt d data pos hlen
  have hrest_len : (siftupBubble lt d data pos).2 <
      (siftupBubble lt d data pos).1.length := by
    rw [siftupBubble_length]
    exact hb2
  have hperm := siftdownFrom_perm lt d (data.getD pos d) pos
    ((siftupBubble lt d data pos).1.set (siftupBubble lt d data pos).2
      (data.getD pos d))
    (siftupBubble lt d data pos).2 (by simpa using hrest_len)
  rw [List.set_set] at hperm
  refine hperm.trans ?_
  have := siftupBubble_set_perm lt d data pos hlen (data.getD pos d)
  refine this.trans ?_
  rw [set_getD_self data pos d hlen]

theorem siftup_frame (lt : α → α → Bool) (d : α) (data : List α) (pos : Nat)
    (hlen : pos < data.length) (k : Nat) (hk : ¬ IsDesc pos k) :
    (siftup lt d data pos).getD k d = data.getD k d := by
  unfold siftup
  obtain ⟨hb1, hb2, hb3, hb4⟩ := siftupBubble_bounds lt d data pos hlen
  have hkr : k ≠ (siftupBubble lt d data pos).2 := fun he =>
    hk (he ▸ hb3)
  rw [siftdownFrom_frame lt d _ pos _ (siftupBubble lt d data pos).2
    (by rw [List.length_set, siftupBubble_length]; exact hb2) hb3 k hk]
  rw [getD_set_ne _ _ _ _ _ (Ne.symm hkr)]
  exact siftupBubble_frame lt d data pos k
    (fun hd => hk hd)

theorem siftup_subHeap (lt : α → α → Bool) (d : α) (hswo : SWO lt)
    (data : List α) (pos : Nat) (hlen : pos < data.length)
    (Pre : ∀ i j, isChild i j → j < data.length → IsDesc pos i → i ≠ pos →
      lt (data.getD j d) (data.getD i d) = false) :
    SubHeap lt d (siftup lt d data pos) pos := by
  unfold siftup
  obtain ⟨hb1, hb2, hb3, hb4⟩ := siftupBubble_bounds lt d data pos hlen
  have hblen : (siftupBubble lt d data pos).1.length = data.length :=
    siftupBubble_length lt d data pos
  have hmain := siftupBubble_heap lt d hswo data pos hlen Pre
  have hspec := siftdownFrom_spec lt d hswo (data.getD pos d) pos
    ((siftupBubble lt d data pos).1.set (siftupBubble lt d data pos).2
      (data.getD pos d))
    (siftupBubble lt d data pos).2
    (by rw [List.length_set, hblen]; exact hb2) hb3 ?_ ?_
  · -- transfer `SubHeap` of the sifted array (lengths agree definitionally)
    exact hspec
  · -- SubHeapExcept with hole at the bubble leaf
    rw [List.set_set]
    intro i j hij hjlen hdj hjroot hjhole
    have hjlen' : j < data.length := by
      rw [List.length_set, hblen] at hjlen
      exact hjlen
    obtain ⟨hi_eq, hj0, hij_lt⟩ := isChild_parent hij
    have hdi : IsDesc pos i := by
      have := isDesc_parent hdj hjroot
      rwa [← hi_eq] at this
    have hine_rest : i ≠ (siftupBubble lt d data pos).2 := by
      intro he
      have : data.length ≤ j := by
        rcases hij with h' | h' <;> omega
      omega
    rw [getD_set_ne _ _ _ _ _ (Ne.symm hjhole),
      getD_set_ne _ _ _ _ _ (Ne.symm hine_rest)]
    exact hmain i j hij hjlen' hdi hjhole
  · -- the guarded hypothesis: the hole is a leaf
    intro _ c hc hclen
    exfalso
    rw [List.length_set, hblen] at hclen
    rcases hc with h' | h' <;> omega

/-- `heapq::push` preserves the heap invariant and adds the element. -/
theorem hpush_spec (lt : α → α → Bool) (d : α) (hswo : SWO lt)
    (data : List α) (el : α) (hheap : IsHeap lt d data) :
    IsHeap lt d (hpush lt d data el) ∧
      (hpush lt d data el).Perm (data ++ [el]) := by
  unfold hpush siftdown
  have hsetid : (data ++ [el]).set data.length
      ((data ++ [el]).getD data.length d) = data ++ [el] :=
    set_getD_self _ _ _ (by simp)
  constructor
  · rw [isHeap_iff_subHeap_zero]
    apply siftdownFrom_spec lt d hswo _ 0 (data ++ [el]) data.length
      (by simp) (isDesc_zero _)
    · rw [hsetid]
      intro i j hij hjlen hdj hjroot hjhole
      have hjlen' : j < data.length + 1 := by simpa using hjlen
      have hjlt : j < data.length := by omega
      obtain ⟨hi_eq, hj0, hij_lt⟩ := isChild_parent hij
      rw [getD_append_lt _ _ _ _ hjlt, getD_append_lt _ _ _ _ (by omega)]
      exact hheap i j hij hjlt
    · intro hpos c hc hclen
      exfalso
      have : c < data.length + 1 := by simpa using hclen
      rcases hc with h' | h' <;> omega
  · have hperm := siftdownFrom_perm lt d ((data ++ [el]).getD data.length d) 0
      (data ++ [el]) data.length (by simp)
    rw [hsetid] at hperm
    exact hperm

end HeapOps

end UbpeV

namespace UbpeV

section HeapOps2

variable {α : Type}

theorem hpop_perm (lt : α → α → Bool) (d : α) (data : List α) (t : α)
    (rest : List α) (h : hpop lt d data = .ok (t, rest)) :
    (t :: rest).Perm data := by
  match data with
  | [] => simp [hpop] at h
  | [x] =>
    simp only [hpop, Except.ok.injEq, Prod.mk.injEq] at h
    rw [← h.1, ← h.2]
  | x :: y :: rs =>
    simp only [hpop, Except.ok.injEq, Prod.mk.injEq] at h
    rw [← h.1, ← h.2]
    have hlast : (x :: y :: rs).getLast (by simp) = (y :: rs).getLast (by simp) :=
      List.getLast_cons (by simp)
    have hdrop : (x :: y :: rs).dropLast = x :: (y :: rs).dropLast := by simp
    have hM : ((x :: y :: rs).dropLast.set 0 ((x :: y :: rs).getLast (by simp)))
        = (y :: rs).getLast (by simp) :: (y :: rs).dropLast := by
      rw [hdrop, hlast, List.set_cons_zero]
    have hperm1 : (siftup lt d
        ((x :: y :: rs).dropLast.set 0 ((x :: y :: rs).getLast (by simp))) 0).Perm
        ((x :: y :: rs).dropLast.set 0 ((x :: y :: rs).getLast (by simp))) := by
      apply siftup_perm
      simp
    refine List.Perm.cons x ?_
    refine hperm1.trans ?_
    rw [hM]
    have hsplit : (y :: rs).dropLast ++ [(y :: rs).getLast (by simp)] =
        y :: rs := List.dropLast_append_getLast (by simp)
    have hstep : ((y :: rs).getLast (by simp) ::
        (y :: rs).dropLast).Perm
        ((y :: rs).dropLast ++ [(y :: rs).getLast (by simp)]) :=
      (List.perm_append_singleton _ _).symm
    rw [hsplit] at hstep
    exact hstep

theorem hpop_head (lt : α → α → Bool) (d : α) (data : List α) (t : α)
    (rest : List α) (h : hpop lt d data = .ok (t, rest)) :
    t = data.getD 0 d := by
  match data with
  | [] => simp [hpop] at h
  | [x] =>
    simp only [hpop, Except.ok.injEq, Prod.mk.injEq] at h
    rw [← h.1]
    rfl
  | x :: y :: rs =>
    simp only [hpop, Except.ok.injEq, Prod.mk.injEq] at h
    rw [← h.1]
    rfl

theorem hpop_isHeap (lt : α → α → Bool) (d : α) (hswo : SWO lt)
    (data : List α) (t : α) (rest : List α)
    (h : hpop lt d data = .ok (t, rest)) (hheap : IsHeap lt d data) :
    IsHeap lt d rest := by
  match data with
  | [] => simp [hpop] at h
  | [x] =>
    simp only [hpop, Except.ok.injEq, Prod.mk.injEq] at h
    rw [← h.2]
    intro i j hij hjlen
    simp at hjlen
  | x :: y :: rs =>
    simp only [hpop, Except.ok.injEq, Prod.mk.injEq] at h
    rw [← h.2]
    rw [isHeap_iff_subHeap_zero]
    apply siftup_subHeap lt d hswo _ 0 (by simp)
    intro i j hij hjlen hdi hine
    have hi1 : 1 ≤ i := by omega
    have hij_lt : i < j := (isChild_parent hij).2.2
    have hMlen : ((x :: y :: rs).dropLast.set 0
        ((x :: y :: rs).getLast (by simp))).length = rs.length + 2 - 1 := by
      simp
    rw [hMlen] at hjlen
    have hval : ∀ k, 1 ≤ k → k < rs.length + 1 →
        ((x :: y :: rs).dropLast.set 0
          ((x :: y :: rs).getLast (by simp))).getD k d =
        (x :: y :: rs).getD k d := by
      intro k hk1 hk2
      rw [getD_set_ne _ _ _ _ _ (by omega)]
      exact getD_dropLast _ _ _ (by simp; omega)
    rw [hval j (by omega) (by omega), hval i (by omega) (by omega)]
    exact hheap i j hij (by simp; omega)

theorem isHeap_top_min (lt : α → α → Bool) (d : α) (hswo : SWO lt)
    (data : List α) (hheap : IsHeap lt d data) (j : Nat)
    (hj : j < data.length) :
    lt (data.getD j d) (data.getD 0 d) = false := by
  induction j using Nat.strong_induction_on with
  | _ j ih =>
    match j with
    | 0 => exact hswo.irrefl _
    | Nat.succ k =>
      have hpar : (k + 1 - 1) / 2 < k + 1 := by
        have := Nat.div_le_self k 2
        omega
      have hedge := hheap ((k + 1 - 1) / 2) (k + 1)
        (child_eq_of_parent (by omega)) hj
      have hup := ih ((k + 1 - 1) / 2) hpar (by omega)
      exact hswo.negTrans _ _ _ hedge hup

theorem drainAll_perm_aux (lt : α → α → Bool) (d : α) :
    ∀ n (data : List α), data.length ≤ n →
      (drainAll lt d data).Perm data := by
  intro n
  induction n with
  | zero =>
    intro data hlen
    have hnil : data = [] := by
      cases data
      · rfl
      · simp at hlen
    subst hnil
    rw [drainAll.eq_def]
    split
    · exact List.Perm.refl _
    · rename_i t rest heq
      simp [hpop] at heq
  | succ n ih =>
    intro data hlen
    rw [drainAll.eq_def]
    split
    · rename_i e heq
      match data, heq with
      | [], _ => exact List.Perm.refl _
      | [x], heq => simp [hpop] at heq
      | x :: y :: rs, heq => simp [hpop] at heq
    · rename_i t rest heq
      have hl := hpop_length lt d data t rest heq
      exact (List.Perm.cons t (ih rest (by omega))).trans
        (hpop_perm lt d data t rest heq)

theorem drainAll_perm (lt : α → α → Bool) (d : α) (data : List α) :
    (drainAll lt d data).Perm data :=
  drainAll_perm_aux lt d data.length data (le_refl _)

end HeapOps2

end UbpeV

namespace UbpeV

section HeapOps3

variable {α : Type}

theorem drainAll_sorted_aux (lt : α → α → Bool) (d : α) (hswo : SWO lt) :
    ∀ n (data : List α), data.length ≤ n → IsHeap lt d data →
      List.Pairwise (fun a b => lt b a = false) (drainAll lt d data) := by
  intro n
  induction n with
  | zero =>
    intro data hlen _
    have hnil : data = [] := by
      cases data
      · rfl
      · simp at hlen
    subst hnil
    rw [drainAll.eq_def]
    split
    · exact List.Pairwise.nil
    · rename_i t rest heq
      simp [hpop] at heq
  | succ n ih =>
    intro data hlen hheap
    rw [drainAll.eq_def]
    split
    · exact List.Pairwise.nil
    · rename_i t rest heq
      have hl := hpop_length lt d data t rest heq
      refine List.Pairwise.cons ?_ ?_
      · intro b hb
        have hbrest : b ∈ rest := (drainAll_perm lt d rest).mem_iff.mp hb
        have hbdata : b ∈ data :=
          (hpop_perm lt d data t rest heq).mem_iff.mp
            (List.mem_cons_of_mem t hbrest)
        obtain ⟨k, hk, he⟩ := List.mem_iff_getElem.mp hbdata
        have hbk : data.getD k d = b := by
          simp [List.getD, List.getElem?_eq_getElem hk, he]
        have htop := isHeap_top_min lt d hswo data hheap k hk
        rw [hbk] at htop
        rw [hpop_head lt d data t rest heq]
        exact htop
      · exact ih rest (by omega) (hpop_isHeap lt d hswo data t rest heq hheap)

theorem drainAll_sorted (lt : α → α → Bool) (d : α) (hswo : SWO lt)
    (data : List α) (hheap : IsHeap lt d data) :
    List.Pairwise (fun a b => lt b a = false) (drainAll lt d data) :=
  drainAll_sorted_aux lt d hswo data.length data (le_refl _) hheap

theorem hreplace_spec (lt : α → α → Bool) (d : α) (hswo : SWO lt)
    (data : List α) (el : α) (t : α) (h' : List α)
    (hheap : IsHeap lt d data)
    (h : hreplace lt d data el = .ok (t, h')) :
    t = data.getD 0 d ∧ h'.Perm (data.set 0 el) ∧ IsHeap lt d h' := by
  match data with
  | [] => simp [hreplace] at h
  | x :: rest =>
    simp only [hreplace, Except.ok.injEq, Prod.mk.injEq] at h
    refine ⟨by rw [← h.1]; rfl, ?_, ?_⟩
    · rw [← h.2]
      exact siftup_perm lt d _ 0 (by simp)
    · rw [← h.2, isHeap_iff_subHeap_zero]
      apply siftup_subHeap lt d hswo _ 0 (by simp)
      intro i j hij hjlen hdi hine
      have hi1 : 1 ≤ i := by omega
      have hij_lt : i < j := (isChild_parent hij).2.2
      rw [getD_set_ne _ _ _ _ _ (by omega), getD_set_ne _ _ _ _ _ (by omega)]
      exact hheap i j hij (by simpa using hjlen)

theorem hpushpop_spec (lt : α → α → Bool) (d : α) (hswo : SWO lt)
    (data : List α) (el : α) (hheap : IsHeap lt d data) :
    IsHeap lt d (hpushpop lt d data el).2 ∧
      ((hpushpop lt d data el).1 :: (hpushpop lt d data el).2).Perm
        (el :: data) := by
  match data with
  | [] =>
    refine ⟨?_, List.Perm.refl _⟩
    intro i j hij hjlen
    simp [hpushpop] at hjlen
  | x :: rest =>
    by_cases hlt : lt x el = true
    · simp only [hpushpop, hlt, if_pos]
      constructor
      · rw [isHeap_iff_subHeap_zero]
        apply siftup_subHeap lt d hswo _ 0 (by simp)
        intro i j hij hjlen hdi hine
        have hi1 : 1 ≤ i := by omega
        have hij_lt : i < j := (isChild_parent hij).2.2
        rw [getD_set_ne _ _ _ _ _ (by omega), getD_set_ne _ _ _ _ _ (by omega)]
        exact hheap i j hij (by simpa using hjlen)
      · have hperm := siftup_perm lt d ((x :: rest).set 0 el) 0 (by simp)
        rw [List.set_cons_zero] at hperm
        refine (List.Perm.cons x hperm).trans ?_
        exact List.Perm.swap el x rest
    · have hlt' : lt x el = false := by
        cases hx : lt x el
        · rfl
        · exact absurd hx hlt
      simp only [hpushpop, hlt', Bool.false_eq_true, if_neg, not_false_iff]
      exact ⟨hheap, List.Perm.refl _⟩

/-- Heap property restricted to parents with index at least `k` (the
invariant of the bottom-up heapify loop). -/
def HeapFrom (lt : α → α → Bool) (d : α) (l : List α) (k : Nat) : Prop :=
  ∀ i j, isChild i j → j < l.length → k ≤ i →
    lt (l.getD j d) (l.getD i d) = false

theorem heapifyGo_spec (lt : α → α → Bool) (d : α) (hswo : SWO lt) :
    ∀ m (data : List α), 2 * m ≤ data.length → HeapFrom lt d data m →
      (heapifyGo lt d data m).Perm data ∧
        IsHeap lt d (heapifyGo lt d data m) := by
  intro m
  induction m with
  | zero =>
    intro data _ hf
    refine ⟨List.Perm.refl _, ?_⟩
    intro i j hij hjlen
    exact hf i j hij hjlen (Nat.zero_le i)
  | succ m ih =>
    intro data hm hf
    simp only [heapifyGo]
    have hmlen : m < data.length := by omega
    have hpre : ∀ i j, isChild i j → j < data.length → IsDesc m i →
        i ≠ m → lt (data.getD j d) (data.getD i d) = false := by
      intro i j hij hjlen hdi hine
      have := hdi.le
      exact hf i j hij hjlen (by omega)
    have hsub := siftup_subHeap lt d hswo data m hmlen hpre
    have hperm := siftup_perm lt d data m hmlen
    have hlen2 : (siftup lt d data m).length = data.length :=
      siftup_length lt d data m
    have hf' : HeapFrom lt d (siftup lt d data m) m := by
      intro i j hij hjlen hki
      rw [hlen2] at hjlen
      by_cases hdi : IsDesc m i
      · exact hsub i j hij (by rw [hlen2]; exact hjlen)
          (IsDesc.child i j hdi hij)
          (by have := (isChild_parent hij).2.2; omega)
      · have hdj : ¬ IsDesc m j := by
          intro hd
          have hjne : j ≠ m := by
            have := (isChild_parent hij).2.2
            omega
          have hpd := isDesc_parent hd hjne
          rw [← (isChild_parent hij).1] at hpd
          exact hdi hpd
        rw [siftup_frame lt d data m hmlen i hdi,
          siftup_frame lt d data m hmlen j hdj]
        have hine : i ≠ m := fun he => hdi (he ▸ IsDesc.refl)
        exact hf i j hij hjlen (by omega)
    have hres := ih (siftup lt d data m) (by rw [hlen2]; omega) hf'
    exact ⟨hres.1.trans hperm, hres.2⟩

theorem heapify_spec (lt : α → α → Bool) (d : α) (hswo : SWO lt)
    (data : List α) :
    (heapify lt d data).Perm data ∧ IsHeap lt d (heapify lt d data) := by
  unfold heapify
  apply heapifyGo_spec lt d hswo (data.length / 2) data (by omega)
  intro i j hij hjlen hki
  exfalso
  rcases hij with h' | h' <;> omega

end HeapOps3

end UbpeV

namespace UbpeV

/-! ## `ubpe::TopElements` (top_elements.hpp) and `ubpe::nlargest` (heapq.hpp)

`TopElements` is a bounded min-heap: `push` inserts while below capacity and
otherwise replaces the root when the new element compares above it with the
element type's `operator>` (`gt`).  `sorted()` fills a buffer back-to-front
with successive pops, i.e. it returns the reverse of the pop order. -/

section TopElements

variable {α : Type}

/-- `TopElements::push` (the `const&` overload; the `&&` overload compares a
moved-from element whose sequence is empty, which admits weakly more
candidates to `pushpop`, but `pushpop` re-checks with the heap comparator, so
the observable result is the same). -/
def tePush (lt gt : α → α → Bool) (d : α) (n : Nat) (heap : List α)
    (el : α) : Except Err (List α) :=
  if heap.length < n then .ok (hpush lt d heap el)
  else
    match heap with
    | [] => .error .emptyTop
    | x :: _ => if gt el x then .ok (hpushpop lt d heap el).2 else .ok heap

/-- `TopElements::sorted`. -/
def teSorted (lt : α → α → Bool) (d : α) (heap : List α) : List α :=
  (drainAll lt d heap).reverse

theorem hpush_length (lt : α → α → Bool) (d : α) (data : List α) (el : α) :
    (hpush lt d data el).length = data.length + 1 := by
  unfold hpush siftdown
  rw [siftdownFrom_length]
  simp

theorem hpushpop_length (lt : α → α → Bool) (d : α) (data : List α)
    (el : α) : (hpushpop lt d data el).2.length = data.length := by
  match data with
  | [] => rfl
  | x :: rest =>
    by_cases hlt : lt x el = true
    · simp only [hpushpop, hlt, if_pos]
      rw [siftup_length]
      simp
    · have hlt' : lt x el = false := by
        cases hx : lt x el
        · rfl
        · exact absurd hx hlt
      simp [hpushpop, hlt']

theorem hreplace_length (lt : α → α → Bool) (d : α) (data : List α)
    (el t : α) (h' : List α) (h : hreplace lt d data el = .ok (t, h')) :
    h'.length = data.length := by
  match data with
  | [] => simp [hreplace] at h
  | x :: rest =>
    simp only [hreplace, Except.ok.injEq, Prod.mk.injEq] at h
    rw [← h.2, siftup_length]
    simp

theorem hpush_perm (lt : α → α → Bool) (d : α) (data : List α) (el : α) :
    (hpush lt d data el).Perm (data ++ [el]) := by
  unfold hpush siftdown
  have hsetid : (data ++ [el]).set data.length
      ((data ++ [el]).getD data.length d) = data ++ [el] :=
    set_getD_self _ _ _ (by simp)
  have hperm := siftdownFrom_perm lt d ((data ++ [el]).getD data.length d) 0
    (data ++ [el]) data.length (by simp)
  rw [hsetid] at hperm
  exact hperm

theorem mem_of_mem_set {l : List α} {i : Nat} {a x : α}
    (h : x ∈ l.set i a) : x ∈ l ∨ x = a := by
  induction l generalizing i with
  | nil => simp at h
  | cons y t ih =>
    match i with
    | 0 =>
      rw [List.set_cons_zero] at h
      rcases List.mem_cons.mp h with h' | h'
      · exact Or.inr h'
      · exact Or.inl (List.mem_cons_of_mem y h')
    | Nat.succ k =>
      rw [List.set_cons_succ] at h
      rcases List.mem_cons.mp h with h' | h'
      · exact Or.inl (h' ▸ List.mem_cons_self y t)
      · rcases ih h' with h'' | h''
        · exact Or.inl (List.mem_cons_of_mem y h'')
        · exact Or.inr h''

theorem hpushpop_mem (lt : α → α → Bool) (d : α) (data : List α) (el : α) :
    ∀ z ∈ (hpushpop lt d data el).2, z ∈ data ∨ z = el := by
  intro z hz
  match data with
  | [] => simp [hpushpop] at hz
  | x :: rest =>
    by_cases hlt : lt x el = true
    · simp only [hpushpop, hlt, if_pos] at hz
      have hperm := siftup_perm lt d ((x :: rest).set 0 el) 0 (by simp)
      rcases mem_of_mem_set (hperm.mem_iff.mp hz) with h1 | h1
      · exact Or.inl h1
      · exact Or.inr h1
    · have hlt' : lt x el = false := by
        cases hx : lt x el
        · rfl
        · exact absurd hx hlt
      simp only [hpushpop, hlt', Bool.false_eq_true, if_neg,
        not_false_iff] at hz
      exact Or.inl hz

theorem tePush_length (lt gt : α → α → Bool) (d : α) (n : Nat)
    (heap : List α) (el : α) (h' : List α) (hcap : heap.length ≤ n)
    (h : tePush lt gt d n heap el = .ok h') : h'.length ≤ n := by
  unfold tePush at h
  split at h
  · rename_i hsz
    simp only [Except.ok.injEq] at h
    rw [← h, hpush_length]
    omega
  · rename_i hsz
    split at h
    next => exact Except.noConfusion h
    next =>
      split at h <;> simp only [Except.ok.injEq] at h
      · rw [← h, hpushpop_length]
        exact hcap
      · rw [← h]
        exact hcap

theorem tePush_isHeap (lt gt : α → α → Bool) (d : α) (hswo : SWO lt)
    (n : Nat) (heap : List α) (el : α) (h' : List α)
    (hheap : IsHeap lt d heap)
    (h : tePush lt gt d n heap el = .ok h') : IsHeap lt d h' := by
  unfold tePush at h
  split at h
  · simp only [Except.ok.injEq] at h
    rw [← h]
    exact (hpush_spec lt d hswo heap el hheap).1
  · split at h
    next => exact Except.noConfusion h
    next =>
      split at h <;> simp only [Except.ok.injEq] at h
      · rw [← h]
        exact (hpushpop_spec lt d hswo _ el hheap).1
      · rw [← h]
        exact hheap

theorem tePush_subset (lt gt : α → α → Bool) (d : α) (hswo : SWO lt)
    (n : Nat) (heap : List α) (el : α) (h' : List α)
    (h : tePush lt gt d n heap el = .ok h') :
    ∀ x ∈ h', x ∈ heap ∨ x = el := by
  intro z hz
  unfold tePush at h
  split at h
  · simp only [Except.ok.injEq] at h
    rw [← h] at hz
    have hperm := hpush_perm lt d heap el
    have := hperm.mem_iff.mp hz
    rcases List.mem_append.mp this with h1 | h1
    · exact Or.inl h1
    · exact Or.inr (List.mem_singleton.mp h1)
  · split at h
    next => exact Except.noConfusion h
    next =>
      split at h <;> simp only [Except.ok.injEq] at h
      · rw [← h] at hz
        exact hpushpop_mem lt d _ el z hz
      · rw [← h] at hz
        exact Or.inl hz

end TopElements

end UbpeV

namespace UbpeV

section TeSorted

variable {α : Type}

theorem teSorted_sorted (lt : α → α → Bool) (d : α) (hswo : SWO lt)
    (heap : List α) (hheap : IsHeap lt d heap) :
    List.Pairwise (fun a b => lt a b = false) (teSorted lt d heap) := by
  unfold teSorted
  rw [List.pairwise_reverse]
  exact drainAll_sorted lt d hswo heap hheap

theorem teSorted_perm (lt : α → α → Bool) (d : α) (heap : List α) :
    (teSorted lt d heap).Perm heap :=
  (List.reverse_perm _).trans (drainAll_perm lt d heap)

end TeSorted

/-! ## `ubpe::nlargest` (heapq.hpp), value-only overload with a comparator

This is the overload `PairCounter::most_common` calls.  Its comparator is
documented as a greater-than comparison; for `n = 1` it is handed to
`std::max_element` as a less-than (so the call returns a least element), for
`n ≥ |data|` the list is stably sorted with `compare(b, a)` as the sort's
less-than (ascending under `compare`), and otherwise a min-heap over tuples
`(value, insertion order, value)` retains the `n` largest, popped back to
front (descending under `compare`).  `std::stable_sort` is embedded as
`List.mergeSort` with the negated flipped comparator, which is the unique
stable order satisfying the same sortedness property. -/

section Nlargest

variable {α : Type}

/-- The fold performed by `std::max_element(first, last, comp)`. -/
def maxElementFold (cmp : α → α → Bool) : α → List α → α
  | c, [] => c
  | c, x :: xs => maxElementFold cmp (if cmp c x then x else c) xs

/-- The tuple comparator built inside `nlargest`: compare first components
with `compare` flipped; on a two-sided tie compare insertion orders. -/
def tupLT (cmp : α → α → Bool) (a b : α × Int × α) : Bool :=
  if !(cmp a.1 b.1) && !(cmp b.1 a.1) then decide (a.2.1 < b.2.1)
  else cmp b.1 a.1

theorem tupLT_eval_tie (cmp : α → α → Bool) (a b : α × Int × α)
    (h1 : cmp a.1 b.1 = false) (h2 : cmp b.1 a.1 = false) :
    tupLT cmp a b = decide (a.2.1 < b.2.1) := by
  simp [tupLT, h1, h2]

theorem tupLT_eval_cmp (cmp : α → α → Bool) (a b : α × Int × α)
    (h : ¬ (cmp a.1 b.1 = false ∧ cmp b.1 a.1 = false)) :
    tupLT cmp a b = cmp b.1 a.1 := by
  have hc : ((!(cmp a.1 b.1) && !(cmp b.1 a.1)) = true) ↔
      (cmp a.1 b.1 = false ∧ cmp b.1 a.1 = false) := by simp
  unfold tupLT
  rw [if_neg (fun hx => h (hc.mp hx))]

theorem tupLT_false_fst (cmp : α → α → Bool) (a b : α × Int × α)
    (h : tupLT cmp a b = false) : cmp b.1 a.1 = false := by
  by_cases ht : cmp a.1 b.1 = false ∧ cmp b.1 a.1 = false
  · exact ht.2
  · rw [tupLT_eval_cmp cmp a b ht] at h
    exact h

theorem swo_tupLT (cmp : α → α → Bool) (h : SWO cmp) : SWO (tupLT cmp) := by
  constructor
  · intro a
    rw [tupLT_eval_tie cmp a a (h.irrefl _) (h.irrefl _)]
    simp
  · intro a b c hab hbc
    by_cases t1 : cmp a.1 b.1 = false ∧ cmp b.1 a.1 = false
    · by_cases t2 : cmp b.1 c.1 = false ∧ cmp c.1 b.1 = false
      · rw [tupLT_eval_tie cmp a b t1.1 t1.2] at hab
        rw [tupLT_eval_tie cmp b c t2.1 t2.2] at hbc
        have hac1 : cmp a.1 c.1 = false := h.negTrans _ _ _ t1.1 t2.1
        have hac2 : cmp c.1 a.1 = false := h.negTrans _ _ _ t2.2 t1.2
        rw [tupLT_eval_tie cmp a c hac1 hac2]
        simp at hab hbc ⊢
        omega
      · rw [tupLT_eval_cmp cmp b c t2] at hbc
        have hca : cmp c.1 a.1 = true := by
          by_contra hx
          have hca' : cmp c.1 a.1 = false := by
            cases hy : cmp c.1 a.1
            · rfl
            · exact absurd hy hx
          have := h.negTrans _ _ _ hca' t1.1
          rw [hbc] at this
          exact Bool.noConfusion this
        rw [tupLT_eval_cmp cmp a c (fun hx => by rw [hca] at hx; simp at hx)]
        exact hca
    · rw [tupLT_eval_cmp cmp a b t1] at hab
      by_cases t2 : cmp b.1 c.1 = false ∧ cmp c.1 b.1 = false
      · have hca : cmp c.1 a.1 = true := by
          by_contra hx
          have hca' : cmp c.1 a.1 = false := by
            cases hy : cmp c.1 a.1
            · rfl
            · exact absurd hy hx
          have := h.negTrans _ _ _ t2.1 hca'
          rw [hab] at this
          exact Bool.noConfusion this
        rw [tupLT_eval_cmp cmp a c (fun hx => by rw [hca] at hx; simp at hx)]
        exact hca
      · rw [tupLT_eval_cmp cmp b c t2] at hbc
        have hca : cmp c.1 a.1 = true := h.trans _ _ _ hbc hab
        rw [tupLT_eval_cmp cmp a c (fun hx => by rw [hca] at hx; simp at hx)]
        exact hca
  · intro a b c hab hbc
    have f1 : cmp b.1 a.1 = false := tupLT_false_fst cmp a b hab
    have f2 : cmp c.1 b.1 = false := tupLT_false_fst cmp b c hbc
    have f3 : cmp c.1 a.1 = false := h.negTrans _ _ _ f2 f1
    by_cases tac : cmp a.1 c.1 = false ∧ cmp c.1 a.1 = false
    · rw [tupLT_eval_tie cmp a c tac.1 tac.2]
      by_cases t1 : cmp a.1 b.1 = false ∧ cmp b.1 a.1 = false
      · by_cases t2 : cmp b.1 c.1 = false ∧ cmp c.1 b.1 = false
        · rw [tupLT_eval_tie cmp a b t1.1 t1.2] at hab
          rw [tupLT_eval_tie cmp b c t2.1 t2.2] at hbc
          simp at hab hbc ⊢
          omega
        · exfalso
          have hbc1 : cmp b.1 c.1 = true := by
            rcases Decidable.not_and_iff_or_not.mp t2 with hx | hx
            · cases hy : cmp b.1 c.1
              · exact absurd hy hx
              · rfl
            · exact absurd f2 hx
          have := h.negTrans _ _ _ t1.2 tac.1
          rw [hbc1] at this
          exact Bool.noConfusion this
      · exfalso
        have hab1 : cmp a.1 b.1 = true := by
          rcases Decidable.not_and_iff_or_not.mp t1 with hx | hx
          · cases hy : cmp a.1 b.1
            · exact absurd hy hx
            · rfl
          · exact absurd f1 hx
        have := h.negTrans _ _ _ tac.1 f2
        rw [hab1] at this
        exact Bool.noConfusion this
    · rw [tupLT_eval_cmp cmp a c tac]
      exact f3

end Nlargest

end UbpeV

namespace UbpeV

section Nlargest2

variable {α : Type}

/-- The scan loop of the heap path of `nlargest`: for each remaining element
compare against the current heap root's key and `replace` when it is
greater. -/
def nlScan (cmp : α → α → Bool) (dt : α × Int × α) :
    List (α × Int × α) → Int → List α → Except Err (List (α × Int × α))
  | heap, _, [] => .ok heap
  | heap, order, x :: xs =>
    match heap with
    | [] => .error .emptyTop
    | h0 :: hrest =>
      if cmp x h0.1 then
        match hreplace (tupLT cmp) dt (h0 :: hrest) (x, order, x) with
        | .error e => .error e
        | .ok (_, heap') => nlScan cmp dt heap' (order - 1) xs
      else nlScan cmp dt (h0 :: hrest) order xs

/-- `ubpe::nlargest(data, n, comp)` (value-only overload, comparator given,
no key extractor): the four code paths of heapq.hpp. -/
def nlargestC (cmp : α → α → Bool) (d : α) (data : List α) (n : Nat) :
    Except Err (List α) :=
  if 2 ^ 63 - 1 < n then .error .oob
  else
    match data with
    | [] => .ok []
    | x :: xs =>
      if n = 0 then .ok []
      else if n = 1 then .ok [maxElementFold cmp x xs]
      else if (x :: xs).length ≤ n then
        .ok ((x :: xs).mergeSort (fun a b => !(cmp a b)))
      else
        match nlScan cmp (d, 0, d)
            (heapify (tupLT cmp) (d, 0, d)
              (((x :: xs).take n).enum.map (fun p => (p.2, -(p.1 : Int), p.2))))
            (-(n : Int)) ((x :: xs).drop n) with
        | .error e => .error e
        | .ok heapF =>
          .ok (((drainAll (tupLT cmp) (d, 0, d) heapF).map
            (fun t => t.2.2)).reverse)

theorem heapifyGo_length (lt : α → α → Bool) (d : α) (data : List α)
    (m : Nat) : (heapifyGo lt d data m).length = data.length := by
  induction m generalizing data with
  | zero => rfl
  | succ m ih =>
    simp only [heapifyGo]
    rw [ih, siftup_length]

theorem heapify_length (lt : α → α → Bool) (d : α) (data : List α) :
    (heapify lt d data).length = data.length := heapifyGo_length lt d data _

theorem nlScan_length (cmp : α → α → Bool) (dt : α × Int × α)
    (heap : List (α × Int × α)) (order : Int) (xs : List α)
    (hF : List (α × Int × α)) (h : nlScan cmp dt heap order xs = .ok hF) :
    hF.length = heap.length := by
  induction xs generalizing heap order with
  | nil =>
    simp only [nlScan, Except.ok.injEq] at h
    rw [← h]
  | cons x xs ih =>
    match heap with
    | [] => exact Except.noConfusion h
    | h0 :: hrest =>
      simp only [nlScan] at h
      split at h
      · split at h
        · exact Except.noConfusion h
        · rename_i t2 heap2 heq
          have := hreplace_length (tupLT cmp) dt (h0 :: hrest) (x, order, x)
            t2 heap2 heq
          rw [ih heap2 (order - 1) h, this]
      · exact ih (h0 :: hrest) order h

theorem nlScan_isHeap (cmp : α → α → Bool) (hswo : SWO cmp)
    (dt : α × Int × α) (heap : List (α × Int × α)) (order : Int)
    (xs : List α) (hF : List (α × Int × α))
    (hheap : IsHeap (tupLT cmp) dt heap)
    (h : nlScan cmp dt heap order xs = .ok hF) :
    IsHeap (tupLT cmp) dt hF := by
  induction xs generalizing heap order with
  | nil =>
    simp only [nlScan, Except.ok.injEq] at h
    rw [← h]
    exact hheap
  | cons x xs ih =>
    match heap with
    | [] => exact Except.noConfusion h
    | h0 :: hrest =>
      simp only [nlScan] at h
      split at h
      · split at h
        · exact Except.noConfusion h
        · rename_i t2 heap2 heq
          have hrep := hreplace_spec (tupLT cmp) dt (swo_tupLT cmp hswo)
            (h0 :: hrest) (x, order, x) t2 heap2 hheap heq
          exact ih heap2 (order - 1) hrep.2.2 h
      · exact ih (h0 :: hrest) order hheap h

theorem nlScan_diag (cmp : α → α → Bool) (dt : α × Int × α)
    (heap : List (α × Int × α)) (order : Int) (xs : List α)
    (hF : List (α × Int × α))
    (hdiag : ∀ t ∈ heap, t.1 = t.2.2)
    (h : nlScan cmp dt heap order xs = .ok hF) :
    ∀ t ∈ hF, t.1 = t.2.2 := by
  induction xs generalizing heap order with
  | nil =>
    simp only [nlScan, Except.ok.injEq] at h
    rw [← h]
    exact hdiag
  | cons x xs ih =>
    match heap with
    | [] => exact Except.noConfusion h
    | h0 :: hrest =>
      simp only [nlScan] at h
      split at h
      · split at h
        · exact Except.noConfusion h
        · rename_i t2 heap2 heq
          refine ih heap2 (order - 1) ?_ h
          intro u hu
          simp only [hreplace, Except.ok.injEq, Prod.mk.injEq] at heq
          rw [← heq.2] at hu
          have hperm := siftup_perm (tupLT cmp) dt
            ((h0 :: hrest).set 0 (x, order, x)) 0 (by simp)
          rcases mem_of_mem_set (hperm.mem_iff.mp hu) with h1 | h1
          · exact hdiag u h1
          · rw [h1]
      · exact ih (h0 :: hrest) order hdiag h

end Nlargest2

end UbpeV


namespace UbpeV

section NlargestSpec

variable {α : Type}

theorem nlargestC_spec (cmp : α → α → Bool) (d : α) (hswo : SWO cmp)
    (data : List α) (n : Nat) (l : List α)
    (h : nlargestC cmp d data n = .ok l) :
    l.length ≤ n ∧
      (data.length ≤ n → List.Pairwise (fun a b => cmp a b = false) l) ∧
      (n < data.length → List.Pairwise (fun a b => cmp b a = false) l) := by
  unfold nlargestC at h
  split at h
  · exact Except.noConfusion h
  · split at h
    next =>
      simp only [Except.ok.injEq] at h
      rw [← h]
      exact ⟨by simp, fun _ => List.Pairwise.nil, fun _ => List.Pairwise.nil⟩
    next x xs =>
      split at h
      · simp only [Except.ok.injEq] at h
        rw [← h]
        exact ⟨by simp, fun _ => List.Pairwise.nil, fun _ => List.Pairwise.nil⟩
      · split at h
        · rename_i hn0 hn1
          simp only [Except.ok.injEq] at h
          rw [← h]
          refine ⟨by simp [hn1], fun _ => ?_, fun _ => ?_⟩
          · simp
          · simp
        · split at h
          · -- stable-sort path: `n >= |data|`, sorted ascending under `cmp`
            rename_i hn0 hn1 hge
            simp only [Except.ok.injEq] at h
            rw [← h]
            have hperm := List.mergeSort_perm (x :: xs) (fun a b => !(cmp a b))
            refine ⟨by rw [hperm.length_eq]; exact hge, ?_, ?_⟩
            · intro _
              have hsort := @List.sorted_mergeSort _
                (fun a b => !(cmp a b)) ?_ ?_ (x :: xs)
              · refine hsort.imp ?_
                intro a b hab
                simpa using hab
              · intro a b c hab hbc
                simp only [Bool.not_eq_true'] at hab hbc ⊢
                exact hswo.negTrans a b c hab hbc
              · intro a b
                simp only [Bool.or_eq_true, Bool.not_eq_true']
                by_cases hab : cmp a b = true
                · exact Or.inr (hswo.asymm a b hab)
                · refine Or.inl ?_
                  cases hx : cmp a b
                  · rfl
                  · exact absurd hx hab
            · intro hlt
              exact absurd hge (by omega)
          · -- heap path: `n < |data|`, sorted descending under `cmp`
            rename_i hn0 hn1 hge
            split at h
            · exact Except.noConfusion h
            · rename_i heapF heq
              simp only [Except.ok.injEq] at h
              rw [← h]
              have hswoT := swo_tupLT cmp hswo
              have htups_len :
                  ((((x :: xs).take n).enum.map
                    (fun p => (p.2, -(p.1 : Int), p.2))).length) = n := by
                have hge2 : ¬ (x :: xs).length ≤ n := hge
                simp only [List.length_cons] at hge2
                simp
                omega
              have hheap0 := heapify_spec (tupLT cmp) (d, 0, d) hswoT
                (((x :: xs).take n).enum.map
                  (fun p => (p.2, -(p.1 : Int), p.2)))
              have hlenF := nlScan_length cmp (d, 0, d) _ (-(n : Int))
                ((x :: xs).drop n) heapF heq
              have hlenH : heapF.length = n := by
                rw [hlenF, heapify_length, htups_len]
              have hdrain_perm := drainAll_perm (tupLT cmp) (d, 0, d) heapF
              refine ⟨?_, fun hle => absurd hle hge, fun _ => ?_⟩
              · simp only [List.length_reverse, List.length_map]
                rw [hdrain_perm.length_eq, hlenH]
              · have hheapF := nlScan_isHeap cmp hswo (d, 0, d) _ (-(n : Int))
                  ((x :: xs).drop n) heapF hheap0.2 heq
                have hdiagF := nlScan_diag cmp (d, 0, d) _ (-(n : Int))
                  ((x :: xs).drop n) heapF ?_ heq
                · have hsorted := drainAll_sorted (tupLT cmp) (d, 0, d) hswoT
                    heapF hheapF
                  rw [List.pairwise_reverse, List.pairwise_map]
                  refine List.Pairwise.imp_of_mem ?_ hsorted
                  intro a b ha hb hab
                  have hfst : cmp a.1 b.1 = false := tupLT_false_fst cmp b a hab
                  have hda : a.1 = a.2.2 :=
                    hdiagF a (hdrain_perm.mem_iff.mp ha)
                  have hdb : b.1 = b.2.2 :=
                    hdiagF b (hdrain_perm.mem_iff.mp hb)
                  rw [← hda, ← hdb]
                  exact hfst
                · intro t ht
                  have := hheap0.1.mem_iff.mp ht
                  obtain ⟨p, _, hp⟩ := List.mem_map.mp this
                  rw [← hp]

end NlargestSpec

end UbpeV

namespace UbpeV

/-! ## `pair_counter.hpp` — `PairCounter<T>` at `T = uint32_t`

The counter is an `unordered_map<pair<T,T>, pair<size_t,size_t>>` modelled
as a first-insertion-order association list; `.1` of a value is the
document frequency, `.2` the total count.  `update` first bumps `.second`
for every adjacent pair (`for (i = 0; i < doc.size() - 1; i++)`, a `size_t`
loop whose bound underflows to `2^64 - 1` on an empty document, making the
first body iteration read `doc[0]` out of range), then bumps `.first` once
per distinct adjacent pair.  `most_common` maps the table to
`(pair, (total, -docfreq))` entries and calls the comparator-only
`nlargest` overload with the greater-than comparator
`if (a.second == b.second) return a.first > b.first; return a.second > b.second;`. -/

section PairCounterDefs

/-- The adjacent pairs `(doc[i], doc[i+1])`, `0 ≤ i < |doc| - 1`. -/
def adjacentPairs (doc : List Nat) : List (Nat × Nat) :=
  doc.zip (doc.drop 1)

/-- `PairCounter::update`.  On an empty `doc` the loop bound
`doc.size() - 1` wraps to `2^64 - 1` and the body reads `doc[0]`,
out of range. -/
def pcUpdate (counter : List ((Nat × Nat) × (Nat × Nat))) (doc : List Nat) :
    Except Err (List ((Nat × Nat) × (Nat × Nat))) :=
  match doc with
  | [] => .error .oob
  | _ :: _ =>
    let c1 := (adjacentPairs doc).foldl
      (fun acc p => aupd acc p (0, 0) (fun v => (v.1, v.2 + 1))) counter
    .ok ((adjacentPairs doc).dedup.foldl
      (fun acc p => aupd acc p (0, 0) (fun v => (v.1 + 1, v.2))) c1)

/-- `PairCounter(corpus)`: `update` once per document. -/
def pcFromCorpus (corpus : List (List Nat)) :
    Except Err (List ((Nat × Nat) × (Nat × Nat))) :=
  corpus.foldlM pcUpdate []

/-- `PairCounter::operator()`: counts for a pair, `(0, 0)` if absent. -/
def pcGet (counter : List ((Nat × Nat) × (Nat × Nat))) (p : Nat × Nat) :
    Nat × Nat :=
  (alook counter p).getD (0, 0)

/-- `std::pair<uint32_t, uint32_t>` lexicographic `<`. -/
def pairLtNN (a b : Nat × Nat) : Bool :=
  decide (a.1 < b.1) || (decide (a.1 = b.1) && decide (a.2 < b.2))

/-- `std::pair<size_t, int>` lexicographic `<` (total, then signed
negated document frequency). -/
def pairLtNI (a b : Nat × Int) : Bool :=
  decide (a.1 < b.1) || (decide (a.1 = b.1) && decide (a.2 < b.2))

/-- The `most_common` comparator:
`if (a.second == b.second) return a.first > b.first;
 return a.second > b.second;`. -/
def mcCmp (a b : (Nat × Nat) × (Nat × Int)) : Bool :=
  if a.2 = b.2 then pairLtNN b.1 a.1 else pairLtNI b.2 a.2

/-- The `(pair, (total, -docfreq))` vector built inside `most_common`
(`-value.second.first` narrowed through `int`). -/
def pcData (counter : List ((Nat × Nat) × (Nat × Nat))) :
    List ((Nat × Nat) × (Nat × Int)) :=
  counter.map (fun v => (v.1, (v.2.2, -(v.2.1 : Int))))

/-- A default element for the heap model (never read). -/
def mcDflt : (Nat × Nat) × (Nat × Int) := ((0, 0), (0, 0))

/-- `PairCounter::most_common`. -/
def mostCommon (counter : List ((Nat × Nat) × (Nat × Nat))) (n : Nat) :
    Except Err (List ((Nat × Nat) × Nat)) :=
  if n = 0 then .ok []
  else
    match nlargestC mcCmp mcDflt (pcData counter) n with
    | .error e => .error e
    | .ok mc => .ok (mc.map (fun v => (v.1, v.2.1)))

end PairCounterDefs

end UbpeV

namespace UbpeV

section PairCounterLemmas

variable {α : Type}

/-- A computable strict total order is a strict weak order. -/
theorem swo_of_strict_total (cmp : α → α → Bool)
    (hirr : ∀ a, cmp a a = false)
    (htr : ∀ a b c, cmp a b = true → cmp b c = true → cmp a c = true)
    (hconn : ∀ a b, cmp a b = false → cmp b a = false → a = b) :
    SWO cmp := by
  refine ⟨hirr, htr, ?_⟩
  intro a b c hab hbc
  cases hac : cmp a c
  · rfl
  · exfalso
    cases hba : cmp b a
    · have heq : a = b := hconn a b hab hba
      subst heq
      rw [hbc] at hac
      exact Bool.noConfusion hac
    · cases hcb : cmp c b
      · have heq : b = c := hconn b c hbc hcb
        subst heq
        rw [hab] at hac
        exact Bool.noConfusion hac
      · have h1 := htr c b a hcb hba
        have h2 := htr a c a hac h1
        rw [hirr] at h2
        exact Bool.noConfusion h2

theorem pairLtNN_irrefl (a : Nat × Nat) : pairLtNN a a = false := by
  simp [pairLtNN]

theorem pairLtNN_trans (a b c : Nat × Nat) (h1 : pairLtNN a b = true)
    (h2 : pairLtNN b c = true) : pairLtNN a c = true := by
  simp only [pairLtNN, Bool.or_eq_true, Bool.and_eq_true, decide_eq_true_eq]
    at h1 h2 ⊢
  omega

theorem pairLtNN_conn (a b : Nat × Nat) (h1 : pairLtNN a b = false)
    (h2 : pairLtNN b a = false) : a = b := by
  simp only [pairLtNN, Bool.or_eq_false_iff, Bool.and_eq_false_iff,
    decide_eq_false_iff_not] at h1 h2
  rcases h1 with ⟨h11, h12 | h12⟩ <;> rcases h2 with ⟨h21, h22 | h22⟩ <;>
    exact Prod.ext (by omega) (by omega)

theorem pairLtNI_irrefl (a : Nat × Int) : pairLtNI a a = false := by
  simp [pairLtNI]

theorem pairLtNI_trans (a b c : Nat × Int) (h1 : pairLtNI a b = true)
    (h2 : pairLtNI b c = true) : pairLtNI a c = true := by
  simp only [pairLtNI, Bool.or_eq_true, Bool.and_eq_true, decide_eq_true_eq]
    at h1 h2 ⊢
  omega

theorem pairLtNI_conn (a b : Nat × Int) (h1 : pairLtNI a b = false)
    (h2 : pairLtNI b a = false) : a = b := by
  simp only [pairLtNI, Bool.or_eq_false_iff, Bool.and_eq_false_iff,
    decide_eq_false_iff_not] at h1 h2
  rcases h1 with ⟨h11, h12 | h12⟩ <;> rcases h2 with ⟨h21, h22 | h22⟩ <;>
    exact Prod.ext (by omega) (by omega)

theorem swo_mcCmp : SWO mcCmp := by
  refine swo_of_strict_total mcCmp ?_ ?_ ?_
  · intro a
    simp [mcCmp, pairLtNN_irrefl]
  · intro a b c hab hbc
    unfold mcCmp at hab hbc ⊢
    by_cases e1 : a.2 = b.2
    · by_cases e2 : b.2 = c.2
      · rw [if_pos e1] at hab
        rw [if_pos e2] at hbc
        rw [if_pos (e1.trans e2)]
        exact pairLtNN_trans _ _ _ hbc hab
      · rw [if_neg e2] at hbc
        have e3 : ¬ a.2 = c.2 := fun h => e2 (e1.symm.trans h)
        rw [if_neg e3, e1]
        exact hbc
    · by_cases e2 : b.2 = c.2
      · rw [if_neg e1] at hab
        have e3 : ¬ a.2 = c.2 := fun h => e1 (h.trans e2.symm)
        rw [if_neg e3, ← e2]
        exact hab
      · rw [if_neg e1] at hab
        rw [if_neg e2] at hbc
        have e3 : ¬ a.2 = c.2 := by
          intro h
          rw [h] at hab
          have := pairLtNI_trans _ _ _ hbc hab
          rw [pairLtNI_irrefl] at this
          exact Bool.noConfusion this
        rw [if_neg e3]
        exact pairLtNI_trans _ _ _ hbc hab
  · intro a b hab hba
    unfold mcCmp at hab hba
    by_cases e1 : a.2 = b.2
    · rw [if_pos e1] at hab
      rw [if_pos e1.symm] at hba
      have h1 := pairLtNN_conn _ _ hba hab
      exact Prod.ext h1 e1
    · rw [if_neg e1] at hab
      rw [if_neg (fun h => e1 h.symm)] at hba
      exact absurd (pairLtNI_conn _ _ hab hba) (fun h => e1 h.symm)

/-- `std::max_element(first, last, comp)` returns an element that `comp`
places below no other element of the range (with `comp` a greater-than
comparator this is a minimal element). -/
theorem maxElementFold_not_lt (cmp : α → α → Bool) (hswo : SWO cmp) :
    ∀ (xs : List α) (c : α) (y : α), (y = c ∨ y ∈ xs) →
      cmp (maxElementFold cmp c xs) y = false := by
  intro xs
  induction xs with
  | nil =>
    intro c y hy
    rcases hy with hy | hy
    · subst hy
      exact hswo.irrefl _
    · exact absurd hy (List.not_mem_nil y)
  | cons x xs ih =>
    intro c y hy
    show cmp (maxElementFold cmp (if cmp c x then x else c) xs) y = false
    by_cases hcx : cmp c x = true
    · rw [if_pos hcx]
      rcases hy with hy | hy
    -- `y = c`: the result is not below `x` (by ih) while `c` is below `x`
      · rw [hy]
        have hmx : cmp (maxElementFold cmp x xs) x = false :=
          ih x x (Or.inl rfl)
        exact hswo.notBelowOfBelow _ _ _ hmx hcx
      · rcases List.mem_cons.mp hy with hy | hy
        · rw [hy]
          exact ih x x (Or.inl rfl)
        · exact ih x _ (Or.inr hy)
    · have hcx' : cmp c x = false := by
        cases hz : cmp c x
        · rfl
        · exact absurd hz hcx
      rw [if_neg hcx]
      rcases hy with hy | hy
      · rw [hy]
        exact ih c c (Or.inl rfl)
      · rcases List.mem_cons.mp hy with hy | hy
    -- `y = x`: the result is not below `c` (by ih), `c` not below `x`
        · rw [hy]
          have hmc : cmp (maxElementFold cmp c xs) c = false :=
            ih c c (Or.inl rfl)
          exact hswo.negTrans _ _ _ hmc hcx'
        · exact ih c _ (Or.inr hy)

theorem maxElementFold_mem (cmp : α → α → Bool) :
    ∀ (xs : List α) (c : α),
      maxElementFold cmp c xs = c ∨ maxElementFold cmp c xs ∈ xs := by
  intro xs
  induction xs with
  | nil => intro c; exact Or.inl rfl
  | cons x xs ih =>
    intro c
    show maxElementFold cmp (if cmp c x then x else c) xs = c ∨
      maxElementFold cmp (if cmp c x then x else c) xs ∈ x :: xs
    by_cases hcx : cmp c x = true
    · rw [if_pos hcx]
      rcases ih x with h | h
      · exact Or.inr (List.mem_cons.mpr (Or.inl h))
      · exact Or.inr (List.mem_cons.mpr (Or.inr h))
    · rw [if_neg hcx]
      rcases ih c with h | h
      · exact Or.inl h
      · exact Or.inr (List.mem_cons.mpr (Or.inr h))

theorem nlargestC_zero (cmp : α → α → Bool) (d : α) (data : List α) :
    nlargestC cmp d data 0 = .ok [] := by
  cases data <;> simp [nlargestC]

theorem nlargestC_one (cmp : α → α → Bool) (d : α) (x : α) (xs : List α) :
    nlargestC cmp d (x :: xs) 1 = .ok [maxElementFold cmp x xs] := by
  have h : ¬ (2 ^ 63 - 1 < 1) := by norm_num
  simp [nlargestC, h]

theorem nlargestC_nil_one (cmp : α → α → Bool) (d : α) :
    nlargestC cmp d [] 1 = .ok [] := by
  have h : ¬ (2 ^ 63 - 1 < 1) := by norm_num
  simp [nlargestC, h]

end PairCounterLemmas

end UbpeV

namespace UbpeV

/-! ## Claim C7 -/

section ClaimC7

/-- C7 (corrected): `PairCounter::most_common(n)` returns at most `n`
entries, namely the projection of what the comparator-only `nlargest`
overload yields on the `(pair, (total, -docfreq))` table.  The spec's
ordering sentence is wrong in three ways: a tie on total is broken first
by document frequency ascending (the sort key is `(total, -docfreq)`),
only a full key tie falls back to the pair value; for `n ≥ |table|` the
`std::stable_sort(compare(b, a))` path emits the key order ASCENDING, not
descending (descending holds only on the heap path `1 < n < |table|`);
and for `n = 1` the `std::max_element` call, fed the greater-than
comparator where a less-than is expected, returns a MINIMAL entry. -/
theorem C7_most_common_order (counter : List ((Nat × Nat) × (Nat × Nat)))
    (n : Nat) (mc : List ((Nat × Nat) × Nat))
    (h : mostCommon counter n = .ok mc) :
    mc.length ≤ n ∧
    ∃ full, nlargestC mcCmp mcDflt (pcData counter) n = .ok full ∧
      mc = full.map (fun v => (v.1, v.2.1)) ∧
      ((pcData counter).length ≤ n →
        List.Pairwise (fun a b => mcCmp a b = false) full) ∧
      (n < (pcData counter).length →
        List.Pairwise (fun a b => mcCmp b a = false) full) ∧
      (n = 1 → ∀ m ∈ full, ∀ y ∈ pcData counter, mcCmp m y = false) := by
  unfold mostCommon at h
  split at h
  · rename_i hn0
    simp only [Except.ok.injEq] at h
    refine ⟨?_, ⟨[], ?_, ?_, ?_, ?_, ?_⟩⟩
    · rw [← h]
      simp
    · rw [hn0]
      exact nlargestC_zero _ _ _
    · rw [← h]
      rfl
    · intro _
      exact List.Pairwise.nil
    · intro _
      exact List.Pairwise.nil
    · intro h1
      rw [hn0] at h1
      exact absurd h1 (by norm_num)
  · split at h
    · exact Except.noConfusion h
    · rename_i hn0 full hfull
      simp only [Except.ok.injEq] at h
      have hspec := nlargestC_spec mcCmp mcDflt swo_mcCmp
        (pcData counter) n full hfull
      refine ⟨?_, ⟨full, hfull, h.symm, hspec.2.1, hspec.2.2, ?_⟩⟩
      · rw [← h]
        simp only [List.length_map]
        exact hspec.1
      · intro hn1 m hm y hy
        subst hn1
        cases hdata : pcData counter with
        | nil =>
          rw [hdata] at hfull
          rw [nlargestC_nil_one] at hfull
          have hf : full = [] := by
            injection hfull with h2
            exact h2.symm
          rw [hf] at hm
          exact absurd hm (List.not_mem_nil m)
        | cons x xs =>
          rw [hdata] at hfull
          rw [nlargestC_one] at hfull
          have hf : full = [maxElementFold mcCmp x xs] := by
            injection hfull with h2
            exact h2.symm
          rw [hf] at hm
          have hm' : m = maxElementFold mcCmp x xs := by
            simpa using hm
          rw [hdata] at hy
          rw [hm']
          refine maxElementFold_not_lt mcCmp swo_mcCmp xs x y ?_
          rcases List.mem_cons.mp hy with h3 | h3
          · exact Or.inl h3
          · exact Or.inr h3

/-- C7 counterexample: on the single-document corpus `[0,1,0,1,0,1]` the
pair `(0,1)` occurs 3 times and `(1,0)` twice, yet `most_common(5)`
(`n ≥ |table|`, the stable-sort path) returns the totals in ASCENDING
order `[2, 3]`, refuting "ordered by descending total occurrence count". -/
theorem C7_most_common_counterexample :
    pcFromCorpus [[0, 1, 0, 1, 0, 1]] =
        .ok [((0, 1), (1, 3)), ((1, 0), (1, 2))] ∧
      mostCommon [((0, 1), (1, 3)), ((1, 0), (1, 2))] 5 =
        .ok [((1, 0), 2), ((0, 1), 3)] ∧
      ¬ List.Pairwise (fun a b => b.2 ≤ a.2)
        ([((1, 0), 2), ((0, 1), 3)] : List ((Nat × Nat) × Nat)) := by
  refine ⟨by rfl, ?_, by decide⟩
  show mostCommon [((0, 1), (1, 3)), ((1, 0), (1, 2))] 5 =
    .ok [((1, 0), 2), ((0, 1), 3)]
  norm_num [mostCommon, nlargestC, pcData, mcDflt, List.mergeSort,
    List.splitInTwo, List.merge, mcCmp, pairLtNI, pairLtNN]

/-- Witness for `C7_most_common_order` at the counterexample table. -/
theorem C7_most_common_order_witness :
    mostCommon [((0, 1), (1, 3)), ((1, 0), (1, 2))] 5 =
      .ok [((1, 0), 2), ((0, 1), 3)] ∧
    (([((1, 0), 2), ((0, 1), 3)] : List ((Nat × Nat) × Nat)).length ≤ 5 ∧
      ∃ full, nlargestC mcCmp mcDflt
          (pcData [((0, 1), (1, 3)), ((1, 0), (1, 2))]) 5 = .ok full ∧
        ([((1, 0), 2), ((0, 1), 3)] : List ((Nat × Nat) × Nat)) =
          full.map (fun v => (v.1, v.2.1)) ∧
        ((pcData [((0, 1), (1, 3)), ((1, 0), (1, 2))]).length ≤ 5 →
          List.Pairwise (fun a b => mcCmp a b = false) full) ∧
        (5 < (pcData [((0, 1), (1, 3)), ((1, 0), (1, 2))]).length →
          List.Pairwise (fun a b => mcCmp b a = false) full) ∧
        ((5 : Nat) = 1 → ∀ m ∈ full,
          ∀ y ∈ pcData [((0, 1), (1, 3)), ((1, 0), (1, 2))],
          mcCmp m y = false)) :=
  ⟨by norm_num [mostCommon, nlargestC, pcData, mcDflt, List.mergeSort,
      List.splitInTwo, List.merge, mcCmp, pairLtNI, pairLtNN],
   C7_most_common_order [((0, 1), (1, 3)), ((1, 0), (1, 2))] 5
     [((1, 0), 2), ((0, 1), 3)]
     (by norm_num [mostCommon, nlargestC, pcData, mcDflt, List.mergeSort,
       List.splitInTwo, List.merge, mcCmp, pairLtNI, pairLtNN])⟩

end ClaimC7

end UbpeV

namespace UbpeV

/-! ## `ubpe_base.hpp` — `UbpeBase::_replace_token_pairs`

Two-pointer in-place rewrite.  Before the loop the code writes
`vec[left] = vec[right]` with `left = right = 0`, an out-of-range write on
an empty vector; the loop guard `right < vec.size() - 1` is `size_t`
arithmetic, so for an empty vector it would be `right < 2^64 - 1`.  The
embedding keeps the vector as explicit state; every `vec[...]` access is
bounds-checked and faults with `Err.oob`. -/

section ReplaceDefs

/-- `vec.size() - 1` in `size_t` arithmetic. -/
def sizeSub1 (n : Nat) : Nat := if n = 0 then 2 ^ 64 - 1 else n - 1

/-- The `while (right < vec.size() - 1)` loop of `_replace_token_pairs`,
followed by the trailing `if (right < vec.size()) vec[left++] = vec[right++];`
and `vec.resize(left)`. -/
def replaceLoop (sub : List (Nat × (Nat × Nat))) (vec : List Nat)
    (left right : Nat) : Except Err (List Nat) :=
  if right < sizeSub1 vec.length then
    if hr : right < vec.length then
      let vr := vec.getD right 0
      match alook sub vr with
      | some s =>
        if right + 1 < vec.length then
          if vec.getD (right + 1) 0 = s.1 then
            if left < vec.length then
              replaceLoop sub (vec.set left s.2) (left + 1) (right + 2)
            else .error .oob
          else
            if left < vec.length then
              replaceLoop sub (vec.set left vr) (left + 1) (right + 1)
            else .error .oob
        else .error .oob
      | none =>
        if left < vec.length then
          replaceLoop sub (vec.set left vr) (left + 1) (right + 1)
        else .error .oob
    else .error .oob
  else
    if right < vec.length then
      if left < vec.length then
        .ok ((vec.set left (vec.getD right 0)).take (left + 1))
      else .error .oob
    else .ok (vec.take left)
termination_by vec.length - right
decreasing_by
  · simp only [List.length_set]; omega
  · simp only [List.length_set]; omega
  · simp only [List.length_set]; omega

/-- `UbpeBase::_replace_token_pairs(vec, sub)`: the unguarded
`vec[left] = vec[right]` before the loop, then the loop. -/
def replaceTokenPairs (vec : List Nat) (sub : List (Nat × (Nat × Nat))) :
    Except Err (List Nat) :=
  if h0 : 0 < vec.length then
    replaceLoop sub (vec.set 0 (vec.getD 0 0)) 0 0
  else .error .oob

/-- The recursion the two-pointer loop implements: consume the vector left
to right, replacing a matched pair `(x, sub[x].first)` by `sub[x].second`
and keeping everything else. -/
def replaceSpec (sub : List (Nat × (Nat × Nat))) : List Nat → List Nat
  | [] => []
  | [x] => [x]
  | x :: y :: rest =>
    match alook sub x with
    | some s =>
      if y = s.1 then s.2 :: replaceSpec sub rest
      else x :: replaceSpec sub (y :: rest)
    | none => x :: replaceSpec sub (y :: rest)

/-- Block decomposition of a rewrite: the input is consumed in disjoint
blocks of one (copied) or two (a matched pair, replaced by its `new_id`),
each input position in exactly one block. -/
inductive Blocks (sub : List (Nat × (Nat × Nat))) : List Nat → List Nat → Prop
  | nil : Blocks sub [] []
  | one : ∀ x v out, Blocks sub v out → Blocks sub (x :: v) (x :: out)
  | two : ∀ x y z v out, alook sub x = some (y, z) → Blocks sub v out →
      Blocks sub (x :: y :: v) (z :: out)

end ReplaceDefs

end UbpeV

namespace UbpeV

section ReplaceLemmas

variable {α : Type}

theorem take_set_of_le (l : List α) : ∀ (i j : Nat) (a : α), j ≤ i →
    (l.set i a).take j = l.take j := by
  induction l with
  | nil => intro i j a _; simp
  | cons x xs ih =>
    intro i j a h
    cases i with
    | zero =>
      have hj : j = 0 := Nat.le_zero.mp h
      subst hj
      simp
    | succ i =>
      cases j with
      | zero => simp
      | succ j =>
        simp only [List.set, List.take_succ_cons]
        rw [ih i j a (Nat.le_of_succ_le_succ h)]

theorem take_succ_set (l : List α) : ∀ (i : Nat) (a : α), i < l.length →
    (l.set i a).take (i + 1) = l.take i ++ [a] := by
  induction l with
  | nil => intro i a h; simp at h
  | cons x xs ih =>
    intro i a h
    cases i with
    | zero => simp
    | succ i =>
      show List.take (i + 1 + 1) (x :: xs.set i a) = List.take (i + 1) (x :: xs) ++ [a]
      rw [List.take_succ_cons, List.take_succ_cons, ih i a (by simpa using h)]
      simp

theorem drop_getD_cons (l : List α) (n : Nat) (d : α) (h : n < l.length) :
    l.drop n = l.getD n d :: l.drop (n + 1) := by
  rw [List.drop_eq_getElem_cons h]
  congr 1
  simp [List.getD, List.getElem?_eq_getElem h]

end ReplaceLemmas

end UbpeV

namespace UbpeV

section ReplaceProof

theorem replaceLoop_eq (sub : List (Nat × (Nat × Nat))) :
    ∀ (fuel : Nat) (vec : List Nat) (left right : Nat),
      vec.length - right ≤ fuel → left ≤ right → 0 < vec.length →
      replaceLoop sub vec left right =
        .ok (vec.take left ++ replaceSpec sub (vec.drop right)) := by
  intro fuel
  induction fuel with
  | zero =>
    intro vec left right hf hlr hpos
    have hcond : ¬ (right < sizeSub1 vec.length) := by
      unfold sizeSub1
      rw [if_neg (by omega)]
      omega
    rw [replaceLoop.eq_def, if_neg hcond,
      if_neg (by omega : ¬ right < vec.length),
      List.drop_eq_nil_of_le (by omega)]
    simp [replaceSpec]
  | succ fuel ih =>
    intro vec left right hf hlr hpos
    by_cases hcond : right < sizeSub1 vec.length
    · have hlen1 : sizeSub1 vec.length = vec.length - 1 := by
        unfold sizeSub1
        rw [if_neg (by omega)]
      have hr : right < vec.length := by rw [hlen1] at hcond; omega
      have hr1 : right + 1 < vec.length := by rw [hlen1] at hcond; omega
      have hleft : left < vec.length := by omega
      rw [replaceLoop.eq_def, if_pos hcond, dif_pos hr]
      simp only []
      split
      next s halook =>
        rw [if_pos hr1]
        by_cases hmatch : vec.getD (right + 1) 0 = s.1
        · rw [if_pos hmatch, if_pos hleft]
          rw [ih (vec.set left s.2) (left + 1) (right + 2)
            (by simp only [List.length_set]; omega) (by omega)
            (by simp only [List.length_set]; omega)]
          rw [take_succ_set vec left s.2 hleft,
            List.drop_set_of_lt s.2 vec (by omega)]
          rw [drop_getD_cons vec right 0 hr,
            drop_getD_cons vec (right + 1) 0 hr1]
          have halook2 : alook sub (vec[right]?.getD 0) = some s := by simpa using halook
          have hmatch2 : vec[right + 1]?.getD 0 = s.1 := by simpa using hmatch
          simp [replaceSpec, halook2, hmatch2]
        · rw [if_neg hmatch, if_pos hleft]
          rw [ih (vec.set left (vec.getD right 0)) (left + 1) (right + 1)
            (by simp only [List.length_set]; omega) (by omega)
            (by simp only [List.length_set]; omega)]
          rw [take_succ_set vec left _ hleft,
            List.drop_set_of_lt _ vec (by omega)]
          rw [drop_getD_cons vec right 0 hr,
            drop_getD_cons vec (right + 1) 0 hr1]
          have halook2 : alook sub (vec[right]?.getD 0) = some s := by simpa using halook
          have hmatch2 : ¬ vec[right + 1]?.getD 0 = s.1 := by simpa using hmatch
          simp [replaceSpec, halook2, hmatch2]
      next halook =>
        rw [if_pos hleft]
        rw [ih (vec.set left (vec.getD right 0)) (left + 1) (right + 1)
          (by simp only [List.length_set]; omega) (by omega)
          (by simp only [List.length_set]; omega)]
        rw [take_succ_set vec left _ hleft,
          List.drop_set_of_lt _ vec (by omega)]
        rw [drop_getD_cons vec right 0 hr,
          drop_getD_cons vec (right + 1) 0 hr1]
        have halook2 : alook sub (vec[right]?.getD 0) = none := by simpa using halook
        simp [replaceSpec, halook2]
    · rw [replaceLoop.eq_def, if_neg hcond]
      have hlen1 : sizeSub1 vec.length = vec.length - 1 := by
        unfold sizeSub1
        rw [if_neg (by omega)]
      rw [hlen1] at hcond
      by_cases hrl : right < vec.length
      · rw [if_pos hrl, if_pos (by omega : left < vec.length)]
        rw [take_succ_set vec left _ (by omega)]
        have hdrop : vec.drop right = [vec.getD right 0] := by
          rw [drop_getD_cons vec right 0 hrl,
            List.drop_eq_nil_of_le (by omega)]
        rw [hdrop]
        simp [replaceSpec]
      · rw [if_neg hrl, List.drop_eq_nil_of_le (by omega)]
        simp [replaceSpec]

theorem blocks_replaceSpec (sub : List (Nat × (Nat × Nat))) :
    ∀ (fuel : Nat) (vec : List Nat), vec.length ≤ fuel →
      Blocks sub vec (replaceSpec sub vec) := by
  intro fuel
  induction fuel with
  | zero =>
    intro vec hf
    have : vec = [] := List.eq_nil_of_length_eq_zero (by omega)
    rw [this]
    exact Blocks.nil
  | succ fuel ih =>
    intro vec hf
    match vec with
    | [] => exact Blocks.nil
    | [x] => exact Blocks.one x [] [] Blocks.nil
    | x :: y :: rest =>
      show Blocks sub (x :: y :: rest)
        (match alook sub x with
          | some s =>
            if y = s.1 then s.2 :: replaceSpec sub rest
            else x :: replaceSpec sub (y :: rest)
          | none => x :: replaceSpec sub (y :: rest))
      split
      next s halook =>
        by_cases hmatch : y = s.1
        · rw [if_pos hmatch, hmatch]
          refine Blocks.two x s.1 s.2 rest _ ?_ (ih rest (by simp only [List.length_cons] at hf ⊢; omega))
          rw [halook]
        · rw [if_neg hmatch]
          exact Blocks.one x (y :: rest) _ (ih (y :: rest) (by simp only [List.length_cons] at hf ⊢; omega))
      next halook =>
        exact Blocks.one x (y :: rest) _ (ih (y :: rest) (by simp only [List.length_cons] at hf ⊢; omega))

theorem blocks_length_le (sub : List (Nat × (Nat × Nat))) (vec out : List Nat)
    (h : Blocks sub vec out) : out.length ≤ vec.length := by
  induction h with
  | nil => simp
  | one x v o _ ih => simp; omega
  | two x y z v o _ _ ih => simp; omega

theorem blocks_mem (sub : List (Nat × (Nat × Nat))) (vec out : List Nat)
    (h : Blocks sub vec out) :
    ∀ z ∈ out, z ∈ vec ∨ ∃ x s1, alook sub x = some (s1, z) := by
  induction h with
  | nil =>
    intro z hz
    exact absurd hz (List.not_mem_nil z)
  | one x v o _ ih =>
    intro z hz
    rcases List.mem_cons.mp hz with hz | hz
    · exact Or.inl (by rw [hz]; exact List.mem_cons_self x v)
    · rcases ih z hz with h1 | h1
      · exact Or.inl (List.mem_cons.mpr (Or.inr h1))
      · exact Or.inr h1
  | two x y z v o hl _ ih =>
    intro w hw
    rcases List.mem_cons.mp hw with hw | hw
    · refine Or.inr ⟨x, y, ?_⟩
      rw [hl, hw]
    · rcases ih w hw with h1 | h1
      · exact Or.inl (by simp [h1])
      · exact Or.inr h1

end ReplaceProof

end UbpeV

namespace UbpeV

/-! ## Claim C6 -/

section ClaimC6

/-- C6 (corrected): on a NONEMPTY vector `_replace_token_pairs` terminates
with a vector that decomposes the input into disjoint one-element (copied)
and two-element (matched pair, replaced by its `new_id`) blocks — so its
length is at most `|vec|`, every output element is an unchanged input id or
a `new_id` of `sub`, and every input position is consumed exactly once.
The spec's sentence is wrong for the empty vector: the unguarded
`vec[left] = vec[right]` before the loop writes `vec[0]` out of range (and
the `size_t` loop bound `vec.size() - 1` wraps to `2^64 - 1`). -/
theorem C6_replace_token_pairs (vec : List Nat)
    (sub : List (Nat × (Nat × Nat))) (h : vec ≠ []) :
    ∃ out, replaceTokenPairs vec sub = .ok out ∧
      Blocks sub vec out ∧
      out.length ≤ vec.length ∧
      ∀ z ∈ out, z ∈ vec ∨ ∃ x s1, alook sub x = some (s1, z) := by
  have hpos : 0 < vec.length := List.length_pos.mpr h
  have hblocks := blocks_replaceSpec sub vec.length vec (le_refl _)
  refine ⟨replaceSpec sub vec, ?_, hblocks,
    blocks_length_le sub vec _ hblocks, blocks_mem sub vec _ hblocks⟩
  unfold replaceTokenPairs
  rw [dif_pos hpos, set_getD_self vec 0 0 hpos,
    replaceLoop_eq sub vec.length vec 0 0 (by omega) (le_refl 0) hpos]
  simp

/-- C6 counterexample: on the empty vector the function does not produce a
sequence at all — the unguarded `vec[0] = vec[0]` before the loop is an
out-of-range access, refuting the spec's unconditional postcondition. -/
theorem C6_replace_token_pairs_counterexample :
    replaceTokenPairs [] [] = .error .oob ∧
      ∀ out, replaceTokenPairs [] [] ≠ .ok out := by
  refine ⟨rfl, ?_⟩
  intro out hout
  rw [show replaceTokenPairs [] [] = .error .oob from rfl] at hout
  exact Except.noConfusion hout

/-- Witness for `C6_replace_token_pairs`: `[0, 1, 2]` with
`sub = {0 ↦ (1, 7)}` rewrites to `[7, 2]`. -/
theorem C6_replace_token_pairs_witness :
    ([0, 1, 2] : List Nat) ≠ [] ∧
    (∃ out, replaceTokenPairs [0, 1, 2] [(0, (1, 7))] = .ok out ∧
      Blocks [(0, (1, 7))] [0, 1, 2] out ∧
      out.length ≤ ([0, 1, 2] : List Nat).length ∧
      ∀ z ∈ out, z ∈ ([0, 1, 2] : List Nat) ∨
        ∃ x s1, alook [(0, (1, 7))] x = some (s1, z)) :=
  ⟨by decide, C6_replace_token_pairs [0, 1, 2] [(0, (1, 7))] (by decide)⟩

end ClaimC6

end UbpeV

namespace UbpeV

/-! ## `ssstree.hpp` — the `SSSTree` radix trie

`SSSTreeNode` is a node with a key segment, an optional value and children;
the tree root holds a bare child list.  `Err.range` models the two
intentional `throw std::out_of_range` guards (`start >= key.size()`);
`Err.oob` models an unchecked element access out of range.  The walk of
`SSSTreeNode::operator()` advances `start` past a matched node key and then
scans the children comparing `child.key[0] == key[start]` WITHOUT checking
`start < key.size()` — the access under scrutiny in C10.  The erase_if
post-processing of `SSSTree::operator()` (cumulative prefix accumulation
and dropping of null values) touches only the collected stack, never the
query, and is modelled by `accumStack`. -/

section TrieDefs

inductive TrieNode : Type where
  | mk : List Nat → Option Nat → List TrieNode → TrieNode

def TrieNode.key : TrieNode → List Nat
  | .mk k _ _ => k

def TrieNode.value : TrieNode → Option Nat
  | .mk _ v _ => v

def TrieNode.children : TrieNode → List TrieNode
  | .mk _ _ c => c

/-- `while (i < max_len && this->key[i] == key[i]) i++`. -/
def commonPrefixLen : List Nat → List Nat → Nat
  | a :: as, b :: bs => if a = b then commonPrefixLen as bs + 1 else 0
  | _, _ => 0

/-- The first child accepted by `p`, with the children before and after
it (the in-order scan `for (auto& child : this->children)`). -/
def scanSplit (p : TrieNode → Bool) :
    List TrieNode → Option (List TrieNode × TrieNode × List TrieNode)
  | [] => none
  | c :: rest =>
    if p c then some ([], c, rest)
    else
      match scanSplit p rest with
      | some (pre, x, post) => some (c :: pre, x, post)
      | none => none

/-- `SSSTreeNode::operator+`, as the updated subtree (the C++ version
rewrites the node in place and returns the freshly inserted node, which
every caller discards). -/
def nodeInsert (fuel : Nat) (n : TrieNode) (key : List Nat) (value : Nat) :
    Except Err TrieNode :=
  match fuel with
  | 0 => .error .fuel
  | fuel + 1 =>
    let i := commonPrefixLen n.key key
    if i = key.length then
      if i = n.key.length then
        .ok (TrieNode.mk n.key (some (n.value.getD value)) n.children)
      else
        .ok (TrieNode.mk key (some value)
          [TrieNode.mk (n.key.drop i) n.value n.children])
    else
      let key2 := key.drop i
      if i = n.key.length then
        match scanSplit (fun c => c.key.headD 0 = key2.headD 0) n.children with
        | some (pre, c, post) =>
          match nodeInsert fuel c key2 value with
          | .error e => .error e
          | .ok c2 => .ok (TrieNode.mk n.key n.value (pre ++ c2 :: post))
        | none =>
          .ok (TrieNode.mk n.key n.value
            (n.children ++ [TrieNode.mk key2 (some value) []]))
      else
        .ok (TrieNode.mk (n.key.take i) none
          [TrieNode.mk (n.key.drop i) n.value n.children,
           TrieNode.mk key2 (some value) []])

/-- `SSSTree::operator+`. -/
def treeInsert (t : List TrieNode) (key : List Nat) (value : Nat) :
    Except Err (List TrieNode) :=
  match scanSplit (fun c => c.key.headD 0 = key.headD 0) t with
  | some (pre, c, post) =>
    match nodeInsert (key.length + 1) c key value with
    | .error e => .error e
    | .ok c2 => .ok (pre ++ c2 :: post)
  | none => .ok (t ++ [TrieNode.mk key (some value) []])

/-- `stack.size() > 0 ? stack.back().second : std::nullopt`. -/
def stackBackVal (stack : List (List Nat × Option Nat)) : Option Nat :=
  match stack.getLast? with
  | some p => p.2
  | none => none

/-- The child scan `if (child.key[0] == key[start])`: both element accesses
are unchecked in the source and bounds-checked here. -/
def findChild : List TrieNode → List Nat → Nat → Except Err (Option TrieNode)
  | [], _, _ => .ok none
  | c :: rest, key, idx =>
    if c.key.length = 0 then .error .oob
    else if key.length ≤ idx then .error .oob
    else if c.key.getD 0 0 = key.getD idx 0 then .ok (some c)
    else findChild rest key idx

/-- `SSSTreeNode::operator()`: the walk that pushes every matched node key
onto the stack and descends into the child whose key starts with
`key[start]`. -/
def nodeTrace (fuel : Nat) (n : TrieNode) (key : List Nat)
    (stack : List (List Nat × Option Nat)) (start : Nat) :
    Except Err (List (List Nat × Option Nat) × Option Nat) :=
  match fuel with
  | 0 => .error .fuel
  | fuel + 1 =>
    if key.length ≤ start then .error .range
    else if key.length < start + n.key.length then .ok (stack, stackBackVal stack)
    else if (key.drop start).take n.key.length = n.key then
      let stack2 := stack ++ [(n.key, n.value)]
      let start2 := start + n.key.length
      match findChild n.children key start2 with
      | .error e => .error e
      | .ok (some c) => nodeTrace fuel c key stack2 start2
      | .ok none => .ok (stack2, stackBackVal stack2)
    else .ok (stack, stackBackVal stack)

/-- The `erase_if` post-processing: accumulate cumulative prefixes and drop
entries without a value. -/
def accumStack : List Nat → List (List Nat × Option Nat) → List (List Nat × Nat)
  | _, [] => []
  | acc, (k, v) :: rest =>
    let acc2 := acc ++ k
    match v with
    | some val => (acc2, val) :: accumStack acc2 rest
    | none => accumStack acc2 rest

/-- `SSSTree::operator()` at `fast = false`: the root child scan, the node
walk, then the prefix accumulation. -/
def treeTrace (t : List TrieNode) (key : List Nat) (start : Nat) :
    Except Err (List (List Nat × Nat)) :=
  if key.length ≤ start then .error .range
  else
    match findChild t key start with
    | .error e => .error e
    | .ok none => .ok []
    | .ok (some c) =>
      match nodeTrace (key.length + 1) c key [] start with
      | .error e => .error e
      | .ok (stack, _) => .ok (accumStack [] stack)

end TrieDefs

end UbpeV

namespace UbpeV

/-! ## Claim C10 -/

section ClaimC10

/-- C10 (code bug): the walk of `SSSTreeNode::operator()` is NOT bounds
safe.  Inserting `[0] ↦ 0` and then `[0, 1] ↦ 2` and querying the tree
with `key = [0]`, `start = 0` (in range, so neither `std::out_of_range`
guard fires — they are the distinct `Err.range`) matches the node key
`[0]`, advances `start` to `1 = |key|`, and then the child scan evaluates
`child.key[0] == key[start]` with `start == key.size()`: an out-of-range
read of the query, `Err.oob` in the checked embedding. -/
theorem C10_trie_lookup_oob :
    ∃ t1 t2, treeInsert [] [0] 0 = .ok t1 ∧
      treeInsert t1 [0, 1] 2 = .ok t2 ∧
      0 < ([0] : List Nat).length ∧
      treeTrace t2 [0] 0 = .error .oob := by
  refine ⟨[TrieNode.mk [0] (some 0) []],
    [TrieNode.mk [0] (some 0) [TrieNode.mk [1] (some 2) []]],
    rfl, rfl, by decide, rfl⟩

end ClaimC10

end UbpeV

namespace UbpeV

/-! ## `ubpe.hpp` / `ubpe_base.hpp` — tokenizer state and `Ubpe::fit`

The tokenizer state bundles the five `std::map` members of `UbpeBase`.
The weight codomain `W` and the scalar weight function are parameters of
the embedding: the source instantiates `W = double` with
`wfun corpusLen docfreq = std::log(double(1 + corpusLen) / (1 + docfreq))`
(real division; the earlier `ubpe_cython` revision divided the integers
first).  All control flow of `fit` decides only on integer data, so every
definition stays executable for any `W`. -/

section FitDefs

variable {W : Type}

structure UbpeState (W : Type) where
  n_tokens : Nat
  alphabet_size : Nat
  alphabet : List (Nat × Nat)
  inv_alphabet : List (Nat × Nat)
  fwd : List (List Nat × Nat)
  bwd : List (Nat × List Nat)
  weights : List (Nat × W)

/-- `UbpeBase::_doc_to_vec`: map each symbol through `alphabet.at`. -/
def docToVec (st : UbpeState W) (doc : List Nat) : Except Err (List Nat) :=
  doc.mapM (mat st.alphabet)

/-- `UbpeBase::_vec_to_doc`: map each token through `inverse_alphabet.at`. -/
def vecToDoc (st : UbpeState W) (tokens : List Nat) : Except Err (List Nat) :=
  tokens.mapM (mat st.inv_alphabet)

/-- One-level backward expansion: `tokens_backward_mapper.contains(x) ?
tokens_backward_mapper[x] : {x}` (the merge-subsequence builder of
`Ubpe::fit` and the body of `Ubpe::decode`). -/
def dec1 (bwd : List (Nat × List Nat)) (x : Nat) : List Nat :=
  (mlook bwd x).getD [x]

/-- The `good_to_add` inner loop of the candidate selection: reassigned for
each accepted pair, breaking at the first `false`. -/
def borderCheck (counter : List ((Nat × Nat) × (Nat × Nat))) :
    List ((Nat × Nat) × Nat) → Nat × Nat → Nat → Bool
  | [], _, _ => true
  | (q, _) :: rest, p, freq =>
    if (pcGet counter (p.2, q.1)).2 < freq ∧ (pcGet counter (q.2, p.1)).2 < freq
    then borderCheck counter rest p freq
    else false

/-- One iteration of the candidate-selection loop (`i ≥ 1`): skip when a
component is already substituted, then run the border-pair guard. -/
def selStep (counter : List ((Nat × Nat) × (Nat × Nat)))
    (acc : List ((Nat × Nat) × Nat) × List Nat) (pf : (Nat × Nat) × Nat) :
    List ((Nat × Nat) × Nat) × List Nat :=
  if pf.1.1 ∈ acc.2 ∨ pf.1.2 ∈ acc.2 then acc
  else if borderCheck counter acc.1 pf.1 pf.2 then
    (acc.1 ++ [pf], acc.2 ++ [pf.1.1, pf.1.2])
  else acc

/-- The whole selection: the first candidate is always accepted; the loop
starts from the second. -/
def selectPairs (counter : List ((Nat × Nat) × (Nat × Nat)))
    (m0 : (Nat × Nat) × Nat) (rest : List ((Nat × Nat) × Nat)) :
    List ((Nat × Nat) × Nat) :=
  (rest.foldl (selStep counter) ([m0], [m0.1.1, m0.1.2])).1

/-- The merge loop over the selected pairs: `max_token++` (uint32), assign
the weight from the pair's DOCUMENT frequency (`.first` of the counter
entry), build the merged base sequence, extend both mappers and the
substitution map. -/
def roundApply (wfun : Nat → Nat → W) (corpusLen : Nat)
    (counter : List ((Nat × Nat) × (Nat × Nat))) :
    UbpeState W → Nat → List (Nat × (Nat × Nat)) → List ((Nat × Nat) × Nat) →
    UbpeState W × Nat × List (Nat × (Nat × Nat))
  | st, mt, sub, [] => (st, mt, sub)
  | st, mt, sub, (p, _) :: rest =>
    let mt2 := (mt + 1) % 2 ^ 32
    let st2 := { st with
      weights := msetk st.weights mt2 (wfun corpusLen (pcGet counter p).1),
      bwd := msetk st.bwd mt2 (dec1 st.bwd p.1 ++ dec1 st.bwd p.2) }
    roundApply wfun corpusLen counter st2 mt2 (aset sub p.1 (p.2, mt2)) rest

/-- One iteration of the `while (max_token < this->n_tokens)` loop of
`Ubpe::fit`; `none` is the `if (mc.size() == 0) break;`. -/
def fitRound (wfun : Nat → Nat → W) (corpusLen ncand : Nat) (st : UbpeState W)
    (mt : Nat) (corpus : List (List Nat)) :
    Except Err (Option (UbpeState W × Nat × List (List Nat))) :=
  match pcFromCorpus corpus with
  | .error e => .error e
  | .ok counter =>
    match mostCommon counter ncand with
    | .error e => .error e
    | .ok [] => .ok none
    | .ok (m0 :: rest) =>
      let sel := selectPairs counter m0 rest
      let (st2, mt2, sub) := roundApply wfun corpusLen counter st mt [] sel
      match corpus.mapM (fun doc => replaceTokenPairs doc sub) with
      | .error e => .error e
      | .ok corpus2 => .ok (some (st2, mt2, corpus2))

def fitLoop (wfun : Nat → Nat → W) (corpusLen ncand : Nat) :
    Nat → UbpeState W → Nat → List (List Nat) → Except Err (UbpeState W)
  | 0, _, _, _ => .error .fuel
  | fuel + 1, st, mt, corpus =>
    if mt < st.n_tokens then
      match fitRound wfun corpusLen ncand st mt corpus with
      | .error e => .error e
      | .ok none => .ok st
      | .ok (some (st2, mt2, corpus2)) =>
        fitLoop wfun corpusLen ncand fuel st2 mt2 corpus2
    else .ok st

/-- One check of the inner `j` scan: mark `j` for deletion when its
sequence mentions the deleted token (`std::set::insert`, so only once). -/
def markStep (buf : List (Nat × List Nat)) (tok : Nat) (acc : List Nat)
    (j : Nat) : List Nat :=
  if tok ∈ (buf.getD j (0, [])).2 ∧ j ∉ acc then acc ++ [j] else acc

/-- The index-deletion loop of `_rearrange_tokens_by_weight`: walk `buf`
from the lightest token, stop once `to_delete` is large enough, and drag
along every later entry whose sequence mentions the deleted token. -/
def toDeleteLoop (buf : List (Nat × List Nat)) (quantity : Nat) (i : Nat)
    (s : List Nat) : List Nat :=
  if i < buf.length then
    if i ∈ s then toDeleteLoop buf quantity (i + 1) s
    else if quantity ≤ s.length then s
    else
      let tok := (buf.getD i (0, [])).1
      let s2 := (List.range' (i + 1) (buf.length - (i + 1))).foldl
        (markStep buf tok) (s ++ [i])
      toDeleteLoop buf quantity (i + 1) s2
  else s
termination_by buf.length - i

/-- `UbpeBase::_rearrange_tokens_by_weight`.  `wlt` is `<` on `W`
(`double` in the source), `w0` the value-initialized `0.0` that
`tokens_weights[...]` would insert for a missing key.  The
`generate_n`/`offset` scan that builds the non-identity part of
`transformer` enumerates exactly the non-deleted entries of the reversed
buffer in order, pairing the k-th with id `alphabet_size + k`; it is
embedded as `filter` + `enum`.  The rebuilt weight and backward maps are
keyed by those fresh ids, so their sorted entry lists coincide with the
enumeration order.  `transformer[el]` inside the sequence rewrite is a
value-initializing `std::map::operator[]`, embedded as a lookup with
default `0`. -/
def rearrange (wlt : W → W → Bool) (w0 : W) (st : UbpeState W) :
    Except Err (UbpeState W) :=
  if st.bwd.length = 0 ∨ st.weights.length = 0 then .error .assertFail
  else
    let buf := st.bwd.mergeSort (fun a b =>
      !(wlt ((mlook st.weights b.1).getD w0) ((mlook st.weights a.1).getD w0)))
    let quantity :=
      (st.weights.length + 2 ^ 64 - st.n_tokens + st.alphabet_size) % 2 ^ 64
    let deleted := toDeleteLoop buf quantity 0 []
    let deletedToks := deleted.map (fun e => (buf.getD e (0, [])).1)
    let kept := buf.reverse.filter (fun p => decide (p.1 ∉ deletedToks))
    let tentries := kept.enum.map (fun q => (q.2.1, st.alphabet_size + q.1))
    let tlook := fun el =>
      if el < st.alphabet_size then el else (alook tentries el).getD 0
    let newW := kept.enum.map
      (fun q => (st.alphabet_size + q.1, (mlook st.weights q.2.1).getD w0))
    let newB := kept.enum.map
      (fun q => (st.alphabet_size + q.1, ((mlook st.bwd q.2.1).getD []).map tlook))
    .ok { st with weights := newW, bwd := newB }

/-- `Ubpe::fit`: the `n_candidates` assert, `_doc_to_vec` on the corpus,
the merge loop from `max_token = alphabet_size - 1` (uint32), the optional
rearrange, and the backward-to-forward transform
(`std::inserter` = `insert`, which keeps an existing entry). -/
def fitU (wfun : Nat → Nat → W) (wlt : W → W → Bool) (w0 : W)
    (st : UbpeState W) (corpus0 : List (List Nat)) (ncand : Nat)
    (rearrange_tokens : Bool) : Except Err (UbpeState W) :=
  if ncand = 0 then .error .assertFail
  else
    match corpus0.mapM (docToVec st) with
    | .error e => .error e
    | .ok corpus =>
      let mt := (st.alphabet_size + 2 ^ 32 - 1) % 2 ^ 32
      match fitLoop wfun corpus0.length ncand (st.n_tokens + 1) st mt corpus with
      | .error e => .error e
      | .ok st2 =>
        match (if rearrange_tokens then rearrange wlt w0 st2 else .ok st2) with
        | .error e => .error e
        | .ok st3 =>
          .ok { st3 with
            fwd := st3.bwd.foldl (fun f e => minsk f e.2 e.1) st3.fwd }

end FitDefs

end UbpeV

namespace UbpeV

section ClaimC5

theorem borderCheck_iff (counter : List ((Nat × Nat) × (Nat × Nat)))
    (p : Nat × Nat) (freq : Nat) :
    ∀ (tps : List ((Nat × Nat) × Nat)),
      (borderCheck counter tps p freq = true ↔
        ∀ q ∈ tps, (pcGet counter (p.2, q.1.1)).2 < freq ∧
          (pcGet counter (q.1.2, p.1)).2 < freq) := by
  intro tps
  induction tps with
  | nil => simp [borderCheck]
  | cons qf rest ih =>
    obtain ⟨q, f⟩ := qf
    show (if (pcGet counter (p.2, q.1)).2 < freq ∧
        (pcGet counter (q.2, p.1)).2 < freq
      then borderCheck counter rest p freq else false) = true ↔ _
    by_cases h : (pcGet counter (p.2, q.1)).2 < freq ∧
        (pcGet counter (q.2, p.1)).2 < freq
    · rw [if_pos h, ih]
      constructor
      · intro hall q2 hq2
        rcases List.mem_cons.mp hq2 with h2 | h2
        · rw [h2]
          exact h
        · exact hall q2 h2
      · intro hall q2 hq2
        exact hall q2 (List.mem_cons.mpr (Or.inr hq2))
    · rw [if_neg h]
      constructor
      · intro hfalse
        exact absurd hfalse (by simp)
      · intro hall
        exact absurd (hall (q, f) (List.mem_cons_self _ _)) h

/-- C5 (confirmed): in one training round a candidate `p` with frequency
`freq` whose components are disjoint from the already-substituted set is
accepted into the batch IFF for every already-accepted pair `q` both
border pairs `(p.second, q.first)` and `(q.second, p.first)` have total
frequency strictly below `freq`; equivalently it is rejected exactly when
some border pair reaches `freq` (an equal border frequency rejects). -/
theorem C5_border_pair_guard (counter : List ((Nat × Nat) × (Nat × Nat)))
    (tps : List ((Nat × Nat) × Nat)) (cs : List Nat) (p : Nat × Nat)
    (freq : Nat) (hdisj : p.1 ∉ cs ∧ p.2 ∉ cs) :
    (selStep counter (tps, cs) (p, freq) =
        (tps ++ [(p, freq)], cs ++ [p.1, p.2]) ↔
      ∀ q ∈ tps, (pcGet counter (p.2, q.1.1)).2 < freq ∧
        (pcGet counter (q.1.2, p.1)).2 < freq) ∧
    (selStep counter (tps, cs) (p, freq) = (tps, cs) ↔
      ∃ q ∈ tps, freq ≤ (pcGet counter (p.2, q.1.1)).2 ∨
        freq ≤ (pcGet counter (q.1.2, p.1)).2) := by
  unfold selStep
  rw [if_neg (not_or.mpr ⟨hdisj.1, hdisj.2⟩)]
  by_cases hbc : borderCheck counter tps p freq = true
  · rw [if_pos hbc]
    constructor
    · constructor
      · intro _
        exact (borderCheck_iff counter p freq tps).mp hbc
      · intro _
        rfl
    · constructor
      · intro heq
        have := congrArg (fun z => z.1.length) heq
        simp at this
      · intro hex
        obtain ⟨q, hq, hge⟩ := hex
        have := (borderCheck_iff counter p freq tps).mp hbc q hq
        exfalso
        omega
  · rw [if_neg hbc]
    have hnall := (fun hall => hbc ((borderCheck_iff counter p freq tps).mpr hall))
    constructor
    · constructor
      · intro heq
        have := congrArg (fun z => z.1.length) heq
        simp at this
      · intro hall
        exact absurd hall hnall
    · constructor
      · intro _
        by_contra hnex
        push_neg at hnex
        exact hnall (fun q hq => by
          have := hnex q hq
          omega)
      · intro _
        rfl

/-- Witness for `C5_border_pair_guard`: with the two-document corpus
counter of `[[0,1,0,1]]`-style data, candidate `(2, 3)` with frequency 4
against the accepted batch `[((0, 1), 5)]`. -/
theorem C5_border_pair_guard_witness :
    ((2 : Nat) ∉ ([0, 1] : List Nat) ∧ (3 : Nat) ∉ ([0, 1] : List Nat)) ∧
    ((selStep [(((1 : Nat), (0 : Nat)), ((1 : Nat), (2 : Nat)))]
        ([(((0 : Nat), (1 : Nat)), (5 : Nat))], [0, 1]) ((2, 3), 4) =
        ([((0, 1), 5), ((2, 3), 4)], [0, 1, 2, 3]) ↔
      ∀ q ∈ [(((0 : Nat), (1 : Nat)), (5 : Nat))],
        (pcGet [((1, 0), (1, 2))] (3, q.1.1)).2 < 4 ∧
        (pcGet [((1, 0), (1, 2))] (q.1.2, 2)).2 < 4) ∧
    (selStep [(((1 : Nat), (0 : Nat)), ((1 : Nat), (2 : Nat)))]
        ([(((0 : Nat), (1 : Nat)), (5 : Nat))], [0, 1]) ((2, 3), 4) =
        ([((0, 1), 5)], [0, 1]) ↔
      ∃ q ∈ [(((0 : Nat), (1 : Nat)), (5 : Nat))],
        4 ≤ (pcGet [((1, 0), (1, 2))] (3, q.1.1)).2 ∨
        4 ≤ (pcGet [((1, 0), (1, 2))] (q.1.2, 2)).2)) :=
  ⟨by decide,
   C5_border_pair_guard [((1, 0), (1, 2))] [((0, 1), 5)] [0, 1] (2, 3) 4
     (by decide)⟩

end ClaimC5

end UbpeV

namespace UbpeV

section ClaimC4

variable {W : Type}

theorem roundApply_weights_frame (wfun : Nat → Nat → W) (corpusLen : Nat)
    (counter : List ((Nat × Nat) × (Nat × Nat))) :
    ∀ (sel : List ((Nat × Nat) × Nat)) (st : UbpeState W) (mt : Nat)
      (sub : List (Nat × (Nat × Nat))) (key : Nat),
      key ≤ mt → mt + sel.length < 2 ^ 32 →
      mlook (roundApply wfun corpusLen counter st mt sub sel).1.weights key =
        mlook st.weights key := by
  intro sel
  induction sel with
  | nil =>
    intro st mt sub key _ _
    rfl
  | cons pf rest ih =>
    intro st mt sub key hk hlen
    obtain ⟨p, f⟩ := pf
    simp only [roundApply]
    have hmt2 : (mt + 1) % 2 ^ 32 = mt + 1 := by
      apply Nat.mod_eq_of_lt
      simp only [List.length_cons] at hlen
      omega
    rw [hmt2]
    rw [ih _ (mt + 1) _ key (by omega)
      (by simp only [List.length_cons] at hlen; omega)]
    exact mlook_msetk_ne st.weights (mt + 1) key _ (by omega)

theorem roundApply_weight_at (wfun : Nat → Nat → W) (corpusLen : Nat)
    (counter : List ((Nat × Nat) × (Nat × Nat))) :
    ∀ (sel : List ((Nat × Nat) × Nat)) (st : UbpeState W) (mt : Nat)
      (sub : List (Nat × (Nat × Nat))) (i : Nat) (hi : i < sel.length),
      mt + sel.length < 2 ^ 32 →
      mlook (roundApply wfun corpusLen counter st mt sub sel).1.weights
          (mt + i + 1) =
        some (wfun corpusLen (pcGet counter (sel.get ⟨i, hi⟩).1).1) := by
  intro sel
  induction sel with
  | nil =>
    intro st mt sub i hi
    exact absurd hi (by simp)
  | cons pf rest ih =>
    intro st mt sub i hi hlen
    obtain ⟨p, f⟩ := pf
    simp only [roundApply]
    have hmt2 : (mt + 1) % 2 ^ 32 = mt + 1 := by
      apply Nat.mod_eq_of_lt
      simp only [List.length_cons] at hlen
      omega
    rw [hmt2]
    cases i with
    | zero =>
      rw [roundApply_weights_frame wfun corpusLen counter rest _ (mt + 1) _
        (mt + 1) (le_refl _)
        (by simp only [List.length_cons] at hlen; omega)]
      show mlook (msetk st.weights (mt + 1) _) (mt + 0 + 1) = _
      have h01 : mt + 0 + 1 = mt + 1 := by omega
      rw [h01]
      exact mlook_msetk_self st.weights (mt + 1) _
    | succ i =>
      have hi2 : i < rest.length := by
        simp only [List.length_cons] at hi
        omega
      have harith : mt + (i + 1) + 1 = mt + 1 + i + 1 := by omega
      rw [harith]
      exact ih _ (mt + 1) _ i hi2
        (by simp only [List.length_cons] at hlen; omega)

/-- C4 (confirmed): in a fit round, each newly created id `mt + i + 1`
receives, at creation time, the weight
`log((1 + |corpus|) / (1 + doc_freq(pair_i)))` where `pair_i` is the i-th
selected pair and `doc_freq` is the `.first` (document-count) component of
the pair counter — with the ratio formed by real division
(`static_cast<double>` before the `/` in the headers revision), and the
assignment survives to the end of the round. -/
theorem C4_fit_weight_formula (corpusLen ncand : Nat) (st st2 : UbpeState ℝ)
    (mt mt2 : Nat) (corpus corpus2 : List (List Nat))
    (h : fitRound (fun c d => Real.log ((1 + (c : ℝ)) / (1 + (d : ℝ))))
        corpusLen ncand st mt corpus = .ok (some (st2, mt2, corpus2))) :
    ∃ counter m0 rest, pcFromCorpus corpus = .ok counter ∧
      mostCommon counter ncand = .ok (m0 :: rest) ∧
      (mt + (selectPairs counter m0 rest).length < 2 ^ 32 →
        ∀ i (hi : i < (selectPairs counter m0 rest).length),
          mlook st2.weights (mt + i + 1) =
            some (Real.log ((1 + (corpusLen : ℝ)) /
              (1 + ((pcGet counter
                ((selectPairs counter m0 rest).get ⟨i, hi⟩).1).1 : ℝ))))) := by
  unfold fitRound at h
  split at h
  · exact Except.noConfusion h
  · rename_i counter hcounter
    split at h
    · exact Except.noConfusion h
    · exact Option.noConfusion (Except.ok.inj h)
    · rename_i m0 rest hmc
      simp only [] at h
      split at h
      · exact Except.noConfusion h
      · rename_i corpus2x hmapm
        simp only [Except.ok.injEq, Option.some.injEq, Prod.mk.injEq] at h
        refine ⟨counter, m0, rest, hcounter, hmc, ?_⟩
        intro hlen i hi
        have hst2 : st2 =
            (roundApply (fun c d => Real.log ((1 + (c : ℝ)) / (1 + (d : ℝ))))
              corpusLen counter st mt [] (selectPairs counter m0 rest)).1 := by
          rw [← h.1]
        rw [hst2]
        exact roundApply_weight_at _ corpusLen counter _ st mt [] i hi hlen

end ClaimC4

end UbpeV

namespace UbpeV

section ClaimC4W

/-- Witness for `C4_fit_weight_formula`: one round on the single-document
corpus `[[0, 1]]` (alphabet `{0, 1}`, `n_tokens = 3`) creates id `2` with
weight `log((1 + 1) / (1 + 1))`. -/
theorem C4_fit_weight_formula_witness :
    fitRound (fun c d => Real.log ((1 + (c : ℝ)) / (1 + (d : ℝ)))) 1 1
        ⟨3, 2, [(0, 0), (1, 1)], [(0, 0), (1, 1)], [], [], []⟩ 1 [[0, 1]] =
      .ok (some (⟨3, 2, [(0, 0), (1, 1)], [(0, 0), (1, 1)], [],
        [(2, [0, 1])],
        [(2, Real.log ((1 + (1 : ℝ)) / (1 + (1 : ℝ))))]⟩, 2, [[2]])) ∧
    (∃ counter m0 rest, pcFromCorpus [[0, 1]] = .ok counter ∧
      mostCommon counter 1 = .ok (m0 :: rest) ∧
      (1 + (selectPairs counter m0 rest).length < 2 ^ 32 →
        ∀ i (hi : i < (selectPairs counter m0 rest).length),
          mlook ([(2, Real.log ((1 + (1 : ℝ)) / (1 + (1 : ℝ))))] :
              List (Nat × ℝ)) (1 + i + 1) =
            some (Real.log ((1 + ((1 : Nat) : ℝ)) /
              (1 + ((pcGet counter
                ((selectPairs counter m0 rest).get ⟨i, hi⟩).1).1 : ℝ)))))) := by
  have h3 : replaceTokenPairs [0, 1] [(0, (1, 2))] = .ok [2] := by
    simp [replaceTokenPairs, replaceLoop, sizeSub1, alook]
  have hyp : fitRound (fun c d => Real.log ((1 + (c : ℝ)) / (1 + (d : ℝ)))) 1 1
      ⟨3, 2, [(0, 0), (1, 1)], [(0, 0), (1, 1)], [], [], []⟩ 1 [[0, 1]] =
      .ok (some (⟨3, 2, [(0, 0), (1, 1)], [(0, 0), (1, 1)], [],
        [(2, [0, 1])],
        [(2, Real.log ((1 + (1 : ℝ)) / (1 + (1 : ℝ))))]⟩, 2, [[2]])) := by
    unfold fitRound
    rw [show pcFromCorpus [[0, 1]] = .ok [((0, 1), (1, 1))] from rfl]
    dsimp only
    rw [show mostCommon [((0, 1), (1, 1))] 1 = .ok [((0, 1), 1)] from rfl]
    dsimp only
    simp only [List.mapM, List.mapM.loop, h3]
    norm_num [selectPairs, selStep, roundApply, dec1, mlook, msetk, aset,
      pcGet, alook]
    rw [h3]
    rfl
  refine ⟨hyp, ?_⟩
  have := C4_fit_weight_formula 1 1
    ⟨3, 2, [(0, 0), (1, 1)], [(0, 0), (1, 1)], [], [], []⟩
    ⟨3, 2, [(0, 0), (1, 1)], [(0, 0), (1, 1)], [],
      [(2, [0, 1])], [(2, Real.log ((1 + (1 : ℝ)) / (1 + (1 : ℝ))))]⟩
    1 2 [[0, 1]] [[2]] hyp
  exact this

end ClaimC4W

end UbpeV

namespace UbpeV

section SMapKeys

variable {κ : Type} [LinearOrder κ] {β : Type}

theorem mlook_none_iff (m : List (κ × β)) (k : κ) :
    mlook m k = none ↔ k ∉ m.map Prod.fst := by
  induction m with
  | nil => simp [mlook]
  | cons h t ih =>
    obtain ⟨hk, hv⟩ := h
    by_cases he : k = hk
    · simp [mlook, he]
    · simp [mlook, he, ih]

/-- The key list of a sorted-insert, as a function of keys alone. -/
def insKey : List κ → κ → List κ
  | [], k => [k]
  | h :: t, k =>
    if k < h then k :: h :: t
    else if k = h then h :: t
    else h :: insKey t k

theorem msetk_map_fst (m : List (κ × β)) (k : κ) (v : β) :
    (msetk m k v).map Prod.fst = insKey (m.map Prod.fst) k := by
  induction m with
  | nil => simp [msetk, insKey]
  | cons h t ih =>
    obtain ⟨hk, hv⟩ := h
    by_cases h1 : k < hk
    · simp [msetk, insKey, h1]
    · by_cases h2 : k = hk
      · simp [msetk, insKey, h1, h2]
      · simp [msetk, insKey, h1, h2, ih]

theorem insKey_mem_cases (x : κ) : ∀ (t : List κ) (k : κ),
    x ∈ insKey t k → x = k ∨ x ∈ t := by
  intro t
  induction t with
  | nil =>
    intro k hx
    simp [insKey] at hx
    exact Or.inl hx
  | cons h2 t2 ih2 =>
    intro k hx
    by_cases hc1 : k < h2
    · rw [insKey, if_pos hc1] at hx
      rcases List.mem_cons.mp hx with hx | hx
      · exact Or.inl hx
      · exact Or.inr hx
    · by_cases hc2 : k = h2
      · rw [insKey, if_neg hc1, if_pos hc2] at hx
        exact Or.inr hx
      · rw [insKey, if_neg hc1, if_neg hc2] at hx
        rcases List.mem_cons.mp hx with hx | hx
        · exact Or.inr (by rw [hx]; exact List.mem_cons_self h2 t2)
        · rcases ih2 k hx with hx2 | hx2
          · exact Or.inl hx2
          · exact Or.inr (List.mem_cons.mpr (Or.inr hx2))

theorem insKey_sorted (k : κ) :
    ∀ (l : List κ), l.Pairwise (· < ·) → (insKey l k).Pairwise (· < ·) := by
  intro l
  induction l with
  | nil => intro _; simp [insKey]
  | cons h t ih =>
    intro hs
    rw [List.pairwise_cons] at hs
    by_cases h1 : k < h
    · rw [insKey, if_pos h1]
      rw [List.pairwise_cons]
      refine ⟨?_, List.pairwise_cons.mpr hs⟩
      intro x hx
      rcases List.mem_cons.mp hx with hx | hx
      · rw [hx]; exact h1
      · exact lt_trans h1 (hs.1 x hx)
    · by_cases h2 : k = h
      · rw [insKey, if_neg h1, if_pos h2]
        exact List.pairwise_cons.mpr hs
      · rw [insKey, if_neg h1, if_neg h2]
        rw [List.pairwise_cons]
        refine ⟨?_, ih hs.2⟩
        intro x hx
        rcases insKey_mem_cases x t k hx with hx | hx
        · rw [hx]
          rcases lt_trichotomy k h with h3 | h3 | h3
          · exact absurd h3 h1
          · exact absurd h3 h2
          · exact h3
        · exact hs.1 x hx

theorem insKey_length (k : κ) :
    ∀ (l : List κ), l.Pairwise (· < ·) →
      (insKey l k).length = if k ∈ l then l.length else l.length + 1 := by
  intro l
  induction l with
  | nil => intro _; simp [insKey]
  | cons h t ih =>
    intro hs
    rw [List.pairwise_cons] at hs
    by_cases h1 : k < h
    · rw [insKey, if_pos h1]
      have hnot : k ∉ h :: t := by
        intro hx
        rcases List.mem_cons.mp hx with hx | hx
        · rw [hx] at h1; exact absurd h1 (lt_irrefl h)
        · exact absurd h1 (not_lt_of_lt (hs.1 k hx))
      rw [if_neg hnot]
      simp
    · by_cases h2 : k = h
      · rw [insKey, if_neg h1, if_pos h2]
        rw [if_pos (by rw [h2]; exact List.mem_cons_self h t)]
      · rw [insKey, if_neg h1, if_neg h2]
        by_cases h3 : k ∈ t
        · rw [if_pos (List.mem_cons.mpr (Or.inr h3))]
          simp only [List.length_cons]
          rw [ih hs.2, if_pos h3]
        · have hkn : k ∉ h :: t := by
            intro hx
            rcases List.mem_cons.mp hx with hx | hx
            · exact h2 hx
            · exact h3 hx
          rw [if_neg hkn]
          simp only [List.length_cons]
          rw [ih hs.2, if_neg h3]

theorem sorted_keys_nodup (l : List κ) (hs : l.Pairwise (· < ·)) : l.Nodup :=
  hs.imp (fun h => ne_of_lt h)

end SMapKeys

end UbpeV

namespace UbpeV

section RearrangeLemmas

theorem nodup_subset_length {l l' : List Nat} (hn : l.Nodup)
    (hsub : ∀ x ∈ l, x ∈ l') : l.length ≤ l'.length := by
  classical
  calc l.length = l.toFinset.card := (List.toFinset_card_of_nodup hn).symm
    _ ≤ l'.toFinset.card := Finset.card_le_card (fun x hx =>
        List.mem_toFinset.mpr (hsub x (List.mem_toFinset.mp hx)))
    _ ≤ l'.length := l'.toFinset_card_le

theorem markFold_spec (buf : List (Nat × List Nat)) (tok : Nat) :
    ∀ (js : List Nat) (s : List Nat),
      (∀ j ∈ js, j < buf.length) → s.Nodup → (∀ x ∈ s, x < buf.length) →
      (js.foldl (markStep buf tok) s).Nodup ∧
        (∀ x ∈ js.foldl (markStep buf tok) s, x < buf.length) ∧
        (∀ x ∈ s, x ∈ js.foldl (markStep buf tok) s) := by
  intro js
  induction js with
  | nil =>
    intro s _ hn hb
    exact ⟨hn, hb, fun x hx => hx⟩
  | cons j js ih =>
    intro s hjs hn hb
    simp only [List.foldl_cons]
    by_cases hc : tok ∈ (buf.getD j (0, [])).2 ∧ j ∉ s
    · have hstep : markStep buf tok s j = s ++ [j] := by
        unfold markStep
        rw [if_pos hc]
      rw [hstep]
      have hdisj : s.Disjoint [j] := by
        intro a ha hb2
        simp only [List.mem_singleton] at hb2
        rw [hb2] at ha
        exact hc.2 ha
      have hn2 : (s ++ [j]).Nodup := by
        rw [List.nodup_append]
        exact ⟨hn, List.nodup_singleton j, hdisj⟩
      have hb2 : ∀ x ∈ s ++ [j], x < buf.length := by
        intro x hx
        rcases List.mem_append.mp hx with hx | hx
        · exact hb x hx
        · simp only [List.mem_singleton] at hx
          rw [hx]
          exact hjs j (List.mem_cons_self j js)
      obtain ⟨a1, a2, a3⟩ := ih (s ++ [j])
        (fun x hx => hjs x (List.mem_cons.mpr (Or.inr hx))) hn2 hb2
      exact ⟨a1, a2, fun x hx => a3 x (List.mem_append.mpr (Or.inl hx))⟩
    · have hstep : markStep buf tok s j = s := by
        unfold markStep
        rw [if_neg hc]
      rw [hstep]
      exact ih s (fun x hx => hjs x (List.mem_cons.mpr (Or.inr hx))) hn hb

theorem toDeleteLoop_spec (buf : List (Nat × List Nat)) (quantity : Nat) :
    ∀ (fuel i : Nat) (s : List Nat), buf.length - i ≤ fuel →
      s.Nodup → (∀ x ∈ s, x < buf.length) →
      (toDeleteLoop buf quantity i s).Nodup ∧
        (∀ x ∈ toDeleteLoop buf quantity i s, x < buf.length) ∧
        (∀ x ∈ s, x ∈ toDeleteLoop buf quantity i s) ∧
        (quantity ≤ (toDeleteLoop buf quantity i s).length ∨
          ∀ k, i ≤ k → k < buf.length → k ∈ toDeleteLoop buf quantity i s) := by
  intro fuel
  induction fuel with
  | zero =>
    intro i s hf hn hb
    have hge : ¬ i < buf.length := by omega
    rw [toDeleteLoop.eq_def, if_neg hge]
    exact ⟨hn, hb, fun x hx => hx, Or.inr (fun k hk1 hk2 => absurd hk2 (by omega))⟩
  | succ fuel ih =>
    intro i s hf hn hb
    by_cases hlt : i < buf.length
    · rw [toDeleteLoop.eq_def, if_pos hlt]
      by_cases hmem : i ∈ s
      · rw [if_pos hmem]
        obtain ⟨a1, a2, a3, a4⟩ := ih (i + 1) s (by omega) hn hb
        refine ⟨a1, a2, a3, ?_⟩
        rcases a4 with a4 | a4
        · exact Or.inl a4
        · refine Or.inr (fun k hk1 hk2 => ?_)
          rcases Nat.eq_or_lt_of_le hk1 with hk | hk
          · rw [← hk]
            exact a3 i hmem
          · exact a4 k hk hk2
      · rw [if_neg hmem]
        by_cases hq : quantity ≤ s.length
        · rw [if_pos hq]
          exact ⟨hn, hb, fun x hx => hx, Or.inl hq⟩
        · rw [if_neg hq]
          simp only []
          have hdisj : s.Disjoint [i] := by
            intro a ha hb2
            simp only [List.mem_singleton] at hb2
            rw [hb2] at ha
            exact hmem ha
          have hn1 : (s ++ [i]).Nodup := by
            rw [List.nodup_append]
            exact ⟨hn, List.nodup_singleton i, hdisj⟩
          have hb1 : ∀ x ∈ s ++ [i], x < buf.length := by
            intro x hx
            rcases List.mem_append.mp hx with hx | hx
            · exact hb x hx
            · simp only [List.mem_singleton] at hx
              rw [hx]
              exact hlt
          obtain ⟨m1, m2, m3⟩ := markFold_spec buf (buf.getD i (0, [])).1
            (List.range' (i + 1) (buf.length - (i + 1))) (s ++ [i])
            (fun j hj => by
              have := List.mem_range'_1.mp hj
              omega) hn1 hb1
          obtain ⟨a1, a2, a3, a4⟩ := ih (i + 1) _ (by omega) m1 m2
          refine ⟨a1, a2, fun x hx =>
            a3 x (m3 x (List.mem_append.mpr (Or.inl hx))), ?_⟩
          rcases a4 with a4 | a4
          · exact Or.inl a4
          · refine Or.inr (fun k hk1 hk2 => ?_)
            rcases Nat.eq_or_lt_of_le hk1 with hk | hk
            · rw [← hk]
              exact a3 i (m3 i (List.mem_append.mpr (Or.inr
                (List.mem_singleton.mpr rfl))))
            · exact a4 k hk hk2
    · rw [toDeleteLoop.eq_def, if_neg hlt]
      exact ⟨hn, hb, fun x hx => hx,
        Or.inr (fun k hk1 hk2 => absurd hk2 (by omega))⟩

theorem toDeleteLoop_card (buf : List (Nat × List Nat)) (quantity : Nat) :
    min quantity buf.length ≤ (toDeleteLoop buf quantity 0 []).length := by
  obtain ⟨a1, a2, _, a4⟩ := toDeleteLoop_spec buf quantity buf.length 0 []
    (by omega) List.nodup_nil (by simp)
  rcases a4 with a4 | a4
  · omega
  · have hsub : ∀ x ∈ List.range buf.length,
        x ∈ toDeleteLoop buf quantity 0 [] := by
      intro x hx
      exact a4 x (Nat.zero_le x) (List.mem_range.mp hx)
    have := nodup_subset_length (List.nodup_range buf.length) hsub
    rw [List.length_range] at this
    omega

end RearrangeLemmas

end UbpeV

namespace UbpeV

section RearrangeBound

theorem kept_length_bound (buf : List (Nat × List Nat)) (q : Nat)
    (hnodup : (buf.map Prod.fst).Nodup) :
    (buf.reverse.filter (fun p => decide (p.1 ∉
        (toDeleteLoop buf q 0 []).map (fun e => (buf.getD e (0, [])).1)))).length
      + min q buf.length ≤ buf.length := by
  obtain ⟨hddn, hddb, _, _⟩ := toDeleteLoop_spec buf q buf.length 0 []
    (by omega) List.nodup_nil (by simp)
  have hcard := toDeleteLoop_card buf q
  set dd := toDeleteLoop buf q 0 [] with hdd
  set f : Nat → Nat := fun e => (buf.getD e (0, [])).1 with hf
  set dt := dd.map f with hdt
  -- distinct indices below `buf.length` carry distinct keys
  have hdtn : dt.Nodup := by
    rw [hdt]
    refine List.Nodup.map_on ?_ hddn
    intro x hx y hy hxy
    have hxl := hddb x hx
    have hyl := hddb y hy
    rw [hf] at hxy
    simp only [List.getD_eq_getElem buf (0, []) hxl,
      List.getD_eq_getElem buf (0, []) hyl] at hxy
    have hx2 : (buf.map Prod.fst).get ⟨x, by simpa using hxl⟩ =
        (buf.map Prod.fst).get ⟨y, by simpa using hyl⟩ := by
      simp only [List.get_eq_getElem, List.getElem_map]
      rw [hxy]
    rw [List.get_eq_getElem, List.get_eq_getElem] at hx2
    exact (List.Nodup.getElem_inj_iff hnodup).mp hx2
  -- the filtered-out entries of the reversed buffer
  have hsplit :
      (buf.reverse.filter (fun p => decide (p.1 ∉ dt))).length +
        (buf.reverse.filter (fun p => decide (p.1 ∈ dt))).length =
        buf.length := by
    have hperm := List.filter_append_perm
      (fun p : Nat × List Nat => decide (p.1 ∈ dt)) buf.reverse
    have h2 := hperm.length_eq
    simp only [List.length_append, List.length_reverse] at h2
    have he : (buf.reverse.filter (fun p => decide (p.1 ∉ dt))) =
        (buf.reverse.filter (fun p => !(decide (p.1 ∈ dt)))) := by
      apply List.filter_congr
      intro p _
      simp
    rw [he]
    omega
  -- every deleted token is the key of a matched entry
  have hsub : ∀ t ∈ dt, t ∈ (buf.reverse.filter
      (fun p => decide (p.1 ∈ dt))).map Prod.fst := by
    intro t ht
    have ht2 := ht
    rw [hdt] at ht2
    obtain ⟨e, he, hfe⟩ := List.mem_map.mp ht2
    have hel := hddb e he
    have hkey : (buf.get ⟨e, hel⟩).1 = t := by
      rw [← hfe, hf]
      simp only [List.getD_eq_getElem buf (0, []) hel, List.get_eq_getElem]
    refine List.mem_map.mpr ⟨buf.get ⟨e, hel⟩, ?_, hkey⟩
    rw [List.mem_filter]
    refine ⟨List.mem_reverse.mpr ?_, ?_⟩
    · rw [List.get_eq_getElem]
      exact List.getElem_mem hel
    rw [decide_eq_true_eq, hkey]
    exact ht
  have hlen1 : dt.length ≤ (buf.reverse.filter
      (fun p => decide (p.1 ∈ dt))).length := by
    have := nodup_subset_length hdtn hsub
    simpa using this
  have hlen2 : dd.length = dt.length := by
    rw [hdt, List.length_map]
  omega

theorem rearrange_bound {W : Type} (wlt : W → W → Bool) (w0 : W)
    (st st' : UbpeState W)
    (hlen : st.bwd.length ≤ st.weights.length)
    (hnodup : (st.bwd.map Prod.fst).Nodup)
    (halpha : st.alphabet_size ≤ st.n_tokens)
    (hw64 : st.weights.length + st.alphabet_size < 2 ^ 64)
    (hn64 : st.n_tokens < 2 ^ 64)
    (h : rearrange wlt w0 st = .ok st') :
    st'.bwd.length + st.alphabet_size ≤ st.n_tokens := by
  unfold rearrange at h
  split at h
  · exact Except.noConfusion h
  · simp only [Except.ok.injEq] at h
    have hbwd := congrArg UbpeState.bwd h
    simp only [] at hbwd
    rw [← hbwd]
    simp only [List.length_map, List.enum_length]
    set buf := st.bwd.mergeSort (fun a b =>
      !(wlt ((mlook st.weights b.1).getD w0)
        ((mlook st.weights a.1).getD w0))) with hbuf
    have hbl : buf.length = st.bwd.length := by
      rw [hbuf]
      exact (List.mergeSort_perm st.bwd _).length_eq
    have hbn : (buf.map Prod.fst).Nodup := by
      have hperm : (buf.map Prod.fst).Perm (st.bwd.map Prod.fst) :=
        (List.mergeSort_perm st.bwd _).map Prod.fst
      exact hperm.nodup_iff.mpr hnodup
    set q := (st.weights.length + 2 ^ 64 - st.n_tokens + st.alphabet_size)
      % 2 ^ 64 with hq
    have hbound := kept_length_bound buf q hbn
    by_cases hwrap : st.n_tokens ≤ st.weights.length + st.alphabet_size
    · obtain ⟨m, hm⟩ : ∃ m,
          st.weights.length + st.alphabet_size = m + st.n_tokens :=
        ⟨st.weights.length + st.alphabet_size - st.n_tokens, by omega⟩
      have hqval : q = m := by
        rw [hq]
        have h1 : st.weights.length + 2 ^ 64 - st.n_tokens + st.alphabet_size
            = m + 2 ^ 64 := by omega
        rw [h1, Nat.add_mod_right]
        exact Nat.mod_eq_of_lt (by omega)
      omega
    · obtain ⟨d2, hd2⟩ : ∃ d2, 2 ^ 64 = d2 + st.n_tokens :=
        ⟨2 ^ 64 - st.n_tokens, by omega⟩
      have hqval : q = st.weights.length + st.alphabet_size + d2 := by
        rw [hq]
        have h1 : st.weights.length + 2 ^ 64 - st.n_tokens + st.alphabet_size
            = st.weights.length + st.alphabet_size + d2 := by omega
        rw [h1]
        exact Nat.mod_eq_of_lt (by omega)
      omega

end RearrangeBound

end UbpeV

namespace UbpeV

section FitInvariants

variable {W : Type}

/-- The bookkeeping invariant `Ubpe::fit` maintains: the weight table and
the backward mapper share one key list, the key list is strictly sorted
(a `std::map`), and every key is a `uint32` value. -/
def FitInv (st : UbpeState W) : Prop :=
  st.weights.map Prod.fst = st.bwd.map Prod.fst ∧
  (st.bwd.map Prod.fst).Pairwise (· < ·) ∧
  ∀ k ∈ st.bwd.map Prod.fst, k < 2 ^ 32

theorem roundApply_inv (wfun : Nat → Nat → W) (corpusLen : Nat)
    (counter : List ((Nat × Nat) × (Nat × Nat))) :
    ∀ (sel : List ((Nat × Nat) × Nat)) (st : UbpeState W) (mt : Nat)
      (sub : List (Nat × (Nat × Nat))), FitInv st →
      FitInv (roundApply wfun corpusLen counter st mt sub sel).1 ∧
      (roundApply wfun corpusLen counter st mt sub sel).1.n_tokens =
        st.n_tokens ∧
      (roundApply wfun corpusLen counter st mt sub sel).1.alphabet_size =
        st.alphabet_size := by
  intro sel
  induction sel with
  | nil =>
    intro st mt sub hinv
    exact ⟨hinv, rfl, rfl⟩
  | cons pf rest ih =>
    intro st mt sub hinv
    obtain ⟨p, f⟩ := pf
    simp only [roundApply]
    refine ih _ ((mt + 1) % 2 ^ 32) _ ?_
    obtain ⟨hkeys, hsort, hbnd⟩ := hinv
    refine ⟨?_, ?_, ?_⟩
    · show (msetk st.weights ((mt + 1) % 2 ^ 32) _).map Prod.fst =
        (msetk st.bwd ((mt + 1) % 2 ^ 32) _).map Prod.fst
      rw [msetk_map_fst, msetk_map_fst, hkeys]
    · show ((msetk st.bwd ((mt + 1) % 2 ^ 32) _).map Prod.fst).Pairwise (· < ·)
      rw [msetk_map_fst]
      exact insKey_sorted _ _ hsort
    · show ∀ k ∈ (msetk st.bwd ((mt + 1) % 2 ^ 32) _).map Prod.fst, k < 2 ^ 32
      rw [msetk_map_fst]
      intro k hk
      rcases insKey_mem_cases k _ _ hk with hk | hk
      · rw [hk]
        exact Nat.mod_lt _ (by norm_num)
      · exact hbnd k hk

theorem fitRound_inv (wfun : Nat → Nat → W) (cl nc : Nat) (st : UbpeState W)
    (mt : Nat) (corpus : List (List Nat)) (st2 : UbpeState W) (mt2 : Nat)
    (corpus2 : List (List Nat)) (hinv : FitInv st)
    (h : fitRound wfun cl nc st mt corpus = .ok (some (st2, mt2, corpus2))) :
    FitInv st2 ∧ st2.n_tokens = st.n_tokens ∧
      st2.alphabet_size = st.alphabet_size := by
  unfold fitRound at h
  split at h
  · exact Except.noConfusion h
  · rename_i counter hcounter
    split at h
    · exact Except.noConfusion h
    · exact Option.noConfusion (Except.ok.inj h)
    · rename_i m0 rest hmc
      simp only [] at h
      split at h
      · exact Except.noConfusion h
      · rename_i corpus2x hmapm
        simp only [Except.ok.injEq, Option.some.injEq, Prod.mk.injEq] at h
        rw [← h.1]
        exact roundApply_inv wfun cl counter (selectPairs counter m0 rest)
          st mt [] hinv

theorem fitLoop_inv (wfun : Nat → Nat → W) (cl nc : Nat) :
    ∀ (fuel : Nat) (st : UbpeState W) (mt : Nat) (corpus : List (List Nat))
      (st2 : UbpeState W), FitInv st →
      fitLoop wfun cl nc fuel st mt corpus = .ok st2 →
      FitInv st2 ∧ st2.n_tokens = st.n_tokens ∧
        st2.alphabet_size = st.alphabet_size := by
  intro fuel
  induction fuel with
  | zero =>
    intro st mt corpus st2 _ h
    exact Except.noConfusion h
  | succ fuel ih =>
    intro st mt corpus st2 hinv h
    rw [fitLoop] at h
    split at h
    · split at h
      · exact Except.noConfusion h
      · simp only [Except.ok.injEq] at h
        rw [← h]
        exact ⟨hinv, rfl, rfl⟩
      · rename_i stx mtx corpusx hround
        obtain ⟨h1, h2, h3⟩ := fitRound_inv wfun cl nc st mt corpus stx mtx
          corpusx hinv hround
        obtain ⟨g1, g2, g3⟩ := ih stx mtx corpusx st2 h1 h
        exact ⟨g1, g2.trans h2, g3.trans h3⟩
    · simp only [Except.ok.injEq] at h
      rw [← h]
      exact ⟨hinv, rfl, rfl⟩

end FitInvariants

end UbpeV

namespace UbpeV

section ClaimC3

/-- C3 (corrected): the spec's bound holds for a tokenizer fitted from
scratch whenever `alphabet_size ≤ n_tokens`: after
`fit(corpus, n_candidates, rearrange_tokens = true)` succeeds,
`|backward_mapper| + alphabet_size ≤ n_tokens`.  (The unrestricted claim
is false: a pre-loaded state with `alphabet_size > n_tokens` survives
`fit` with a nonempty table erased to nothing, leaving
`0 + alphabet_size > n_tokens` — see the counterexample.) -/
theorem C3_vocab_bound {W : Type} (wfun : Nat → Nat → W)
    (wlt : W → W → Bool) (w0 : W) (st st' : UbpeState W)
    (corpus : List (List Nat)) (ncand : Nat)
    (halpha : st.alphabet_size ≤ st.n_tokens)
    (hn : st.n_tokens < 2 ^ 32)
    (hfresh : st.bwd = [] ∧ st.weights = [])
    (h : fitU wfun wlt w0 st corpus ncand true = .ok st') :
    st'.bwd.length + st.alphabet_size ≤ st.n_tokens := by
  unfold fitU at h
  split at h
  · exact Except.noConfusion h
  · split at h
    · exact Except.noConfusion h
    · rename_i corpusv hmapm
      simp only [] at h
      split at h
      · exact Except.noConfusion h
      · rename_i st2 hloop
        split at h
        · exact Except.noConfusion h
        · rename_i st3 hre
          simp only [Except.ok.injEq] at h
          have hbwd : st'.bwd = st3.bwd := by
            rw [← h]
          simp only [if_true] at hre
          have hinv0 : FitInv st := by
            refine ⟨?_, ?_, ?_⟩
            · rw [hfresh.1, hfresh.2]
              rfl
            · rw [hfresh.1]
              simp
            · rw [hfresh.1]
              simp
          obtain ⟨hinv2, hnt, has⟩ := fitLoop_inv wfun corpus.length ncand
            (st.n_tokens + 1) st _ corpusv st2 hinv0 hloop
          have hwb : st2.weights.length = st2.bwd.length := by
            have := congrArg List.length hinv2.1
            simpa using this
          have hnodup2 : (st2.bwd.map Prod.fst).Nodup :=
            sorted_keys_nodup _ hinv2.2.1
          have hblen : st2.bwd.length ≤ 2 ^ 32 := by
            have hsub : ∀ x ∈ st2.bwd.map Prod.fst,
                x ∈ List.range (2 ^ 32) := by
              intro x hx
              exact List.mem_range.mpr (hinv2.2.2 x hx)
            have := nodup_subset_length hnodup2 hsub
            simpa using this
          have hb := rearrange_bound wlt w0 st2 st3
            (by omega) hnodup2 (by rw [hnt, has]; exact halpha)
            (by rw [has]; have : st.alphabet_size < 2 ^ 32 := by omega
                omega)
            (by rw [hnt]; omega) hre
          rw [hbwd]
          rw [hnt, has] at hb
          exact hb

end ClaimC3

end UbpeV

namespace UbpeV

section ClaimC3W

/-- C3 counterexample: a pre-loaded tokenizer with `alphabet_size = 3 >
2 = n_tokens` and one learned token.  `fit([], 1, true)` skips the merge
loop (`max_token = 2 >= n_tokens`), and the rearrange erases the whole
table (`to_delete_quantity = 1 - 2 + 3 = 2 > |buf|`), so afterwards
`|backward_mapper| + alphabet_size = 0 + 3 > 2 = n_tokens`. -/
theorem C3_vocab_bound_counterexample :
    fitU (fun _ _ => (0 : ℚ)) (fun a b => decide (a < b)) 0
        ⟨2, 3, [(0, 0), (1, 1), (2, 2)], [(0, 0), (1, 1), (2, 2)], [],
          [(3, [0, 1])], [(3, 5)]⟩ [] 1 true =
      .ok ⟨2, 3, [(0, 0), (1, 1), (2, 2)], [(0, 0), (1, 1), (2, 2)],
        [], [], []⟩ ∧
    ¬ ((0 : Nat) + 3 ≤ 2) := by
  refine ⟨?_, by decide⟩
  have hloop : fitLoop (fun _ _ => (0 : ℚ)) 0 1 3
      ⟨2, 3, [(0, 0), (1, 1), (2, 2)], [(0, 0), (1, 1), (2, 2)], [],
        [(3, [0, 1])], [(3, 5)]⟩ ((3 + 2 ^ 32 - 1) % 2 ^ 32) [] =
      .ok ⟨2, 3, [(0, 0), (1, 1), (2, 2)], [(0, 0), (1, 1), (2, 2)], [],
        [(3, [0, 1])], [(3, 5)]⟩ := by
    have hmt : ((3 + 2 ^ 32 - 1) % 2 ^ 32 : Nat) = 2 := by norm_num
    rw [hmt, fitLoop, if_neg (by norm_num)]
  have hq : ((1 + 2 ^ 64 - 2 + 3) % 2 ^ 64 : Nat) = 2 := by norm_num
  have hre : rearrange (fun a b => decide (a < b)) (0 : ℚ)
      ⟨2, 3, [(0, 0), (1, 1), (2, 2)], [(0, 0), (1, 1), (2, 2)], [],
        [(3, [0, 1])], [(3, 5)]⟩ =
      .ok ⟨2, 3, [(0, 0), (1, 1), (2, 2)], [(0, 0), (1, 1), (2, 2)], [],
        [], []⟩ := by
    unfold rearrange
    rw [if_neg (by norm_num)]
    simp only []
    rw [show ((⟨2, 3, [(0, 0), (1, 1), (2, 2)], [(0, 0), (1, 1), (2, 2)],
      [], [(3, [0, 1])], [(3, 5)]⟩ : UbpeState ℚ).weights.length + 2 ^ 64 -
      (2 : Nat) + 3) % 2 ^ 64 = 2 from hq]
    simp [toDeleteLoop, markStep, List.mergeSort, mlook]
  unfold fitU
  rw [if_neg (by norm_num),
    show List.mapM (docToVec ⟨2, 3, [(0, 0), (1, 1), (2, 2)],
      [(0, 0), (1, 1), (2, 2)], [], [(3, [0, 1])],
      [(3, (5 : ℚ))]⟩) [] = .ok [] from rfl]
  simp only []
  rw [show ((⟨2, 3, [(0, 0), (1, 1), (2, 2)], [(0, 0), (1, 1), (2, 2)], [],
    [(3, [0, 1])], [(3, (5 : ℚ))]⟩ : UbpeState ℚ).alphabet_size +
    2 ^ 32 - 1) % 2 ^ 32 = (3 + 2 ^ 32 - 1) % 2 ^ 32 from rfl]
  rw [show List.length ([] : List (List Nat)) = 0 from rfl]
  rw [show (⟨2, 3, [(0, 0), (1, 1), (2, 2)], [(0, 0), (1, 1), (2, 2)], [],
    [(3, [0, 1])], [(3, (5 : ℚ))]⟩ : UbpeState ℚ).n_tokens + 1 = 3 from rfl]
  rw [hloop]
  simp only [if_true]
  rw [hre]
  rfl

/-- Witness for `C3_vocab_bound`: a fresh tokenizer with alphabet `{0, 1}`
and `n_tokens = 3`, fitted on `[[0, 1]]`. -/
theorem C3_vocab_bound_witness :
    ((3 : Nat) < 2 ^ 32 ∧
      fitU (fun _ _ => (0 : ℚ)) (fun a b => decide (a < b)) 0
        ⟨3, 2, [(0, 0), (1, 1)], [(0, 0), (1, 1)], [], [], []⟩
        [[0, 1]] 1 true =
      .ok ⟨3, 2, [(0, 0), (1, 1)], [(0, 0), (1, 1)], [([0, 1], 2)],
        [(2, [0, 1])], [(2, 0)]⟩) ∧
    (⟨3, 2, [(0, 0), (1, 1)], [(0, 0), (1, 1)], [([0, 1], 2)],
        [(2, [0, 1])], [(2, 0)]⟩ : UbpeState ℚ).bwd.length + 2 ≤ 3 := by
  have hrt : replaceTokenPairs [0, 1] [(0, (1, 2))] = .ok [2] := by
    simp [replaceTokenPairs, replaceLoop, sizeSub1, alook]
  have hr1 : fitRound (fun _ _ => (0 : ℚ)) 1 1
      ⟨3, 2, [(0, 0), (1, 1)], [(0, 0), (1, 1)], [], [], []⟩ 1 [[0, 1]] =
      .ok (some (⟨3, 2, [(0, 0), (1, 1)], [(0, 0), (1, 1)], [],
        [(2, [0, 1])], [(2, 0)]⟩, 2, [[2]])) := by
    unfold fitRound
    rw [show pcFromCorpus [[0, 1]] = .ok [((0, 1), (1, 1))] from rfl]
    simp only []
    rw [show mostCommon [((0, 1), (1, 1))] 1 = .ok [((0, 1), 1)] from rfl]
    simp only []
    have hra : roundApply (fun _ _ => (0 : ℚ)) 1 [((0, 1), (1, 1))]
        ⟨3, 2, [(0, 0), (1, 1)], [(0, 0), (1, 1)], [], [], []⟩ 1 []
        (selectPairs [((0, 1), (1, 1))] ((0, 1), 1) []) =
        (⟨3, 2, [(0, 0), (1, 1)], [(0, 0), (1, 1)], [],
          [(2, [0, 1])], [(2, 0)]⟩, 2, [(0, (1, 2))]) := by
      rw [show selectPairs [((0, 1), (1, 1))] ((0, 1), 1) [] =
        [((0, 1), 1)] from rfl]
      have hmt2 : ((1 + 1) % 2 ^ 32 : Nat) = 2 := by norm_num
      simp [roundApply, dec1, msetk, mlook, aset, pcGet, alook, hmt2]
    rw [hra]
    simp only []
    rw [show List.mapM (fun doc => replaceTokenPairs doc [(0, (1, 2))])
      [[0, 1]] = .ok [[2]] from by
        simp [List.mapM, List.mapM.loop, hrt]]
  have hr2 : fitRound (fun _ _ => (0 : ℚ)) 1 1
      ⟨3, 2, [(0, 0), (1, 1)], [(0, 0), (1, 1)], [],
        [(2, [0, 1])], [(2, 0)]⟩ 2 [[2]] = .ok none := by
    unfold fitRound
    rw [show pcFromCorpus [[2]] = .ok [] from rfl]
    simp only []
    rw [show mostCommon [] 1 = .ok [] from rfl]
  have hloop : fitLoop (fun _ _ => (0 : ℚ)) 1 1 4
      ⟨3, 2, [(0, 0), (1, 1)], [(0, 0), (1, 1)], [], [], []⟩ 1 [[0, 1]] =
      .ok ⟨3, 2, [(0, 0), (1, 1)], [(0, 0), (1, 1)], [],
        [(2, [0, 1])], [(2, 0)]⟩ := by
    rw [fitLoop, if_pos (by norm_num), hr1]
    simp only []
    rw [fitLoop, if_pos (by norm_num), hr2]
  have hq : ((1 + 2 ^ 64 - 3 + 2) % 2 ^ 64 : Nat) = 0 := by norm_num
  have hre : rearrange (fun a b => decide (a < b)) (0 : ℚ)
      ⟨3, 2, [(0, 0), (1, 1)], [(0, 0), (1, 1)], [],
        [(2, [0, 1])], [(2, 0)]⟩ =
      .ok ⟨3, 2, [(0, 0), (1, 1)], [(0, 0), (1, 1)], [],
        [(2, [0, 1])], [(2, 0)]⟩ := by
    unfold rearrange
    rw [if_neg (by norm_num)]
    simp only []
    rw [show ((⟨3, 2, [(0, 0), (1, 1)], [(0, 0), (1, 1)], [],
      [(2, [0, 1])], [(2, 0)]⟩ : UbpeState ℚ).weights.length + 2 ^ 64 -
      (3 : Nat) + 2) % 2 ^ 64 = 0 from hq]
    simp [toDeleteLoop, markStep, List.mergeSort, mlook, alook]
  have heval : fitU (fun _ _ => (0 : ℚ)) (fun a b => decide (a < b)) 0
      ⟨3, 2, [(0, 0), (1, 1)], [(0, 0), (1, 1)], [], [], []⟩
      [[0, 1]] 1 true =
      .ok ⟨3, 2, [(0, 0), (1, 1)], [(0, 0), (1, 1)], [([0, 1], 2)],
        [(2, [0, 1])], [(2, 0)]⟩ := by
    unfold fitU
    rw [if_neg (by norm_num),
      show List.mapM (docToVec ⟨3, 2, [(0, 0), (1, 1)], [(0, 0), (1, 1)],
        [], [], []⟩) [[0, 1]] = .ok [[0, 1]] from rfl]
    simp only []
    rw [show ((⟨3, 2, [(0, 0), (1, 1)], [(0, 0), (1, 1)], [], [], []⟩ :
      UbpeState ℚ).alphabet_size + 2 ^ 32 - 1) % 2 ^ 32 = 1 from by
        norm_num]
    rw [show List.length [[0, 1]] = 1 from rfl]
    rw [show (⟨3, 2, [(0, 0), (1, 1)], [(0, 0), (1, 1)], [], [], []⟩ :
      UbpeState ℚ).n_tokens + 1 = 4 from rfl]
    rw [hloop]
    simp only [if_true]
    rw [hre]
    simp only []
    rfl
  exact ⟨⟨by decide, heval⟩,
    C3_vocab_bound (fun _ _ => (0 : ℚ)) (fun a b => decide (a < b)) 0
      ⟨3, 2, [(0, 0), (1, 1)], [(0, 0), (1, 1)], [], [], []⟩
      ⟨3, 2, [(0, 0), (1, 1)], [(0, 0), (1, 1)], [([0, 1], 2)],
        [(2, [0, 1])], [(2, 0)]⟩ [[0, 1]] 1 (by decide) (by decide)
      ⟨rfl, rfl⟩ heval⟩

end ClaimC3W

end UbpeV

namespace UbpeV

/-! ## Structural companions for `mapM (mat m)` and key-membership facts -/

section MapMat

variable {κ : Type} [LinearOrder κ] {β : Type}

/-- Structural companion of `List.mapM (mat m)` (the `std::transform`
through `map::at` used by `_doc_to_vec` / `_vec_to_doc`). -/
def mapMat (m : List (κ × β)) : List κ → Except Err (List β)
  | [] => .ok []
  | a :: l =>
    match mat m a with
    | .error e => .error e
    | .ok b =>
      match mapMat m l with
      | .error e => .error e
      | .ok bs => .ok (b :: bs)

theorem mapM_eq_mapMat (m : List (κ × β)) (l : List κ) :
    l.mapM (mat m) = mapMat m l := by
  induction l with
  | nil => rfl
  | cons a l ih =>
    rw [List.mapM_cons, mapMat]
    cases h : mat m a with
    | error e => simp [h, Bind.bind, Except.bind]
    | ok b =>
      rw [ih]
      cases hm : mapMat m l with
      | error e => simp [h, hm, Bind.bind, Except.bind]
      | ok bs => simp [h, hm, Bind.bind, Except.bind, Pure.pure, Except.pure]

theorem mapMat_length (m : List (κ × β)) :
    ∀ (l : List κ) (out : List β), mapMat m l = .ok out →
      out.length = l.length := by
  intro l
  induction l with
  | nil =>
    intro out h
    rw [show mapMat m [] = .ok ([] : List β) from rfl] at h
    cases h
    rfl
  | cons a l ih =>
    intro out h
    rw [mapMat] at h
    cases ha : mat m a with
    | error e => rw [ha] at h; exact Except.noConfusion h
    | ok b =>
      rw [ha] at h
      cases hm : mapMat m l with
      | error e => rw [hm] at h; exact Except.noConfusion h
      | ok bs =>
        rw [hm] at h
        cases h
        simp [ih bs hm]

theorem mapMat_mem (m : List (κ × β)) :
    ∀ (l : List κ) (out : List β), mapMat m l = .ok out →
      ∀ b ∈ out, ∃ a, mlook m a = some b := by
  intro l
  induction l with
  | nil =>
    intro out h b hb
    rw [show mapMat m [] = .ok ([] : List β) from rfl] at h
    cases h
    exact absurd hb (List.not_mem_nil b)
  | cons a l ih =>
    intro out h b hb
    rw [mapMat] at h
    cases ha : mat m a with
    | error e => rw [ha] at h; exact Except.noConfusion h
    | ok b0 =>
      rw [ha] at h
      cases hm : mapMat m l with
      | error e => rw [hm] at h; exact Except.noConfusion h
      | ok bs =>
        rw [hm] at h
        cases h
        rcases List.mem_cons.mp hb with hb | hb
        · refine ⟨a, ?_⟩
          unfold mat at ha
          cases hl : mlook m a with
          | none => rw [hl] at ha; exact Except.noConfusion ha
          | some v =>
            rw [hl] at ha
            dsimp only at ha
            rw [hb]
            exact congrArg some (Except.ok.inj ha)
        · exact ih bs hm b hb

theorem mapMat_all (m : List (κ × β)) :
    ∀ (l : List κ), (∀ a ∈ l, (mlook m a).isSome) →
      ∃ out, mapMat m l = .ok out := by
  intro l
  induction l with
  | nil => exact fun _ => ⟨[], rfl⟩
  | cons a l ih =>
    intro h
    have ha := h a (List.mem_cons_self a l)
    cases hl : mlook m a with
    | none => rw [hl] at ha; exact absurd ha (by simp)
    | some b =>
      rcases ih (fun x hx => h x (List.mem_cons_of_mem a hx)) with ⟨bs, hbs⟩
      refine ⟨b :: bs, ?_⟩
      rw [mapMat, show mat m a = .ok b from by unfold mat; rw [hl], hbs]

theorem mlook_mem (m : List (κ × β)) (k : κ) (v : β)
    (h : mlook m k = some v) : (k, v) ∈ m := by
  induction m with
  | nil => exact Option.noConfusion h
  | cons e rest ih =>
    match e with
    | (k0, v0) =>
      rw [mlook] at h
      by_cases hk : k = k0
      · rw [if_pos hk] at h
        cases h
        rw [hk]
        exact List.mem_cons_self _ _
      · rw [if_neg hk] at h
        exact List.mem_cons_of_mem _ (ih h)

theorem msetk_mem_cases (x : κ × β) :
    ∀ (m : List (κ × β)) (k : κ) (v : β), x ∈ msetk m k v →
      x ∈ m ∨ x = (k, v) := by
  intro m
  induction m with
  | nil =>
    intro k v h
    rw [msetk] at h
    rcases List.mem_cons.mp h with h | h
    · exact Or.inr h
    · exact absurd h (List.not_mem_nil x)
  | cons e rest ih =>
    intro k v h
    match e with
    | (k0, v0) =>
      rw [msetk] at h
      by_cases h1 : k < k0
      · rw [if_pos h1] at h
        rcases List.mem_cons.mp h with h | h
        · exact Or.inr h
        · exact Or.inl h
      · rw [if_neg h1] at h
        by_cases h2 : k = k0
        · rw [if_pos h2] at h
          rcases List.mem_cons.mp h with h | h
          · exact Or.inr h
          · exact Or.inl (List.mem_cons_of_mem _ h)
        · rw [if_neg h2] at h
          rcases List.mem_cons.mp h with h | h
          · exact Or.inl (by rw [h]; exact List.mem_cons_self _ _)
          · rcases ih k v h with h | h
            · exact Or.inl (List.mem_cons_of_mem _ h)
            · exact Or.inr h

end MapMat

end UbpeV

namespace UbpeV

section MapMat2

variable {κ : Type} [LinearOrder κ]

/-- Alphabet round trip: if `inverse_alphabet` undoes `alphabet` on every
alphabet entry, then `mapMat inverse_alphabet` undoes `mapMat alphabet`. -/
theorem mapMat_roundtrip (A : List (κ × Nat)) (I : List (Nat × κ))
    (hinv : ∀ a ∈ A, mlook I a.2 = some a.1) :
    ∀ (doc : List κ) (v : List Nat), mapMat A doc = .ok v →
      mapMat I v = .ok doc := by
  intro doc
  induction doc with
  | nil =>
    intro v h
    rw [show mapMat A [] = .ok ([] : List Nat) from rfl] at h
    cases h
    rfl
  | cons d ds ih =>
    intro v h
    rw [mapMat] at h
    cases ha : mat A d with
    | error e => rw [ha] at h; exact Except.noConfusion h
    | ok b =>
      rw [ha] at h
      cases hm : mapMat A ds with
      | error e => rw [hm] at h; exact Except.noConfusion h
      | ok bs =>
        rw [hm] at h
        cases h
        have hbd : mlook A d = some b := by
          unfold mat at ha
          cases hl : mlook A d with
          | none => rw [hl] at ha; exact Except.noConfusion ha
          | some v0 => rw [hl] at ha; cases ha; rfl
        have hIb : mlook I b = some d := hinv (d, b) (mlook_mem A d b hbd)
        rw [mapMat, show mat I b = .ok d from by unfold mat; rw [hIb],
          ih bs hm]

/-- Association-list lookup finds an entry of the list. -/
theorem alook_mem {κ' : Type} [DecidableEq κ'] {β : Type}
    (m : List (κ' × β)) (k : κ') (v : β)
    (h : alook m k = some v) : (k, v) ∈ m := by
  induction m with
  | nil => exact Option.noConfusion h
  | cons e rest ih =>
    match e with
    | (k0, v0) =>
      rw [alook] at h
      by_cases hk : k = k0
      · rw [if_pos hk] at h
        cases h
        rw [hk]
        exact List.mem_cons_self _ _
      · rw [if_neg hk] at h
        exact List.mem_cons_of_mem _ (ih h)

end MapMat2

end UbpeV

namespace UbpeV

/-! ## Transitive expansion through the backward mapper

`UbpeClassic::decode` expands tokens in place until no element is a key of
`tokens_backward_mapper`; the fitted invariant making this terminate is
acyclicity of the table (some rank function strictly decreases from each
key to the elements of its backward sequence: the identity for a freshly
fitted tokenizer, the inverse of the relabelling after rearrangement).
Along an expansion chain the rank strictly decreases, so the chain visits
pairwise distinct keys and its depth is at most the table size; depth fuel
`bwd.length + 1` therefore suffices for every acyclic table. -/

section ExpandDefs

/-- Fuel-indexed expansion size: one unit per in-place expansion step of
`UbpeClassic::decode`, with `fuel` bounding the expansion depth. -/
def expandSizeF (bwd : List (Nat × List Nat)) : Nat → Nat → Nat
  | 0, _ => 1
  | fuel + 1, t =>
    match mlook bwd t with
    | none => 1
    | some seq => 1 + (seq.map (expandSizeF bwd fuel)).sum

/-- Fuel-indexed full transitive expansion of one token. -/
def expandFullF (bwd : List (Nat × List Nat)) : Nat → Nat → List Nat
  | 0, t => [t]
  | fuel + 1, t =>
    match mlook bwd t with
    | none => [t]
    | some seq => (seq.map (expandFullF bwd fuel)).join

/-- Number of in-place expansion steps a full expansion of `t` performs
(used as decode fuel), at the canonical depth fuel. -/
def expandSize (bwd : List (Nat × List Nat)) (t : Nat) : Nat :=
  expandSizeF bwd (bwd.length + 1) t

/-- Full transitive expansion of one token through the backward mapper,
at the canonical depth fuel. -/
def expandFull (bwd : List (Nat × List Nat)) (t : Nat) : List Nat :=
  expandFullF bwd (bwd.length + 1) t

/-- Full transitive expansion of a vector. -/
def expandAllL (bwd : List (Nat × List Nat)) (v : List Nat) : List Nat :=
  (v.map (expandFull bwd)).join

/-- Number of table keys of rank at most `rank t`: the measure showing
that the canonical depth fuel suffices under any rank function that
strictly decreases along backward entries. -/
def rkCnt (bwd : List (Nat × List Nat)) (rank : Nat → Nat) (t : Nat) :
    Nat :=
  ((bwd.map Prod.fst).filter (fun k => decide (rank k ≤ rank t))).length

end ExpandDefs

end UbpeV

namespace UbpeV

section ExpandLemmas

theorem expandFullF_succ (bwd : List (Nat × List Nat)) (fuel t : Nat) :
    expandFullF bwd (fuel + 1) t =
      match mlook bwd t with
      | none => [t]
      | some seq => (seq.map (expandFullF bwd fuel)).join := rfl

theorem expandSizeF_succ (bwd : List (Nat × List Nat)) (fuel t : Nat) :
    expandSizeF bwd (fuel + 1) t =
      match mlook bwd t with
      | none => 1
      | some seq => 1 + (seq.map (expandSizeF bwd fuel)).sum := rfl

theorem filter_length_mono {α : Type} (p q : α → Bool) :
    ∀ l : List α, (∀ x ∈ l, p x = true → q x = true) →
      (l.filter p).length ≤ (l.filter q).length := by
  intro l
  induction l with
  | nil => intro _; exact le_refl 0
  | cons a l ih =>
    intro h
    have hl := ih (fun x hx => h x (List.mem_cons_of_mem a hx))
    rw [List.filter_cons, List.filter_cons]
    by_cases hp : p a = true
    · rw [if_pos hp, if_pos (h a (List.mem_cons_self a l) hp)]
      simp only [List.length_cons]
      omega
    · rw [if_neg hp]
      by_cases hq : q a = true
      · rw [if_pos hq]
        simp only [List.length_cons]
        omega
      · rw [if_neg hq]
        exact hl

theorem filter_length_strict {α : Type} (p q : α → Bool) :
    ∀ l : List α, (∀ x ∈ l, p x = true → q x = true) →
      ∀ x0 ∈ l, q x0 = true → p x0 = false →
      (l.filter p).length < (l.filter q).length := by
  intro l
  induction l with
  | nil => intro _ x0 hx0 _ _; exact absurd hx0 (List.not_mem_nil x0)
  | cons a l ih =>
    intro h x0 hx0 hq0 hp0
    have hmono := filter_length_mono p q l
      (fun x hx => h x (List.mem_cons_of_mem a hx))
    rw [List.filter_cons, List.filter_cons]
    by_cases hp : p a = true
    · have hx0l : x0 ∈ l := by
        rcases List.mem_cons.mp hx0 with hx | hx
        · subst hx
          rw [hp0] at hp
          exact Bool.noConfusion hp
        · exact hx
      rw [if_pos hp, if_pos (h a (List.mem_cons_self a l) hp)]
      simp only [List.length_cons]
      have := ih (fun x hx => h x (List.mem_cons_of_mem a hx)) x0 hx0l hq0 hp0
      omega
    · rw [if_neg hp]
      by_cases hq : q a = true
      · rw [if_pos hq]
        simp only [List.length_cons]
        omega
      · have hx0l : x0 ∈ l := by
          rcases List.mem_cons.mp hx0 with hx | hx
          · subst hx
            exact absurd hq0 hq
          · exact hx
        rw [if_neg hq]
        exact ih (fun x hx => h x (List.mem_cons_of_mem a hx)) x0 hx0l hq0 hp0

/-- A backward entry's elements sit strictly below its key in the
`rkCnt` measure. -/
theorem rkCnt_child_lt (bwd : List (Nat × List Nat)) (rank : Nat → Nat)
    (t : Nat) (seq : List Nat) (hmem : (t, seq) ∈ bwd) (s : Nat)
    (hs : rank s < rank t) :
    rkCnt bwd rank s < rkCnt bwd rank t := by
  unfold rkCnt
  refine filter_length_strict _ _ (bwd.map Prod.fst) ?_ t ?_ ?_ ?_
  · intro k _ hk
    rw [decide_eq_true_iff] at hk
    exact decide_eq_true (le_trans hk (le_of_lt hs))
  · exact List.mem_map.mpr ⟨(t, seq), hmem, rfl⟩
  · exact decide_eq_true (le_refl (rank t))
  · rw [decide_eq_false_iff_not]
    omega

theorem rkCnt_le (bwd : List (Nat × List Nat)) (rank : Nat → Nat)
    (t : Nat) : rkCnt bwd rank t ≤ bwd.length := by
  unfold rkCnt
  exact le_trans (List.length_filter_le _ _)
    (le_of_eq (List.length_map _ _))

/-- Beyond the `rkCnt` measure, the fuel value is irrelevant to the full
expansion. -/
theorem expandFullF_stable (bwd : List (Nat × List Nat))
    (rank : Nat → Nat)
    (hrank : ∀ e ∈ bwd, ∀ s ∈ e.2, rank s < rank e.1) :
    ∀ (fuel1 t fuel2 : Nat),
      rkCnt bwd rank t < fuel1 → rkCnt bwd rank t < fuel2 →
      expandFullF bwd fuel1 t = expandFullF bwd fuel2 t := by
  intro fuel1
  induction fuel1 with
  | zero => intro t fuel2 h1 _; exact absurd h1 (Nat.not_lt_zero _)
  | succ fuel1 ih =>
    intro t fuel2 h1 h2
    match fuel2 with
    | 0 => exact absurd h2 (Nat.not_lt_zero _)
    | fuel2 + 1 =>
      rw [expandFullF_succ, expandFullF_succ]
      cases hm : mlook bwd t with
      | none => rfl
      | some seq =>
        dsimp only
        refine congrArg List.join (List.map_congr_left ?_)
        intro s hs
        have hmem := mlook_mem bwd t seq hm
        have hcnt : rkCnt bwd rank s < rkCnt bwd rank t :=
          rkCnt_child_lt bwd rank t seq hmem s (hrank (t, seq) hmem s hs)
        exact ih s fuel2 (by omega) (by omega)

/-- Beyond the `rkCnt` measure, the fuel value is irrelevant to the
expansion size. -/
theorem expandSizeF_stable (bwd : List (Nat × List Nat))
    (rank : Nat → Nat)
    (hrank : ∀ e ∈ bwd, ∀ s ∈ e.2, rank s < rank e.1) :
    ∀ (fuel1 t fuel2 : Nat),
      rkCnt bwd rank t < fuel1 → rkCnt bwd rank t < fuel2 →
      expandSizeF bwd fuel1 t = expandSizeF bwd fuel2 t := by
  intro fuel1
  induction fuel1 with
  | zero => intro t fuel2 h1 _; exact absurd h1 (Nat.not_lt_zero _)
  | succ fuel1 ih =>
    intro t fuel2 h1 h2
    match fuel2 with
    | 0 => exact absurd h2 (Nat.not_lt_zero _)
    | fuel2 + 1 =>
      rw [expandSizeF_succ, expandSizeF_succ]
      cases hm : mlook bwd t with
      | none => rfl
      | some seq =>
        dsimp only
        refine congrArg (1 + ·) (congrArg List.sum (List.map_congr_left ?_))
        intro s hs
        have hmem := mlook_mem bwd t seq hm
        have hcnt : rkCnt bwd rank s < rkCnt bwd rank t :=
          rkCnt_child_lt bwd rank t seq hmem s (hrank (t, seq) hmem s hs)
        exact ih s fuel2 (by omega) (by omega)

theorem expandFull_base (bwd : List (Nat × List Nat)) (t : Nat)
    (h : mlook bwd t = none) : expandFull bwd t = [t] := by
  unfold expandFull
  rw [expandFullF_succ, h]

theorem expandFull_step (bwd : List (Nat × List Nat)) (rank : Nat → Nat)
    (hrank : ∀ e ∈ bwd, ∀ s ∈ e.2, rank s < rank e.1) (t : Nat)
    (seq : List Nat) (hs : mlook bwd t = some seq) :
    expandFull bwd t = (seq.map (expandFull bwd)).join := by
  simp only [expandFull]
  rw [expandFullF_succ, hs]
  dsimp only
  refine congrArg List.join (List.map_congr_left ?_)
  intro s hsm
  have hmem := mlook_mem bwd t seq hs
  have hcnt : rkCnt bwd rank s < rkCnt bwd rank t :=
    rkCnt_child_lt bwd rank t seq hmem s (hrank (t, seq) hmem s hsm)
  have hle := rkCnt_le bwd rank t
  exact expandFullF_stable bwd rank hrank bwd.length s (bwd.length + 1)
    (by omega) (by omega)

theorem expandSize_base (bwd : List (Nat × List Nat)) (t : Nat)
    (h : mlook bwd t = none) : expandSize bwd t = 1 := by
  unfold expandSize
  rw [expandSizeF_succ, h]

theorem expandSize_step (bwd : List (Nat × List Nat)) (rank : Nat → Nat)
    (hrank : ∀ e ∈ bwd, ∀ s ∈ e.2, rank s < rank e.1) (t : Nat)
    (seq : List Nat) (hs : mlook bwd t = some seq) :
    expandSize bwd t = 1 + (seq.map (expandSize bwd)).sum := by
  simp only [expandSize]
  rw [expandSizeF_succ, hs]
  dsimp only
  refine congrArg (1 + ·) (congrArg List.sum (List.map_congr_left ?_))
  intro s hsm
  have hmem := mlook_mem bwd t seq hs
  have hcnt : rkCnt bwd rank s < rkCnt bwd rank t :=
    rkCnt_child_lt bwd rank t seq hmem s (hrank (t, seq) hmem s hsm)
  have hle := rkCnt_le bwd rank t
  exact expandSizeF_stable bwd rank hrank bwd.length s (bwd.length + 1)
    (by omega) (by omega)

theorem expandSizeF_pos (bwd : List (Nat × List Nat)) :
    ∀ (fuel t : Nat), 1 ≤ expandSizeF bwd fuel t := by
  intro fuel t
  match fuel with
  | 0 => exact le_refl 1
  | fuel + 1 =>
    rw [expandSizeF_succ]
    cases mlook bwd t with
    | none => exact le_refl 1
    | some seq => exact Nat.le_add_right 1 _

theorem expandSize_pos (bwd : List (Nat × List Nat)) (t : Nat) :
    1 ≤ expandSize bwd t := expandSizeF_pos bwd _ t

theorem expandFull_base_mem_aux (bwd : List (Nat × List Nat))
    (rank : Nat → Nat)
    (hrank : ∀ e ∈ bwd, ∀ s ∈ e.2, rank s < rank e.1) :
    ∀ (n t : Nat), rkCnt bwd rank t ≤ n →
      ∀ y ∈ expandFull bwd t, mlook bwd y = none := by
  intro n
  induction n with
  | zero =>
    intro t hn y hy
    cases hs : mlook bwd t with
    | none =>
      rw [expandFull_base bwd t hs] at hy
      rcases List.mem_cons.mp hy with hy | hy
      · rw [hy]; exact hs
      · exact absurd hy (List.not_mem_nil y)
    | some seq =>
      exfalso
      have hmem := mlook_mem bwd t seq hs
      have h1 : t ∈ (bwd.map Prod.fst).filter
          (fun k => decide (rank k ≤ rank t)) :=
        List.mem_filter.mpr ⟨List.mem_map.mpr ⟨(t, seq), hmem, rfl⟩,
          decide_eq_true (le_refl (rank t))⟩
      have hpos := List.length_pos.mpr (List.ne_nil_of_mem h1)
      unfold rkCnt at hn
      omega
  | succ n ih =>
    intro t hn y hy
    cases hs : mlook bwd t with
    | none =>
      rw [expandFull_base bwd t hs] at hy
      rcases List.mem_cons.mp hy with hy | hy
      · rw [hy]; exact hs
      · exact absurd hy (List.not_mem_nil y)
    | some seq =>
      have hmem := mlook_mem bwd t seq hs
      rw [expandFull_step bwd rank hrank t seq hs] at hy
      rcases List.mem_join.mp hy with ⟨l, hl, hyl⟩
      rcases List.mem_map.mp hl with ⟨s, hsm, hls⟩
      rw [← hls] at hyl
      have hcnt := rkCnt_child_lt bwd rank t seq hmem s
        (hrank (t, seq) hmem s hsm)
      exact ih s (by omega) y hyl

/-- Under an acyclicity rank, every element of a full expansion is a base
token. -/
theorem expandFull_base_mem (bwd : List (Nat × List Nat))
    (rank : Nat → Nat)
    (hrank : ∀ e ∈ bwd, ∀ s ∈ e.2, rank s < rank e.1) :
    ∀ t, ∀ y ∈ expandFull bwd t, mlook bwd y = none :=
  fun t => expandFull_base_mem_aux bwd rank hrank (rkCnt bwd rank t) t
    (le_refl _)

theorem expandAllL_nil (bwd : List (Nat × List Nat)) :
    expandAllL bwd [] = [] := rfl

theorem expandAllL_cons (bwd : List (Nat × List Nat)) (x : Nat)
    (v : List Nat) :
    expandAllL bwd (x :: v) = expandFull bwd x ++ expandAllL bwd v := by
  simp [expandAllL]

theorem expandAllL_append (bwd : List (Nat × List Nat)) (u v : List Nat) :
    expandAllL bwd (u ++ v) = expandAllL bwd u ++ expandAllL bwd v := by
  simp [expandAllL]

/-- A vector of base tokens expands to itself. -/
theorem expandAllL_id (bwd : List (Nat × List Nat)) :
    ∀ v : List Nat, (∀ x ∈ v, mlook bwd x = none) → expandAllL bwd v = v := by
  intro v
  induction v with
  | nil => intro _; rfl
  | cons x v ih =>
    intro h
    rw [expandAllL_cons,
      expandFull_base bwd x (h x (List.mem_cons_self x v)),
      ih (fun y hy => h y (List.mem_cons_of_mem x hy))]
    rfl

/-- Rewriting by a substitution whose entries merge valid pairs preserves
the full expansion. -/
theorem blocks_expandAll (bwd : List (Nat × List Nat)) (rank : Nat → Nat)
    (hrank : ∀ e ∈ bwd, ∀ s ∈ e.2, rank s < rank e.1)
    (sub : List (Nat × (Nat × Nat)))
    (hsub : ∀ e ∈ sub, mlook bwd e.2.2 = some [e.1, e.2.1]) :
    ∀ (v out : List Nat), Blocks sub v out →
      expandAllL bwd out = expandAllL bwd v := by
  intro v out h
  induction h with
  | nil => rfl
  | one x v' out' _ ih =>
    rw [expandAllL_cons, expandAllL_cons, ih]
  | two x y z v' out' hl _ ih =>
    have hz := hsub (x, (y, z)) (alook_mem sub x (y, z) hl)
    rw [expandAllL_cons, expandAllL_cons, expandAllL_cons, ih,
      expandFull_step bwd rank hrank z [x, y] hz]
    simp

end ExpandLemmas

end UbpeV

namespace UbpeV

/-! ## `UbpeClassic::encode` and `UbpeClassic::decode` (ubpe_classic.hpp)

The cached `pairs` member equals the backward-mapper values (in key order)
for a tokenizer loaded by the full constructor, which is how the embedding
obtains it (`st.bwd.map Prod.snd`).  The weight codomain `W` and
`philog c` (for `1 + std::log(c)`) are embedding parameters as in the fit
development. -/

section CEncDefs

variable {W : Type}

/-- Bounds-checked element read `pr[k]` of a cached table pair (the source
reads are unchecked). -/
def pairAt (pr : List Nat) (k : Nat) : Except Err Nat :=
  if k < pr.length then .ok (pr.getD k 0) else .error .oob

/-- Membership of the vector `pr` in the `std::set` of adjacent two-element
vectors `{vec[i], vec[i+1]}` of `v`. -/
def pairsMem (v : List Nat) (pr : List Nat) : Bool :=
  (adjacentPairs v).any (fun q => decide (pr = [q.1, q.2]))

/-- The scan `while (i < pairs.size() && !pairs.contains(pairs[i])) i++`:
the first cached pair adjacent in `v`, with the remaining cache suffix. -/
def firstMatch : List (List Nat) → List Nat →
    Option (List Nat × List (List Nat))
  | [], _ => none
  | pr :: rest, v =>
    if pairsMem v pr then some (pr, rest) else firstMatch rest v

/-- The `for (j = i + 1; ...)` selection loop: collect further cached pairs
adjacent in `v` with components disjoint from the current set `cs`,
breaking at the first component clash. -/
def encSelect (v : List Nat) : List (List Nat) → List (List Nat) →
    List Nat → Except Err (List (List Nat))
  | [], tokens, _ => .ok tokens
  | pr :: rest, tokens, cs =>
    match pairAt pr 0 with
    | .error e => .error e
    | .ok p0 =>
      if p0 ∈ cs then .ok tokens
      else
        match pairAt pr 1 with
        | .error e => .error e
        | .ok p1 =>
          if p1 ∈ cs then .ok tokens
          else if pairsMem v pr then
            encSelect v rest (tokens ++ [pr]) (cs ++ pr)
          else encSelect v rest tokens cs

/-- The `std::transform` into `sub`: entry
`{token[0], {token[1], forward_mapper.at(token)}}` per selected pair; the
`std::inserter` makes the first insertion win on duplicate keys, matched
here by `alook` taking the first hit. -/
def buildSub (fwd : List (List Nat × Nat)) : List (List Nat) →
    Except Err (List (Nat × (Nat × Nat)))
  | [] => .ok []
  | t :: rest =>
    match pairAt t 0 with
    | .error e => .error e
    | .ok t0 =>
      match pairAt t 1 with
      | .error e => .error e
      | .ok t1 =>
        match mat fwd t with
        | .error e => .error e
        | .ok id =>
          match buildSub fwd rest with
          | .error e => .error e
          | .ok sub => .ok ((t0, (t1, id)) :: sub)

/-- The `while (true)` substitution loop of `UbpeClassic::encode`: find the
first cached pair present in `v`, extend it to a disjoint batch, build the
substitution map, rewrite, and repeat until no cached pair is adjacent. -/
def encodeLoop (tps : List (List Nat)) (fwd : List (List Nat × Nat)) :
    Nat → List Nat → Except Err (List Nat)
  | 0, _ => .error .fuel
  | fuel + 1, v =>
    match firstMatch tps v with
    | none => .ok v
    | some (pr, rest) =>
      match encSelect v rest [pr] pr with
      | .error e => .error e
      | .ok tokens =>
        match buildSub fwd tokens with
        | .error e => .error e
        | .ok sub =>
          match replaceTokenPairs v sub with
          | .error e => .error e
          | .ok v2 => encodeLoop tps fwd fuel v2

/-- `Counter<uint32_t>(_doc)`: the ordered map of element counts. -/
def counterOf (v : List Nat) : List (Nat × Nat) :=
  v.foldl (fun c t => msetk c t ((mlook c t).getD 0 + 1)) []

/-- The weight accumulation shared by `UbpeClassic::encode` and the
universal DP: `total + (weights.contains(t) ? (1 + log(c)) * weights.at(t)
: 0.0)` over a counter, with `philog c` standing for `1 + std::log(c)`. -/
def accWeight [CommRing W] (philog : Nat → W) (weights : List (Nat × W))
    (counter : List (Nat × Nat)) : W :=
  counter.foldl (fun total e =>
    match mlook weights e.1 with
    | some w => total + philog e.2 * w
    | none => total + 0) 0

/-- `UbpeClassic::encode`: the asserts, the empty-document early return,
the substitution loop (fuel `|v| + 1`, which suffices because every round
strictly shrinks the vector), and the weight computation; the unused
`uint8_t` parameter mirrors the source signature. -/
def encodeClassic [CommRing W] (philog : Nat → W) (st : UbpeState W)
    (doc : List Nat) (top_n : Nat) : Except Err (List (List Nat × W)) :=
  if (st.bwd.map Prod.snd).length = 0 then .error .assertFail
  else if st.fwd.length = 0 ∨ st.bwd.length = 0 ∨ st.weights.length = 0 then
    .error .assertFail
  else if doc.length = 0 then .ok []
  else
    match docToVec st doc with
    | .error e => .error e
    | .ok v =>
      match encodeLoop (st.bwd.map Prod.snd) st.fwd (v.length + 1) v with
      | .error e => .error e
      | .ok v2 => .ok [(v2, accWeight philog st.weights (counterOf v2))]

/-- The inner `while (di < document.size())` expansion of
`UbpeClassic::decode`; `expander[0]` / `expander[1]` are unchecked reads in
the source and bounds-checked here. -/
def expandLoopC (bwd : List (Nat × List Nat)) :
    Nat → List Nat → Nat → Except Err (List Nat)
  | 0, _, _ => .error .fuel
  | fuel + 1, document, di =>
    if di < document.length then
      match mlook bwd (document.getD di 0) with
      | some expander =>
        if 2 ≤ expander.length then
          expandLoopC bwd fuel
            ((document.set di (expander.getD 0 0)).insertIdx (di + 1)
              (expander.getD 1 0)) di
        else .error .oob
      | none => expandLoopC bwd fuel document (di + 1)
    else .ok document

/-- The outer `for (ti, di)` loop of `UbpeClassic::decode`: append the next
token and run the in-place expansion; `di` persists across iterations and
equals `document.size()` whenever the inner loop exits. -/
def decodeClassicLoop (bwd : List (Nat × List Nat)) (fuel : Nat) :
    List Nat → List Nat → Nat → Except Err (List Nat)
  | [], document, _ => .ok document
  | t :: rest, document, di =>
    match expandLoopC bwd fuel (document ++ [t]) di with
    | .error e => .error e
    | .ok doc2 => decodeClassicLoop bwd fuel rest doc2 doc2.length

/-- `UbpeClassic::decode`: the asserts, the empty-sequence early return,
the expansion loops (with fuel covering the total expansion size), and
`_vec_to_doc`. -/
def decodeClassic (st : UbpeState W) (tokens : List Nat) :
    Except Err (List Nat) :=
  if st.fwd.length = 0 ∨ st.bwd.length = 0 ∨ st.weights.length = 0 then
    .error .assertFail
  else if tokens.length = 0 then .ok []
  else
    match decodeClassicLoop st.bwd
        ((tokens.map (expandSize st.bwd)).sum + 1) tokens [] 0 with
    | .error e => .error e
    | .ok document => vecToDoc st document

end CEncDefs

end UbpeV

namespace UbpeV

section CEncLemmas

theorem replaceTokenPairs_eq (vec : List Nat)
    (sub : List (Nat × (Nat × Nat))) (h : vec ≠ []) :
    replaceTokenPairs vec sub = .ok (replaceSpec sub vec) := by
  have hpos : 0 < vec.length := List.length_pos.mpr h
  unfold replaceTokenPairs
  rw [dif_pos hpos, set_getD_self vec 0 0 hpos,
    replaceLoop_eq sub vec.length vec 0 0 (by omega) (le_refl 0) hpos]
  simp

theorem replaceSpec_length_le (sub : List (Nat × (Nat × Nat)))
    (vec : List Nat) : (replaceSpec sub vec).length ≤ vec.length :=
  blocks_length_le sub vec _ (blocks_replaceSpec sub vec.length vec (le_refl _))

theorem replaceSpec_ne_nil (sub : List (Nat × (Nat × Nat))) :
    ∀ vec : List Nat, vec ≠ [] → replaceSpec sub vec ≠ [] := by
  intro vec h
  match vec with
  | [x] => simp [replaceSpec]
  | x :: y :: rest =>
    unfold replaceSpec
    split
    next s _ =>
      by_cases hm : y = s.1
      · rw [if_pos hm]; simp
      · rw [if_neg hm]; simp
    next _ => simp

theorem adjacentPairs_cons (x y : Nat) (rest : List Nat) :
    adjacentPairs (x :: y :: rest) = (x, y) :: adjacentPairs (y :: rest) := by
  simp [adjacentPairs]

/-- If some adjacent pair of `vec` is a substitution hit, the rewrite
strictly shrinks the vector. -/
theorem replaceSpec_shrink (sub : List (Nat × (Nat × Nat))) :
    ∀ (fuel : Nat) (vec : List Nat), vec.length ≤ fuel →
      (∃ q ∈ adjacentPairs vec, ∃ z, alook sub q.1 = some (q.2, z)) →
      (replaceSpec sub vec).length < vec.length := by
  intro fuel
  induction fuel with
  | zero =>
    intro vec hf hw
    have : vec = [] := List.eq_nil_of_length_eq_zero (by omega)
    rw [this] at hw
    rcases hw with ⟨q, hq, _⟩
    exact absurd hq (List.not_mem_nil q)
  | succ fuel ih =>
    intro vec hf hw
    match vec with
    | [] =>
      rcases hw with ⟨q, hq, _⟩
      exact absurd hq (List.not_mem_nil q)
    | [x] =>
      rcases hw with ⟨q, hq, _⟩
      exact absurd hq (by simp [adjacentPairs])
    | x :: y :: rest =>
      rw [adjacentPairs_cons] at hw
      unfold replaceSpec
      split
      next s halook =>
        by_cases hm : y = s.1
        · rw [if_pos hm]
          have := replaceSpec_length_le sub rest
          simp only [List.length_cons]
          omega
        · rw [if_neg hm]
          have hw2 : ∃ q ∈ adjacentPairs (y :: rest), ∃ z,
              alook sub q.1 = some (q.2, z) := by
            rcases hw with ⟨q, hq, z, hz⟩
            rcases List.mem_cons.mp hq with hq | hq
            · rw [hq] at hz
              rw [halook] at hz
              exact absurd (congrArg (fun p => p.1) (Option.some.inj hz))
                (by simpa using fun h => hm h.symm)
            · exact ⟨q, hq, z, hz⟩
          have := ih (y :: rest) (by simp only [List.length_cons] at hf ⊢; omega) hw2
          simp only [List.length_cons] at this ⊢
          omega
      next halook =>
        have hw2 : ∃ q ∈ adjacentPairs (y :: rest), ∃ z,
            alook sub q.1 = some (q.2, z) := by
          rcases hw with ⟨q, hq, z, hz⟩
          rcases List.mem_cons.mp hq with hq | hq
          · rw [hq] at hz
            rw [halook] at hz
            exact Option.noConfusion hz
          · exact ⟨q, hq, z, hz⟩
        have := ih (y :: rest) (by simp only [List.length_cons] at hf ⊢; omega) hw2
        simp only [List.length_cons] at this ⊢
        omega

theorem firstMatch_spec :
    ∀ (tps : List (List Nat)) (v pr : List Nat) (rest : List (List Nat)),
      firstMatch tps v = some (pr, rest) →
      pr ∈ tps ∧ pairsMem v pr = true ∧ ∀ x ∈ rest, x ∈ tps := by
  intro tps
  induction tps with
  | nil => intro v pr rest h; exact Option.noConfusion h
  | cons p tps ih =>
    intro v pr rest h
    rw [firstMatch] at h
    by_cases hp : pairsMem v p = true
    · rw [if_pos hp] at h
      rcases Prod.mk.injEq .. ▸ Option.some.inj h with ⟨h1, h2⟩
      refine ⟨by rw [← h1]; exact List.mem_cons_self p tps, by rw [← h1]; exact hp, ?_⟩
      intro x hx
      rw [← h2] at hx
      exact List.mem_cons_of_mem p hx
    · rw [if_neg hp] at h
      rcases ih v pr rest h with ⟨h1, h2, h3⟩
      exact ⟨List.mem_cons_of_mem p h1, h2,
        fun x hx => List.mem_cons_of_mem p (h3 x hx)⟩

theorem encSelect_subset (v : List Nat) :
    ∀ (rest tokens : List (List Nat)) (cs : List Nat)
      (out : List (List Nat)),
      encSelect v rest tokens cs = .ok out →
      ∀ t ∈ out, t ∈ tokens ∨ t ∈ rest := by
  intro rest
  induction rest with
  | nil =>
    intro tokens cs out h t ht
    rw [encSelect] at h
    cases h
    exact Or.inl ht
  | cons pr rest ih =>
    intro tokens cs out h t ht
    rw [encSelect] at h
    cases h0 : pairAt pr 0 with
    | error e => rw [h0] at h; exact Except.noConfusion h
    | ok p0 =>
      rw [h0] at h
      dsimp only at h
      by_cases hp0 : p0 ∈ cs
      · rw [if_pos hp0] at h
        cases h
        exact Or.inl ht
      · rw [if_neg hp0] at h
        cases h1 : pairAt pr 1 with
        | error e => rw [h1] at h; exact Except.noConfusion h
        | ok p1 =>
          rw [h1] at h
          dsimp only at h
          by_cases hp1 : p1 ∈ cs
          · rw [if_pos hp1] at h
            cases h
            exact Or.inl ht
          · rw [if_neg hp1] at h
            by_cases hpm : pairsMem v pr = true
            · rw [if_pos hpm] at h
              rcases ih (tokens ++ [pr]) (cs ++ pr) out h t ht with h2 | h2
              · rcases List.mem_append.mp h2 with h2 | h2
                · exact Or.inl h2
                · refine Or.inr (List.mem_cons.mpr (Or.inl ?_))
                  rcases List.mem_cons.mp h2 with h2 | h2
                  · exact h2
                  · exact absurd h2 (List.not_mem_nil t)
              · exact Or.inr (List.mem_cons_of_mem pr h2)
            · rw [if_neg hpm] at h
              rcases ih tokens cs out h t ht with h2 | h2
              · exact Or.inl h2
              · exact Or.inr (List.mem_cons_of_mem pr h2)

theorem encSelect_ok (v : List Nat) :
    ∀ (rest : List (List Nat)), (∀ pr ∈ rest, 2 ≤ pr.length) →
      ∀ (tokens : List (List Nat)) (cs : List Nat),
        ∃ out, encSelect v rest tokens cs = .ok out := by
  intro rest
  induction rest with
  | nil => exact fun _ tokens cs => ⟨tokens, rfl⟩
  | cons pr rest ih =>
    intro h2 tokens cs
    have hpr := h2 pr (List.mem_cons_self pr rest)
    have ht : ∀ p ∈ rest, 2 ≤ p.length :=
      fun p hp => h2 p (List.mem_cons_of_mem pr hp)
    rw [encSelect]
    rw [show pairAt pr 0 = .ok (pr.getD 0 0) from by
      unfold pairAt; rw [if_pos (by omega)]]
    dsimp only
    by_cases hp0 : pr.getD 0 0 ∈ cs
    · rw [if_pos hp0]; exact ⟨tokens, rfl⟩
    · rw [if_neg hp0]
      rw [show pairAt pr 1 = .ok (pr.getD 1 0) from by
        unfold pairAt; rw [if_pos (by omega)]]
      dsimp only
      by_cases hp1 : pr.getD 1 0 ∈ cs
      · rw [if_pos hp1]; exact ⟨tokens, rfl⟩
      · rw [if_neg hp1]
        by_cases hpm : pairsMem v pr = true
        · rw [if_pos hpm]; exact ih ht (tokens ++ [pr]) (cs ++ pr)
        · rw [if_neg hpm]; exact ih ht tokens cs

theorem encSelect_head (v : List Nat) :
    ∀ (rest tokens : List (List Nat)) (cs : List Nat)
      (out : List (List Nat)),
      encSelect v rest tokens cs = .ok out →
      ∃ ext, out = tokens ++ ext := by
  intro rest
  induction rest with
  | nil =>
    intro tokens cs out h
    rw [encSelect] at h
    cases h
    exact ⟨[], by simp⟩
  | cons pr rest ih =>
    intro tokens cs out h
    rw [encSelect] at h
    cases h0 : pairAt pr 0 with
    | error e => rw [h0] at h; exact Except.noConfusion h
    | ok p0 =>
      rw [h0] at h
      dsimp only at h
      by_cases hp0 : p0 ∈ cs
      · rw [if_pos hp0] at h
        cases h
        exact ⟨[], by simp⟩
      · rw [if_neg hp0] at h
        cases h1 : pairAt pr 1 with
        | error e => rw [h1] at h; exact Except.noConfusion h
        | ok p1 =>
          rw [h1] at h
          dsimp only at h
          by_cases hp1 : p1 ∈ cs
          · rw [if_pos hp1] at h
            cases h
            exact ⟨[], by simp⟩
          · rw [if_neg hp1] at h
            by_cases hpm : pairsMem v pr = true
            · rw [if_pos hpm] at h
              rcases ih (tokens ++ [pr]) (cs ++ pr) out h with ⟨ext, hext⟩
              exact ⟨pr :: ext, by rw [hext]; simp⟩
            · rw [if_neg hpm] at h
              exact ih tokens cs out h

end CEncLemmas

end UbpeV

namespace UbpeV

section CEncLemmas2

theorem buildSub_cons (fwd : List (List Nat × Nat)) (t : List Nat)
    (rest : List (List Nat)) (sub : List (Nat × (Nat × Nat)))
    (h : buildSub fwd (t :: rest) = .ok sub) :
    ∃ id sub2, sub = (t.getD 0 0, (t.getD 1 0, id)) :: sub2 ∧
      mlook fwd t = some id ∧ buildSub fwd rest = .ok sub2 := by
  rw [buildSub] at h
  cases h0 : pairAt t 0 with
  | error e => rw [h0] at h; exact Except.noConfusion h
  | ok t0 =>
    rw [h0] at h
    dsimp only at h
    cases h1 : pairAt t 1 with
    | error e => rw [h1] at h; exact Except.noConfusion h
    | ok t1 =>
      rw [h1] at h
      dsimp only at h
      cases h2 : mat fwd t with
      | error e => rw [h2] at h; exact Except.noConfusion h
      | ok id =>
        rw [h2] at h
        dsimp only at h
        cases h3 : buildSub fwd rest with
        | error e => rw [h3] at h; exact Except.noConfusion h
        | ok sub2 =>
          rw [h3] at h
          cases h
          have ht0 : t0 = t.getD 0 0 := by
            unfold pairAt at h0
            by_cases hl : 0 < t.length
            · rw [if_pos hl] at h0; exact (Except.ok.inj h0).symm
            · rw [if_neg hl] at h0; exact Except.noConfusion h0
          have ht1 : t1 = t.getD 1 0 := by
            unfold pairAt at h1
            by_cases hl : 1 < t.length
            · rw [if_pos hl] at h1; exact (Except.ok.inj h1).symm
            · rw [if_neg hl] at h1; exact Except.noConfusion h1
          have hid : mlook fwd t = some id := by
            unfold mat at h2
            cases hl : mlook fwd t with
            | none => rw [hl] at h2; exact Except.noConfusion h2
            | some v => rw [hl] at h2; rw [Except.ok.inj h2]
          exact ⟨id, sub2, by rw [ht0, ht1], hid, rfl⟩

theorem buildSub_mem (fwd : List (List Nat × Nat)) :
    ∀ (tokens : List (List Nat)) (sub : List (Nat × (Nat × Nat))),
      buildSub fwd tokens = .ok sub →
      ∀ e ∈ sub, ∃ t ∈ tokens, 2 ≤ t.length ∧ t.getD 0 0 = e.1 ∧
        t.getD 1 0 = e.2.1 ∧ mlook fwd t = some e.2.2 := by
  intro tokens
  induction tokens with
  | nil =>
    intro sub h e he
    rw [show buildSub fwd [] = .ok ([] : List (Nat × (Nat × Nat))) from rfl]
      at h
    cases h
    exact absurd he (List.not_mem_nil e)
  | cons t rest ih =>
    intro sub h e he
    rw [buildSub] at h
    cases h0 : pairAt t 0 with
    | error e0 => rw [h0] at h; exact Except.noConfusion h
    | ok t0 =>
      rw [h0] at h
      dsimp only at h
      cases h1 : pairAt t 1 with
      | error e0 => rw [h1] at h; exact Except.noConfusion h
      | ok t1 =>
        rw [h1] at h
        dsimp only at h
        cases h2 : mat fwd t with
        | error e0 => rw [h2] at h; exact Except.noConfusion h
        | ok id =>
          rw [h2] at h
          dsimp only at h
          cases h3 : buildSub fwd rest with
          | error e0 => rw [h3] at h; exact Except.noConfusion h
          | ok sub2 =>
            rw [h3] at h
            cases h
            have hlen : 2 ≤ t.length := by
              unfold pairAt at h1
              by_cases hl : 1 < t.length
              · omega
              · rw [if_neg hl] at h1; exact Except.noConfusion h1
            rcases List.mem_cons.mp he with he | he
            · have ht0 : t0 = t.getD 0 0 := by
                unfold pairAt at h0
                rw [if_pos (by omega)] at h0
                exact (Except.ok.inj h0).symm
              have ht1 : t1 = t.getD 1 0 := by
                unfold pairAt at h1
                rw [if_pos (by omega)] at h1
                exact (Except.ok.inj h1).symm
              have hid : mlook fwd t = some id := by
                unfold mat at h2
                cases hl : mlook fwd t with
                | none => rw [hl] at h2; exact Except.noConfusion h2
                | some v => rw [hl] at h2; rw [Except.ok.inj h2]
              refine ⟨t, List.mem_cons_self t rest, hlen, ?_, ?_, ?_⟩
              · rw [he, ← ht0]
              · rw [he, ← ht1]
              · rw [he, hid]
            · rcases ih sub2 h3 e he with ⟨t', ht', h4, h5, h6, h7⟩
              exact ⟨t', List.mem_cons_of_mem t ht', h4, h5, h6, h7⟩

theorem buildSub_ok (fwd : List (List Nat × Nat)) :
    ∀ (tokens : List (List Nat)),
      (∀ t ∈ tokens, 2 ≤ t.length ∧ (mlook fwd t).isSome) →
      ∃ sub, buildSub fwd tokens = .ok sub := by
  intro tokens
  induction tokens with
  | nil => exact fun _ => ⟨[], rfl⟩
  | cons t rest ih =>
    intro h
    rcases h t (List.mem_cons_self t rest) with ⟨hlen, hsome⟩
    rcases ih (fun x hx => h x (List.mem_cons_of_mem t hx)) with ⟨sub2, h3⟩
    cases hl : mlook fwd t with
    | none => rw [hl] at hsome; exact absurd hsome (by simp)
    | some id =>
      refine ⟨(t.getD 0 0, (t.getD 1 0, id)) :: sub2, ?_⟩
      rw [buildSub,
        show pairAt t 0 = .ok (t.getD 0 0) from by
          unfold pairAt; rw [if_pos (by omega)],
        show pairAt t 1 = .ok (t.getD 1 0) from by
          unfold pairAt; rw [if_pos (by omega)],
        show mat fwd t = .ok id from by unfold mat; rw [hl], h3]

theorem len2_eta (l : List Nat) (h : l.length = 2) :
    l = [l.getD 0 0, l.getD 1 0] := by
  match l, h with
  | [a, b], _ => rfl

theorem pairsMem_exists (v pr : List Nat) (h : pairsMem v pr = true) :
    ∃ q ∈ adjacentPairs v, pr = [q.1, q.2] := by
  rcases List.any_eq_true.mp h with ⟨q, hq, hdec⟩
  exact ⟨q, hq, of_decide_eq_true hdec⟩

end CEncLemmas2

end UbpeV

namespace UbpeV

section EncodeLoopLemmas

/-- With a well-formed pair cache the substitution loop always succeeds on
a nonempty vector and returns a nonempty vector. -/
theorem encodeLoop_ok (tps : List (List Nat)) (fwd : List (List Nat × Nat))
    (h2 : ∀ pr ∈ tps, 2 ≤ pr.length)
    (hf : ∀ pr ∈ tps, (mlook fwd pr).isSome) :
    ∀ (fuel : Nat) (v : List Nat), v ≠ [] → v.length ≤ fuel →
      ∃ v2, encodeLoop tps fwd fuel v = .ok v2 ∧ v2 ≠ [] := by
  intro fuel
  induction fuel with
  | zero =>
    intro v hne hf0
    exact absurd (List.eq_nil_of_length_eq_zero (by omega)) hne
  | succ fuel ih =>
    intro v hne hfuel
    cases hfm : firstMatch tps v with
    | none =>
      refine ⟨v, ?_, hne⟩
      rw [encodeLoop, hfm]
    | some p =>
      match p with
      | (pr, rest) =>
        rcases firstMatch_spec tps v pr rest hfm with ⟨hpr, hpm, hrest⟩
        rcases encSelect_ok v rest
          (fun q hq => h2 q (hrest q hq)) [pr] pr with ⟨tokens, hsel⟩
        have htok : ∀ t ∈ tokens, t ∈ tps := by
          intro t ht
          rcases encSelect_subset v rest [pr] pr tokens hsel t ht with h | h
          · rcases List.mem_cons.mp h with h | h
            · rw [h]; exact hpr
            · exact absurd h (List.not_mem_nil t)
          · exact hrest t h
        rcases buildSub_ok fwd tokens
          (fun t ht => ⟨h2 t (htok t ht), hf t (htok t ht)⟩) with ⟨sub, hbs⟩
        have hrtp := replaceTokenPairs_eq v sub hne
        rcases encSelect_head v rest [pr] pr tokens hsel with ⟨ext, hext⟩
        rcases buildSub_cons fwd pr ext sub
          (by rw [show pr :: ext = [pr] ++ ext from rfl, ← hext]; exact hbs) with
          ⟨id, sub2, hsub2, _, _⟩
        rcases pairsMem_exists v pr hpm with ⟨q, hq, hqpr⟩
        have hshrink : (replaceSpec sub v).length < v.length := by
          refine replaceSpec_shrink sub v.length v (le_refl _) ⟨q, hq, id, ?_⟩
          rw [hsub2, hqpr]
          simp [alook]
        have hne2 : replaceSpec sub v ≠ [] := replaceSpec_ne_nil sub v hne
        rcases ih (replaceSpec sub v) hne2 (by omega) with ⟨v2, hrec, hne3⟩
        refine ⟨v2, ?_, hne3⟩
        rw [encodeLoop, hfm]
        dsimp only
        rw [hsel]
        dsimp only
        rw [hbs]
        dsimp only
        rw [hrtp]
        dsimp only
        exact hrec

/-- The substitution loop preserves the full transitive expansion of the
working vector, assuming the backward table is acyclic (via `rank`) and
its entries are two-element values whose forward ids map back to them. -/
theorem encodeLoop_expand (bwd : List (Nat × List Nat))
    (fwd : List (List Nat × Nat)) (rank : Nat → Nat)
    (hrank : ∀ e ∈ bwd, ∀ s ∈ e.2, rank s < rank e.1)
    (hlen2 : ∀ e ∈ bwd, e.2.length = 2)
    (hfb : ∀ e ∈ bwd, ∀ id, mlook fwd e.2 = some id →
      mlook bwd id = some e.2) :
    ∀ (fuel : Nat) (v v2 : List Nat),
      encodeLoop (bwd.map Prod.snd) fwd fuel v = .ok v2 →
      expandAllL bwd v2 = expandAllL bwd v := by
  intro fuel
  induction fuel with
  | zero =>
    intro v v2 h
    exact Except.noConfusion h
  | succ fuel ih =>
    intro v v2 h
    rw [encodeLoop] at h
    cases hfm : firstMatch (bwd.map Prod.snd) v with
    | none =>
      rw [hfm] at h
      rw [Except.ok.inj h]
    | some p =>
      match p with
      | (pr, rest) =>
        rw [hfm] at h
        dsimp only at h
        cases hsel : encSelect v rest [pr] pr with
        | error e => rw [hsel] at h; exact Except.noConfusion h
        | ok tokens =>
          rw [hsel] at h
          dsimp only at h
          cases hbs : buildSub fwd tokens with
          | error e => rw [hbs] at h; exact Except.noConfusion h
          | ok sub =>
            rw [hbs] at h
            dsimp only at h
            cases hrtp : replaceTokenPairs v sub with
            | error e => rw [hrtp] at h; exact Except.noConfusion h
            | ok vmid =>
              rw [hrtp] at h
              dsimp only at h
              have hvne : v ≠ [] := by
                intro hv
                rw [hv] at hrtp
                rw [show replaceTokenPairs [] sub = .error .oob from by
                  unfold replaceTokenPairs; rw [dif_neg (by simp)]] at hrtp
                exact Except.noConfusion hrtp
              have hvm : vmid = replaceSpec sub v := by
                rw [replaceTokenPairs_eq v sub hvne] at hrtp
                exact (Except.ok.inj hrtp).symm
              rcases firstMatch_spec _ v pr rest hfm with ⟨hpr, _, hrest⟩
              have htok : ∀ t ∈ tokens, t ∈ bwd.map Prod.snd := by
                intro t ht
                rcases encSelect_subset v rest [pr] pr tokens hsel t ht
                  with h1 | h1
                · rcases List.mem_cons.mp h1 with h1 | h1
                  · rw [h1]; exact hpr
                  · exact absurd h1 (List.not_mem_nil t)
                · exact hrest t h1
              have hsubval : ∀ e ∈ sub,
                  mlook bwd e.2.2 = some [e.1, e.2.1] := by
                intro e he
                rcases buildSub_mem fwd tokens sub hbs e he with
                  ⟨t, ht, _, ht0, ht1, hts⟩
                rcases List.mem_map.mp (htok t ht) with ⟨en, hen, hent⟩
                have hteta : t = [e.1, e.2.1] := by
                  rw [← ht0, ← ht1]
                  exact len2_eta t (by rw [← hent]; exact hlen2 en hen)
                have hb : mlook bwd e.2.2 = some t := by
                  rw [← hent]
                  refine hfb en hen e.2.2 ?_
                  rw [hent]; exact hts
                rw [hb, hteta]
              have hblocks : Blocks sub v (replaceSpec sub v) :=
                blocks_replaceSpec sub v.length v (le_refl _)
              rw [ih vmid v2 h, hvm,
                blocks_expandAll bwd rank hrank sub hsubval v
                  (replaceSpec sub v) hblocks]

end EncodeLoopLemmas

end UbpeV

namespace UbpeV

section ClaimC9

/-- C9 (corrected): for a fitted classic tokenizer (nonempty mappers,
two-element backward values that the forward mapper knows) and a document
drawn from the alphabet, `encode(doc, top_n)` returns exactly one
`(sequence, weight)` candidate whenever `doc` is nonempty, regardless of
`top_n` — but on the EMPTY document it returns the empty list, not a
single candidate, refuting the claim's "including the empty document". -/
theorem C9_classic_encode_shape {W : Type} [CommRing W] (philog : Nat → W)
    (st : UbpeState W) (doc : List Nat) (top_n : Nat)
    (hbwd : st.bwd ≠ []) (hfwd : st.fwd ≠ []) (hw : st.weights ≠ [])
    (hlen2 : ∀ e ∈ st.bwd, e.2.length = 2)
    (hfs : ∀ e ∈ st.bwd, (mlook st.fwd e.2).isSome)
    (hdoc : ∀ s ∈ doc, (mlook st.alphabet s).isSome) :
    (doc = [] → encodeClassic philog st doc top_n = .ok []) ∧
    (doc ≠ [] → ∃ c, encodeClassic philog st doc top_n = .ok [c]) := by
  unfold encodeClassic
  rw [if_neg (by simp [List.length_eq_zero, hbwd]),
    if_neg (by simp [List.length_eq_zero, hfwd, hbwd, hw])]
  constructor
  · intro h
    subst h
    rw [if_pos (show List.length ([] : List Nat) = 0 from rfl)]
  · intro h
    have hpos : ¬ (doc.length = 0) := by
      simp [List.length_eq_zero, h]
    rw [if_neg hpos]
    rcases mapMat_all st.alphabet doc hdoc with ⟨v, hv⟩
    have hdv : docToVec st doc = .ok v := by
      rw [docToVec, mapM_eq_mapMat]; exact hv
    rw [hdv]
    dsimp only
    have hlen := mapMat_length st.alphabet doc v hv
    have hvne : v ≠ [] := by
      intro hv0
      rw [hv0] at hlen
      exact hpos hlen.symm
    have h2 : ∀ pr ∈ st.bwd.map Prod.snd, 2 ≤ pr.length := by
      intro pr hpr
      rcases List.mem_map.mp hpr with ⟨e, he, hept⟩
      rw [← hept]
      have := hlen2 e he
      omega
    have hfm : ∀ pr ∈ st.bwd.map Prod.snd, (mlook st.fwd pr).isSome := by
      intro pr hpr
      rcases List.mem_map.mp hpr with ⟨e, he, hept⟩
      rw [← hept]
      exact hfs e he
    rcases encodeLoop_ok (st.bwd.map Prod.snd) st.fwd h2 hfm
      (v.length + 1) v hvne (by omega) with ⟨v2, hloop, _⟩
    rw [hloop]
    exact ⟨(v2, accWeight philog st.weights (counterOf v2)), rfl⟩

/-- C9 counterexample: a fitted classic tokenizer maps the empty document
to the empty candidate list, not to a single candidate. -/
theorem C9_classic_encode_counterexample :
    encodeClassic (fun c => (c : ℚ))
        ⟨3, 2, [(0, 0), (1, 1)], [(0, 0), (1, 1)], [([0, 1], 2)],
          [(2, [0, 1])], [(2, 5)]⟩ [] 7 = .ok [] ∧
      ∀ c, encodeClassic (fun c => (c : ℚ))
        ⟨3, 2, [(0, 0), (1, 1)], [(0, 0), (1, 1)], [([0, 1], 2)],
          [(2, [0, 1])], [(2, 5)]⟩ [] 7 ≠ .ok [c] := by
  have h0 : encodeClassic (fun c => (c : ℚ))
      ⟨3, 2, [(0, 0), (1, 1)], [(0, 0), (1, 1)], [([0, 1], 2)],
        [(2, [0, 1])], [(2, 5)]⟩ [] 7 = .ok [] := rfl
  refine ⟨h0, ?_⟩
  intro c h
  rw [h0] at h
  exact List.noConfusion (Except.ok.inj h)

/-- Witness for `C9_classic_encode_shape`: the tokenizer with alphabet
`{0, 1}` and the single merge `2 -> [0, 1]` encodes `[0, 1]` into exactly
one candidate. -/
theorem C9_classic_encode_shape_witness :
    (([0, 1] : List Nat) ≠ []) ∧
    (∃ c, encodeClassic (fun c => (c : ℚ))
      ⟨3, 2, [(0, 0), (1, 1)], [(0, 0), (1, 1)], [([0, 1], 2)],
        [(2, [0, 1])], [(2, 5)]⟩ [0, 1] 3 = .ok [c]) :=
  ⟨by decide,
    (C9_classic_encode_shape (fun c => (c : ℚ))
      ⟨3, 2, [(0, 0), (1, 1)], [(0, 0), (1, 1)], [([0, 1], 2)],
        [(2, [0, 1])], [(2, 5)]⟩ [0, 1] 3 (by decide) (by decide)
      (by decide) (by decide) (by decide) (by decide)).2 (by decide)⟩

end ClaimC9

end UbpeV

namespace UbpeV

section DecodeLemmas

theorem getD_append_len2 (l r : List Nat) (x d : Nat) :
    (l ++ x :: r).getD l.length d = x := by
  induction l with
  | nil => rfl
  | cons a t ih => simpa using ih

theorem set_append_len (l r : List Nat) (x y : Nat) :
    (l ++ x :: r).set l.length y = l ++ y :: r := by
  induction l with
  | nil => rfl
  | cons a t ih => simp [List.set, ih]

theorem insertIdx_append_len (l r : List Nat) (y : Nat) :
    (l ++ r).insertIdx l.length y = l ++ y :: r := by
  induction l with
  | nil => rfl
  | cons a t ih =>
    show List.insertIdx (t.length + 1) y (a :: (t ++ r)) = a :: (t ++ y :: r)
    rw [List.insertIdx_succ_cons, ih]

/-- The in-place expansion loop turns the pending suffix into its full
transitive expansion. -/
theorem expandLoopC_spec (bwd : List (Nat × List Nat)) (rank : Nat → Nat)
    (hrank : ∀ e ∈ bwd, ∀ s ∈ e.2, rank s < rank e.1)
    (hlen2 : ∀ e ∈ bwd, e.2.length = 2) :
    ∀ (fuel : Nat) (done pending : List Nat),
      (∀ x ∈ done, mlook bwd x = none) →
      (pending.map (expandSize bwd)).sum + 1 ≤ fuel →
      expandLoopC bwd fuel (done ++ pending) done.length =
        .ok (done ++ expandAllL bwd pending) := by
  intro fuel
  induction fuel with
  | zero =>
    intro done pending _ hs
    exact absurd hs (by omega)
  | succ fuel ih =>
    intro done pending hdone hfuel
    match pending with
    | [] =>
      simp only [List.append_nil, expandAllL_nil]
      rw [expandLoopC, if_neg (by omega)]
    | p :: rest =>
      rw [expandLoopC, if_pos (by simp), getD_append_len2 done rest p 0]
      cases hp : mlook bwd p with
      | none =>
        dsimp only
        have happ : done ++ p :: rest = (done ++ [p]) ++ rest := by simp
        have hlen : done.length + 1 = (done ++ [p]).length := by simp
        have hdone2 : ∀ x ∈ done ++ [p], mlook bwd x = none := by
          intro x hx
          rcases List.mem_append.mp hx with hx | hx
          · exact hdone x hx
          · rcases List.mem_cons.mp hx with hx | hx
            · rw [hx]; exact hp
            · exact absurd hx (List.not_mem_nil x)
        have hfuel2 : (rest.map (expandSize bwd)).sum + 1 ≤ fuel := by
          have hpos := expandSize_pos bwd p
          simp only [List.map_cons, List.sum_cons] at hfuel
          omega
        rw [happ, hlen, ih (done ++ [p]) rest hdone2 hfuel2,
          expandAllL_cons, expandFull_base bwd p hp]
        simp
      | some expander =>
        dsimp only
        have hmem := mlook_mem bwd p expander hp
        have hl2 : expander.length = 2 := hlen2 (p, expander) hmem
        rw [if_pos (by omega : 2 ≤ expander.length)]
        have hexp : expander = [expander.getD 0 0, expander.getD 1 0] :=
          len2_eta expander hl2
        have hset : (done ++ p :: rest).set done.length (expander.getD 0 0) =
            done ++ expander.getD 0 0 :: rest :=
          set_append_len done rest p (expander.getD 0 0)
        have hins : (done ++ expander.getD 0 0 :: rest).insertIdx
            (done.length + 1) (expander.getD 1 0) =
            done ++ expander.getD 0 0 :: expander.getD 1 0 :: rest := by
          rw [show done ++ expander.getD 0 0 :: rest =
              (done ++ [expander.getD 0 0]) ++ rest from by simp,
            show done.length + 1 = (done ++ [expander.getD 0 0]).length
              from by simp,
            insertIdx_append_len]
          simp
        have hfuel2 : ((expander.getD 0 0 :: expander.getD 1 0 :: rest).map
            (expandSize bwd)).sum + 1 ≤ fuel := by
          have hstep := expandSize_step bwd rank hrank p expander hp
          rw [hexp] at hstep
          simp only [List.map_cons, List.sum_cons] at hfuel hstep ⊢
          simp only [List.map_nil, List.sum_nil] at hstep
          omega
        rw [hset, hins,
          ih done (expander.getD 0 0 :: expander.getD 1 0 :: rest)
            hdone hfuel2,
          expandAllL_cons, expandAllL_cons, expandAllL_cons,
          expandFull_step bwd rank hrank p expander hp, hexp]
        simp

/-- The outer decode loop produces the full transitive expansion of the
token list. -/
theorem decodeClassicLoop_spec (bwd : List (Nat × List Nat))
    (rank : Nat → Nat)
    (hrank : ∀ e ∈ bwd, ∀ s ∈ e.2, rank s < rank e.1)
    (hlen2 : ∀ e ∈ bwd, e.2.length = 2) (fuel : Nat) :
    ∀ (rest done : List Nat),
      (∀ x ∈ done, mlook bwd x = none) →
      (∀ t ∈ rest, expandSize bwd t + 1 ≤ fuel) →
      decodeClassicLoop bwd fuel rest done done.length =
        .ok (done ++ expandAllL bwd rest) := by
  intro rest
  induction rest with
  | nil =>
    intro done _ _
    rw [decodeClassicLoop, expandAllL_nil, List.append_nil]
  | cons t rest ih =>
    intro done hdone hrest
    rw [decodeClassicLoop]
    have hone : ([t].map (expandSize bwd)).sum + 1 ≤ fuel := by
      have := hrest t (List.mem_cons_self t rest)
      simpa using this
    rw [expandLoopC_spec bwd rank hrank hlen2 fuel done [t] hdone hone]
    dsimp only
    have hdone2 : ∀ x ∈ done ++ expandAllL bwd [t], mlook bwd x = none := by
      intro x hx
      rcases List.mem_append.mp hx with hx | hx
      · exact hdone x hx
      · have hx2 : x ∈ expandFull bwd t := by
          simpa [expandAllL] using hx
        exact expandFull_base_mem bwd rank hrank t x hx2
    rw [ih (done ++ expandAllL bwd [t]) hdone2
      (fun x hx => hrest x (List.mem_cons_of_mem t hx))]
    simp [expandAllL]

/-- `UbpeClassic::decode` computes the full transitive expansion followed
by `_vec_to_doc`. -/
theorem decodeClassic_eq {W : Type} (st : UbpeState W) (tokens : List Nat)
    (hfwd : st.fwd ≠ []) (hbwd : st.bwd ≠ []) (hw : st.weights ≠ [])
    (rank : Nat → Nat)
    (hrank : ∀ e ∈ st.bwd, ∀ s ∈ e.2, rank s < rank e.1)
    (hlen2 : ∀ e ∈ st.bwd, e.2.length = 2) (htne : tokens ≠ []) :
    decodeClassic st tokens = vecToDoc st (expandAllL st.bwd tokens) := by
  unfold decodeClassic
  rw [if_neg (by simp [List.length_eq_zero, hfwd, hbwd, hw]),
    if_neg (by simp [List.length_eq_zero, htne])]
  have hft : ∀ t ∈ tokens, expandSize st.bwd t + 1 ≤
      (tokens.map (expandSize st.bwd)).sum + 1 := by
    intro t ht
    have : expandSize st.bwd t ≤ (tokens.map (expandSize st.bwd)).sum :=
      List.single_le_sum (fun x _ => Nat.zero_le x) _
        (List.mem_map_of_mem (expandSize st.bwd) ht)
    omega
  have hs := decodeClassicLoop_spec st.bwd rank hrank hlen2
    ((tokens.map (expandSize st.bwd)).sum + 1) tokens []
    (fun x hx => absurd hx (List.not_mem_nil x)) hft
  simp only [List.length_nil, List.nil_append] at hs
  rw [hs]

end DecodeLemmas

end UbpeV

namespace UbpeV

/-! ## `Ubpe::encode` and `Ubpe::decode` (ubpe.hpp)

The loading constructor caches the lookup trie from `inverse_alphabet`
(singleton keys `[id]` with the inverse-alphabet VALUE as trie value) and
`tokens_forward_mapper`; `encode` then builds per-position candidate
stacks (phase A), the start-indexed node maps (phase B), and the dynamic
program over tails with a `TopElements` buffer per position (phase C).
Loop fuel is a parameter; every theorem is conditional on a `.ok` run. -/

section UEncDefs0

variable {W : Type}

/-- The lookup trie cached by the loading constructor: inverse-alphabet
entries first, then the forward mapper. -/
def buildLookup (st : UbpeState W) : Except Err (List TrieNode) :=
  (st.inv_alphabet.map (fun e => ([e.1], e.2)) ++ st.fwd).foldlM
    (fun t e => treeInsert t e.1 e.2) []

/-- Trie of a state as evaluated data (`.ok` projection, `[]` on error). -/
def lkOf (st : UbpeState W) : List TrieNode :=
  (buildLookup st).toOption.getD []

/-- Working vector of a document (`.ok` projection, `[]` on error). -/
def vecOf (st : UbpeState W) (doc : List Nat) : List Nat :=
  (docToVec st doc).toOption.getD []

/-- `Ubpe::decode`: one-level backward expansion, then `_vec_to_doc`. -/
def decodeU (st : UbpeState W) (tokens : List Nat) :
    Except Err (List Nat) :=
  if st.fwd.length = 0 ∨ st.bwd.length = 0 ∨ st.weights.length = 0 then
    .error .assertFail
  else if tokens.length = 0 then .ok []
  else vecToDoc st ((tokens.map (dec1 st.bwd)).join)

/-- Phase A of `Ubpe::encode`: walk the document, collecting
`(start, lookup(doc, start))` and advancing by the longest hit;
`stack.back()` on an empty hit stack is an unchecked read.  The result is
in chronological (bottom-to-top) push order. -/
def phaseA (tr : List TrieNode) (v : List Nat) :
    Nat → Nat → Except Err (List (Nat × List (List Nat × Nat)))
  | 0, _ => .error .fuel
  | fuel + 1, start =>
    if start < v.length then
      match treeTrace tr v start with
      | .error e => .error e
      | .ok stack =>
        match stack.getLast? with
        | none => .error .oob
        | some last =>
          match phaseA tr v fuel (start + last.1.length) with
          | .error e => .error e
          | .ok rest => .ok ((start, stack) :: rest)
    else .ok []

/-- The inner `for (key, value)` loop of phase B: fill the `next` map and
push unexplored following positions (with their lookups) onto the stack. -/
def phaseBInner (tr : List TrieNode) (v : List Nat) (start : Nat) :
    List (List Nat × Nat) → List (List Nat × (Nat × Nat)) →
    List (Nat × List (List Nat × Nat)) →
    List (Nat × List (List Nat × (Nat × Nat))) →
    Except Err (List (List Nat × (Nat × Nat)) ×
      List (Nat × List (List Nat × Nat)))
  | [], next, stks, _ => .ok (next, stks)
  | (key, value) :: rest, next, stks, nodes =>
    let nks := start + key.length
    let next2 := msetk next key (value, nks)
    if nks ≠ v.length ∧ (mlook nodes nks).isNone then
      match treeTrace tr v nks with
      | .error e => .error e
      | .ok stk =>
        phaseBInner tr v start rest next2 ((nks, stk) :: stks) nodes
    else phaseBInner tr v start rest next2 stks nodes

/-- Phase B of `Ubpe::encode`: drain the LIFO stack (list head = top),
assigning `nodes[start] = next` after each inner loop. -/
def phaseB (tr : List TrieNode) (v : List Nat) :
    Nat → List (Nat × List (List Nat × Nat)) →
    List (Nat × List (List Nat × (Nat × Nat))) →
    Except Err (List (Nat × List (List Nat × (Nat × Nat))))
  | _, [], nodes => .ok nodes
  | 0, _ :: _, _ => .error .fuel
  | fuel + 1, (start, stack) :: stks, nodes =>
    match phaseBInner tr v start stack [] stks nodes with
    | .error e => .error e
    | .ok (next, stks2) => phaseB tr v fuel stks2 (msetk nodes start next)

end UEncDefs0

end UbpeV

namespace UbpeV

section UEncDefs

variable {W : Type} [LinearOrderedCommRing W]

/-- `EncodingCandidate::operator<`: equal weights compare by LONGER
sequence, otherwise by smaller weight. -/
def ecLT (a b : W × List Nat × List (Nat × Nat)) : Bool :=
  if a.1 = b.1 then decide (b.2.1.length < a.2.1.length)
  else decide (a.1 < b.1)

/-- `EncodingCandidate::operator>`: equal weights compare by SHORTER
sequence, otherwise by larger weight. -/
def ecGT (a b : W × List Nat × List (Nat × Nat)) : Bool :=
  if a.1 = b.1 then decide (a.2.1.length < b.2.1.length)
  else decide (b.1 < a.1)

/-- Default-constructed `EncodingCandidate`. -/
def dCand : W × List Nat × List (Nat × Nat) := (0, [], [])

/-- One phase-C position: fold every `(key, (value, next))` of
`nodes[start]` with every tail of `tails[next]` into a `TopElements`
buffer, then sort it. -/
def candsAt (philog : Nat → W) (weights : List (Nat × W))
    (nodes : List (Nat × List (List Nat × (Nat × Nat)))) (topn : Nat)
    (tails : List (Nat × List (W × List Nat × List (Nat × Nat))))
    (start : Nat) :
    Except Err (List (W × List Nat × List (Nat × Nat))) :=
  match ((mlook nodes start).getD []).foldlM
      (fun heap node =>
        ((mlook tails node.2.2).getD []).foldlM
          (fun heap tl =>
            let el := node.2.1 :: tl.2.1
            let cnt := msetk tl.2.2 node.2.1
              ((mlook tl.2.2 node.2.1).getD 0 + 1)
            tePush ecLT ecGT dCand topn heap
              (accWeight philog weights cnt, el, cnt)) heap) [] with
  | .error e => .error e
  | .ok buf => .ok (teSorted ecLT dCand buf)

/-- Phase C of `Ubpe::encode`: process positions `v.length - 1` down to
`0`, writing `tails[start] = buf.sorted()`. -/
def phaseC (philog : Nat → W) (weights : List (Nat × W))
    (nodes : List (Nat × List (List Nat × (Nat × Nat)))) (topn : Nat) :
    Nat → List (Nat × List (W × List Nat × List (Nat × Nat))) →
    Except Err (List (Nat × List (W × List Nat × List (Nat × Nat))))
  | 0, tails => .ok tails
  | count + 1, tails =>
    match candsAt philog weights nodes topn tails count with
    | .error e => .error e
    | .ok cl => phaseC philog weights nodes topn count (msetk tails count cl)

/-- `Ubpe::encode`: asserts, `_doc_to_vec`, phases A, B and C, then the
projection `element()` of `tails[0]`.  `top_n` is a `uint8_t`, hence the
`% 256`; `fuel` bounds the source's unbounded loops. -/
def encodeU (philog : Nat → W) (st : UbpeState W) (fuel : Nat)
    (doc : List Nat) (top_n : Nat) : Except Err (List (List Nat × W)) :=
  match buildLookup st with
  | .error e => .error e
  | .ok tr =>
    if tr.length = 0 then .error .assertFail
    else if st.fwd.length = 0 ∨ st.bwd.length = 0 ∨
        st.weights.length = 0 then .error .assertFail
    else if doc.length = 0 then .ok []
    else
      match docToVec st doc with
      | .error e => .error e
      | .ok v =>
        match phaseA tr v fuel 0 with
        | .error e => .error e
        | .ok stks =>
          match phaseB tr v fuel stks.reverse [] with
          | .error e => .error e
          | .ok nodes =>
            match phaseC philog st.weights nodes (top_n % 256) v.length
                [(v.length, [dCand])] with
            | .error e => .error e
            | .ok tails =>
              .ok (((mlook tails 0).getD []).map (fun c => (c.2.1, c.1)))

end UEncDefs

end UbpeV

namespace UbpeV

section UEncOrder

variable {W : Type} [LinearOrderedCommRing W]

/-- `EncodingCandidate::operator<` is a strict weak order: it compares the
key `(weight ascending, length descending)` lexicographically. -/
theorem swo_ecLT : SWO (ecLT (W := W)) := by
  constructor
  · intro a
    unfold ecLT
    rw [if_pos rfl]
    simp
  · intro a b c hab hbc
    unfold ecLT at hab hbc ⊢
    by_cases e1 : a.1 = b.1
    · rw [if_pos e1] at hab
      have h1 := of_decide_eq_true hab
      by_cases e2 : b.1 = c.1
      · rw [if_pos e2] at hbc
        have h2 := of_decide_eq_true hbc
        rw [if_pos (e1.trans e2)]
        exact decide_eq_true (by omega)
      · rw [if_neg e2] at hbc
        rw [if_neg (by rw [e1]; exact e2), e1]
        exact hbc
    · rw [if_neg e1] at hab
      have h1 := of_decide_eq_true hab
      by_cases e2 : b.1 = c.1
      · rw [← e2, if_neg e1]
        exact hab
      · rw [if_neg e2] at hbc
        have h2 := of_decide_eq_true hbc
        rw [if_neg (ne_of_lt (lt_trans h1 h2))]
        exact decide_eq_true (lt_trans h1 h2)
  · intro a b c hab hbc
    unfold ecLT at hab hbc ⊢
    by_cases e1 : a.1 = b.1
    · rw [if_pos e1] at hab
      have h1 : ¬ (b.2.1.length < a.2.1.length) := of_decide_eq_false hab
      by_cases e2 : b.1 = c.1
      · rw [if_pos e2] at hbc
        have h2 : ¬ (c.2.1.length < b.2.1.length) := of_decide_eq_false hbc
        rw [if_pos (e1.trans e2)]
        exact decide_eq_false (by omega)
      · rw [if_neg e2] at hbc
        rw [if_neg (by rw [e1]; exact e2), e1]
        exact hbc
    · rw [if_neg e1] at hab
      have h1 : ¬ (a.1 < b.1) := of_decide_eq_false hab
      have hba : b.1 < a.1 :=
        lt_of_le_of_ne (le_of_not_lt h1) (fun h => e1 h.symm)
      by_cases e2 : b.1 = c.1
      · rw [← e2, if_neg e1]
        exact hab
      · rw [if_neg e2] at hbc
        have h2 : ¬ (b.1 < c.1) := of_decide_eq_false hbc
        have hcb : c.1 < b.1 :=
          lt_of_le_of_ne (le_of_not_lt h2) (fun h => e2 h.symm)
        have hca : c.1 < a.1 := lt_trans hcb hba
        rw [if_neg (ne_of_gt hca)]
        exact decide_eq_false (lt_asymm hca)

end UEncOrder

end UbpeV

namespace UbpeV

section FoldInv

/-- Invariant preservation through a monadic fold over `Except`. -/
theorem foldlM_inv {β γ : Type} (f : γ → β → Except Err γ) (P : γ → Prop) :
    ∀ (l : List β) (init : γ), P init →
      (∀ acc b, b ∈ l → P acc → ∀ r, f acc b = .ok r → P r) →
      ∀ out, l.foldlM f init = .ok out → P out := by
  intro l
  induction l with
  | nil =>
    intro init h0 _ out hout
    rw [List.foldlM_nil] at hout
    cases hout
    exact h0
  | cons b l ih =>
    intro init h0 hstep out hout
    rw [List.foldlM_cons] at hout
    cases hf : f init b with
    | error e =>
      rw [hf] at hout
      exact Except.noConfusion hout
    | ok r =>
      rw [hf] at hout
      exact ih r (hstep init b (List.mem_cons_self b l) h0 r hf)
        (fun acc x hx hacc s hs =>
          hstep acc x (List.mem_cons_of_mem b hx) hacc s hs) out hout

/-- Splitting a prefix off a drop. -/
theorem prefix_drop_split (v k : List Nat) (start : Nat)
    (h : k <+: v.drop start) :
    v.drop start = k ++ v.drop (start + k.length) := by
  have hk := List.prefix_iff_eq_take.mp h
  have : v.drop start = (v.drop start).take k.length ++
      (v.drop start).drop k.length := (List.take_append_drop _ _).symm
  rw [this, ← hk, List.drop_drop]

end FoldInv

end UbpeV

namespace UbpeV

section PhaseSpecs

theorem phaseA_spec (tr : List TrieNode) (v : List Nat) :
    ∀ (fuel start : Nat) (out : List (Nat × List (List Nat × Nat))),
      phaseA tr v fuel start = .ok out →
      ∀ p ∈ out, p.1 < v.length ∧ treeTrace tr v p.1 = .ok p.2 := by
  intro fuel
  induction fuel with
  | zero =>
    intro start out h
    rw [show phaseA tr v 0 start = .error .fuel from rfl] at h
    exact Except.noConfusion h
  | succ fuel ih =>
    intro start out h
    rw [phaseA] at h
    by_cases hst : start < v.length
    · rw [if_pos hst] at h
      cases htt : treeTrace tr v start with
      | error e => rw [htt] at h; exact Except.noConfusion h
      | ok stack =>
        rw [htt] at h
        dsimp only at h
        cases hlast : stack.getLast? with
        | none => rw [hlast] at h; exact Except.noConfusion h
        | some last =>
          rw [hlast] at h
          dsimp only at h
          cases hrec : phaseA tr v fuel (start + last.1.length) with
          | error e => rw [hrec] at h; exact Except.noConfusion h
          | ok rest =>
            rw [hrec] at h
            cases h
            intro p hp
            rcases List.mem_cons.mp hp with hp | hp
            · rw [hp]
              exact ⟨hst, htt⟩
            · exact ih (start + last.1.length) rest hrec p hp
    · rw [if_neg hst] at h
      cases h
      intro p hp
      exact absurd hp (List.not_mem_nil p)

theorem phaseBInner_spec (tr : List TrieNode) (v : List Nat) (start : Nat)
    (nodes : List (Nat × List (List Nat × (Nat × Nat)))) :
    ∀ (stack : List (List Nat × Nat))
      (next : List (List Nat × (Nat × Nat)))
      (stks : List (Nat × List (List Nat × Nat)))
      (out : List (List Nat × (Nat × Nat)) ×
        List (Nat × List (List Nat × Nat))),
      phaseBInner tr v start stack next stks nodes = .ok out →
      (∀ e ∈ out.1, e ∈ next ∨
        ∃ kv ∈ stack, e = (kv.1, (kv.2, start + kv.1.length))) ∧
      (∀ s ∈ out.2, s ∈ stks ∨
        (s.1 ≠ v.length ∧ treeTrace tr v s.1 = .ok s.2 ∧
          ∃ kv ∈ stack, s.1 = start + kv.1.length)) := by
  intro stack
  induction stack with
  | nil =>
    intro next stks out h
    rw [phaseBInner] at h
    cases h
    exact ⟨fun e he => Or.inl he, fun s hs => Or.inl hs⟩
  | cons kv rest ih =>
    intro next stks out h
    obtain ⟨key, value⟩ := kv
    rw [phaseBInner] at h
    by_cases hcond : start + key.length ≠ v.length ∧
        (mlook nodes (start + key.length)).isNone
    · rw [if_pos hcond] at h
      cases htt : treeTrace tr v (start + key.length) with
      | error e => rw [htt] at h; exact Except.noConfusion h
      | ok stk =>
        rw [htt] at h
        dsimp only at h
        rcases ih (msetk next key (value, start + key.length))
          ((start + key.length, stk) :: stks) out h with ⟨h1, h2⟩
        constructor
        · intro e he
          rcases h1 e he with he1 | ⟨kv2, hkv2, heq⟩
          · rcases msetk_mem_cases e next key
              (value, start + key.length) he1 with he2 | he2
            · exact Or.inl he2
            · exact Or.inr ⟨(key, value),
                List.mem_cons_self _ _, he2⟩
          · exact Or.inr ⟨kv2, List.mem_cons_of_mem _ hkv2, heq⟩
        · intro s hs
          rcases h2 s hs with hs1 | ⟨hne, htt2, kv2, hkv2, heq⟩
          · rcases List.mem_cons.mp hs1 with hs2 | hs2
            · refine Or.inr ⟨?_, ?_, (key, value),
                List.mem_cons_self _ _, ?_⟩
              · rw [hs2]; exact hcond.1
              · rw [hs2]; exact htt
              · rw [hs2]
            · exact Or.inl hs2
          · exact Or.inr ⟨hne, htt2, kv2,
              List.mem_cons_of_mem _ hkv2, heq⟩
    · rw [if_neg hcond] at h
      rcases ih (msetk next key (value, start + key.length)) stks out h
        with ⟨h1, h2⟩
      constructor
      · intro e he
        rcases h1 e he with he1 | ⟨kv2, hkv2, heq⟩
        · rcases msetk_mem_cases e next key
            (value, start + key.length) he1 with he2 | he2
          · exact Or.inl he2
          · exact Or.inr ⟨(key, value), List.mem_cons_self _ _, he2⟩
        · exact Or.inr ⟨kv2, List.mem_cons_of_mem _ hkv2, heq⟩
      · intro s hs
        rcases h2 s hs with hs1 | ⟨hne, htt2, kv2, hkv2, heq⟩
        · exact Or.inl hs1
        · exact Or.inr ⟨hne, htt2, kv2,
            List.mem_cons_of_mem _ hkv2, heq⟩

theorem phaseB_spec (tr : List TrieNode) (v : List Nat)
    (bwd : List (Nat × List Nat))
    (hlk : ∀ start, start < v.length → ∀ stack,
      treeTrace tr v start = .ok stack →
      ∀ e ∈ stack, e.1 ≠ [] ∧ e.1 <+: v.drop start ∧
        dec1 bwd e.2 = e.1) :
    ∀ (fuel : Nat) (stks : List (Nat × List (List Nat × Nat)))
      (nodes out : List (Nat × List (List Nat × (Nat × Nat)))),
      (∀ p ∈ stks, p.1 < v.length ∧ treeTrace tr v p.1 = .ok p.2) →
      (∀ nd ∈ nodes, ∀ en ∈ nd.2, en.1 ≠ [] ∧ en.1 <+: v.drop nd.1 ∧
        dec1 bwd en.2.1 = en.1 ∧ en.2.2 = nd.1 + en.1.length) →
      phaseB tr v fuel stks nodes = .ok out →
      ∀ nd ∈ out, ∀ en ∈ nd.2, en.1 ≠ [] ∧ en.1 <+: v.drop nd.1 ∧
        dec1 bwd en.2.1 = en.1 ∧ en.2.2 = nd.1 + en.1.length := by
  intro fuel
  induction fuel with
  | zero =>
    intro stks nodes out hstks hnodes h
    match stks with
    | [] =>
      rw [phaseB] at h
      cases h
      exact hnodes
    | p :: stks2 =>
      rw [phaseB] at h
      exact Except.noConfusion h
  | succ fuel ih =>
    intro stks nodes out hstks hnodes h
    match stks with
    | [] =>
      rw [phaseB] at h
      cases h
      exact hnodes
    | (start, stack) :: stks2 =>
      rw [phaseB] at h
      cases hbi : phaseBInner tr v start stack [] stks2 nodes with
      | error e => rw [hbi] at h; exact Except.noConfusion h
      | ok pr =>
        rw [hbi] at h
        dsimp only at h
        obtain ⟨next, stks3⟩ := pr
        have hspec := phaseBInner_spec tr v start nodes stack [] stks2
          (next, stks3) hbi
        have hhead := hstks (start, stack) (List.mem_cons_self _ _)
        have hstackp := hlk start hhead.1 stack hhead.2
        have hstks3 : ∀ p ∈ stks3, p.1 < v.length ∧
            treeTrace tr v p.1 = .ok p.2 := by
          intro p hp
          rcases hspec.2 p hp with hp1 | ⟨hne, htt, kv, hkv, heq⟩
          · exact hstks p (List.mem_cons_of_mem _ hp1)
          · refine ⟨?_, htt⟩
            have hpre := (hstackp kv hkv).2.1
            have hle : kv.1.length ≤ (v.drop start).length :=
              List.IsPrefix.length_le hpre
            rw [List.length_drop] at hle
            have hsl := hhead.1
            omega
        have hnodes2 : ∀ nd ∈ msetk nodes start next, ∀ en ∈ nd.2,
            en.1 ≠ [] ∧ en.1 <+: v.drop nd.1 ∧
            dec1 bwd en.2.1 = en.1 ∧ en.2.2 = nd.1 + en.1.length := by
          intro nd hnd
          rcases msetk_mem_cases nd nodes start next hnd with hnd1 | hnd1
          · exact hnodes nd hnd1
          · rw [hnd1]
            intro en hen
            rcases hspec.1 en hen with hen1 | ⟨kv, hkv, heq⟩
            · exact absurd hen1 (List.not_mem_nil en)
            · rcases hstackp kv hkv with ⟨hk1, hk2, hk3⟩
              rw [heq]
              exact ⟨hk1, hk2, hk3, rfl⟩
        exact ih stks3 (msetk nodes start next) out hstks3 hnodes2 h

end PhaseSpecs

end UbpeV

namespace UbpeV

section PhaseCSpec

variable {W : Type} [LinearOrderedCommRing W]

/-- Every candidate produced at one phase-C position tiles the document
suffix from that position: its tokens one-level-expand and concatenate to
`v.drop start`. -/
theorem candsAt_tails (philog : Nat → W) (weights : List (Nat × W))
    (bwd : List (Nat × List Nat)) (v : List Nat)
    (nodes : List (Nat × List (List Nat × (Nat × Nat)))) (topn : Nat)
    (tails : List (Nat × List (W × List Nat × List (Nat × Nat))))
    (start : Nat) (out : List (W × List Nat × List (Nat × Nat)))
    (hnodes : ∀ nd ∈ nodes, ∀ en ∈ nd.2, en.1 ≠ [] ∧
      en.1 <+: v.drop nd.1 ∧ dec1 bwd en.2.1 = en.1 ∧
      en.2.2 = nd.1 + en.1.length)
    (htails : ∀ td ∈ tails, ∀ c ∈ td.2,
      (c.2.1.map (dec1 bwd)).join = v.drop td.1)
    (h : candsAt philog weights nodes topn tails start = .ok out) :
    ∀ c ∈ out, (c.2.1.map (dec1 bwd)).join = v.drop start := by
  unfold candsAt at h
  cases hfold : ((mlook nodes start).getD []).foldlM
      (fun heap node =>
        ((mlook tails node.2.2).getD []).foldlM
          (fun heap tl =>
            let el := node.2.1 :: tl.2.1
            let cnt := msetk tl.2.2 node.2.1
              ((mlook tl.2.2 node.2.1).getD 0 + 1)
            tePush ecLT ecGT dCand topn heap
              (accWeight philog weights cnt, el, cnt)) heap) [] with
  | error e => rw [hfold] at h; exact Except.noConfusion h
  | ok buf =>
    rw [hfold] at h
    cases h
    have hbuf : ∀ c ∈ buf, (c.2.1.map (dec1 bwd)).join = v.drop start := by
      refine foldlM_inv _ (fun heap => ∀ c ∈ heap,
        (c.2.1.map (dec1 bwd)).join = v.drop start) _ []
        (fun c hc => absurd hc (List.not_mem_nil c)) ?_ buf hfold
      intro acc node hnode hacc r hr
      have hnd : ∀ en ∈ (mlook nodes start).getD [], en.1 ≠ [] ∧
          en.1 <+: v.drop start ∧ dec1 bwd en.2.1 = en.1 ∧
          en.2.2 = start + en.1.length := by
        intro en hen
        cases hm : mlook nodes start with
        | none => rw [hm] at hen; exact absurd hen (List.not_mem_nil en)
        | some nmap =>
          rw [hm] at hen
          exact hnodes (start, nmap) (mlook_mem nodes start nmap hm) en hen
      rcases hnd node hnode with ⟨hk1, hk2, hk3, hk4⟩
      refine foldlM_inv _ (fun heap => ∀ c ∈ heap,
        (c.2.1.map (dec1 bwd)).join = v.drop start) _ acc hacc ?_ r hr
      intro acc2 tl htl hacc2 r2 hr2
      intro c hc
      rcases tePush_subset ecLT ecGT dCand swo_ecLT topn acc2 _ r2 hr2 c hc
        with hc1 | hc1
      · exact hacc2 c hc1
      · have htlv : (tl.2.1.map (dec1 bwd)).join = v.drop node.2.2 := by
          cases hm : mlook tails node.2.2 with
          | none => rw [hm] at htl; exact absurd htl (List.not_mem_nil tl)
          | some tdl =>
            rw [hm] at htl
            exact htails (node.2.2, tdl)
              (mlook_mem tails node.2.2 tdl hm) tl htl
        rw [hc1]
        show ((node.2.1 :: tl.2.1).map (dec1 bwd)).join = v.drop start
        have hsplit : ((node.2.1 :: tl.2.1).map (dec1 bwd)).join =
            dec1 bwd node.2.1 ++ (tl.2.1.map (dec1 bwd)).join := by
          simp
        rw [hsplit, hk3, htlv, hk4]
        exact (prefix_drop_split v node.1 start hk2).symm
    intro c hc
    exact hbuf c ((teSorted_perm ecLT dCand buf).subset hc)

/-- The phase-C recursion preserves the tiling invariant of `tails`. -/
theorem phaseC_tails (philog : Nat → W) (weights : List (Nat × W))
    (bwd : List (Nat × List Nat)) (v : List Nat)
    (nodes : List (Nat × List (List Nat × (Nat × Nat)))) (topn : Nat)
    (hnodes : ∀ nd ∈ nodes, ∀ en ∈ nd.2, en.1 ≠ [] ∧
      en.1 <+: v.drop nd.1 ∧ dec1 bwd en.2.1 = en.1 ∧
      en.2.2 = nd.1 + en.1.length) :
    ∀ (count : Nat)
      (tails out : List (Nat × List (W × List Nat × List (Nat × Nat)))),
      (∀ td ∈ tails, ∀ c ∈ td.2,
        (c.2.1.map (dec1 bwd)).join = v.drop td.1) →
      phaseC philog weights nodes topn count tails = .ok out →
      ∀ td ∈ out, ∀ c ∈ td.2,
        (c.2.1.map (dec1 bwd)).join = v.drop td.1 := by
  intro count
  induction count with
  | zero =>
    intro tails out htails h
    rw [phaseC] at h
    cases h
    exact htails
  | succ count ih =>
    intro tails out htails h
    rw [phaseC] at h
    cases hca : candsAt philog weights nodes topn tails count with
    | error e => rw [hca] at h; exact Except.noConfusion h
    | ok cl =>
      rw [hca] at h
      dsimp only at h
      have hcl := candsAt_tails philog weights bwd v nodes topn tails count
        cl hnodes htails hca
      have htails2 : ∀ td ∈ msetk tails count cl, ∀ c ∈ td.2,
          (c.2.1.map (dec1 bwd)).join = v.drop td.1 := by
        intro td htd
        rcases msetk_mem_cases td tails count cl htd with htd1 | htd1
        · exact htails td htd1
        · rw [htd1]
          exact hcl
      exact ih (msetk tails count cl) out htails2 h

end PhaseCSpec

end UbpeV

namespace UbpeV

section ClaimC1

/-- C1 (corrected for the universal variant, confirmed for the classic
variant): over a loaded tokenizer whose alphabet round-trips through
`inverse_alphabet`: (a) if the backward mapper is acyclic (some rank
strictly decreases from each key to its sequence elements — the identity
rank for a freshly fitted classic tokenizer, the inverse of the
relabelling after rearrangement), its values are two-element pairs known
to the forward mapper, and no alphabet id is one of its keys, then every
candidate of the classic `encode` decodes back to the document; (b) if
the lookup trie only yields document prefixes that one-level-expand to
themselves (`hlk`, the property an identity-alphabet tokenizer has),
then every candidate of the universal `encode` decodes back to the
document.  The trie hypothesis in (b) is necessary: with a non-identity
alphabet the universal encoder emits `inverse_alphabet` VALUES for
singleton hits, and decoding them fails
(see `C1_decode_encode_counterexample`). -/
theorem C1_decode_encode {W : Type} [LinearOrderedCommRing W]
    (philog : Nat → W) (st : UbpeState W) (doc : List Nat)
    (top_n fuel : Nat)
    (hinv : ∀ a ∈ st.alphabet, mlook st.inv_alphabet a.2 = some a.1) :
    ((∃ rank : Nat → Nat, ∀ e ∈ st.bwd, ∀ s ∈ e.2, rank s < rank e.1) →
      (∀ e ∈ st.bwd, e.2.length = 2) →
      (∀ e ∈ st.bwd, ∀ id, mlook st.fwd e.2 = some id →
        mlook st.bwd id = some e.2) →
      (∀ a ∈ st.alphabet, mlook st.bwd a.2 = none) →
      ∀ res, encodeClassic philog st doc top_n = .ok res →
        ∀ cand ∈ res, decodeClassic st cand.1 = .ok doc) ∧
    ((∀ start ∈ List.range (vecOf st doc).length,
        ∀ e ∈ (treeTrace (lkOf st) (vecOf st doc) start).toOption.getD [],
          e.1 ≠ [] ∧ e.1 <+: (vecOf st doc).drop start ∧
            dec1 st.bwd e.2 = e.1) →
      ∀ res, encodeU philog st fuel doc top_n = .ok res →
        ∀ cand ∈ res, decodeU st cand.1 = .ok doc) := by
  constructor
  · rintro ⟨rank, hrank⟩ hlen2 hfb halpha res h cand hc
    unfold encodeClassic at h
    by_cases hb1 : (st.bwd.map Prod.snd).length = 0
    · rw [if_pos hb1] at h
      exact Except.noConfusion h
    · rw [if_neg hb1] at h
      by_cases hb2 : st.fwd.length = 0 ∨ st.bwd.length = 0 ∨
          st.weights.length = 0
      · rw [if_pos hb2] at h
        exact Except.noConfusion h
      · rw [if_neg hb2] at h
        by_cases hd0 : doc.length = 0
        · rw [if_pos hd0] at h
          cases h
          exact absurd hc (List.not_mem_nil cand)
        · rw [if_neg hd0] at h
          cases hdv : docToVec st doc with
          | error e => rw [hdv] at h; exact Except.noConfusion h
          | ok v =>
            rw [hdv] at h
            dsimp only at h
            cases hloop : encodeLoop (st.bwd.map Prod.snd) st.fwd
                (v.length + 1) v with
            | error e => rw [hloop] at h; exact Except.noConfusion h
            | ok v2 =>
              rw [hloop] at h
              cases h
              have hcand : cand =
                  (v2, accWeight philog st.weights (counterOf v2)) := by
                rcases List.mem_cons.mp hc with hc1 | hc1
                · exact hc1
                · exact absurd hc1 (List.not_mem_nil cand)
              push_neg at hb2
              have hfne : st.fwd ≠ [] := by
                intro hx
                exact hb2.1 (by rw [hx]; rfl)
              have hbne : st.bwd ≠ [] := by
                intro hx
                exact hb2.2.1 (by rw [hx]; rfl)
              have hwne : st.weights ≠ [] := by
                intro hx
                exact hb2.2.2 (by rw [hx]; rfl)
              have hmv : mapMat st.alphabet doc = .ok v := by
                rw [docToVec, mapM_eq_mapMat] at hdv
                exact hdv
              have hbase : ∀ x ∈ v, mlook st.bwd x = none := by
                intro x hx
                rcases mapMat_mem st.alphabet doc v hmv x hx with ⟨a, ha⟩
                exact halpha (a, x) (mlook_mem st.alphabet a x ha)
              have hexp : expandAllL st.bwd v2 = expandAllL st.bwd v :=
                encodeLoop_expand st.bwd st.fwd rank hrank hlen2 hfb
                  (v.length + 1) v v2 hloop
              have hid : expandAllL st.bwd v = v := expandAllL_id st.bwd v hbase
              have hvne : v ≠ [] := by
                intro hx
                rw [hx] at hmv
                exact hd0 (mapMat_length st.alphabet doc [] hmv).symm
              have hv2ne : v2 ≠ [] := by
                intro hx
                rw [hx] at hexp
                rw [expandAllL_nil] at hexp
                exact hvne (by rw [← hid, ← hexp])
              rw [hcand]
              show decodeClassic st v2 = .ok doc
              rw [decodeClassic_eq st v2 hfne hbne hwne rank hrank hlen2
                  hv2ne,
                hexp, hid, vecToDoc, mapM_eq_mapMat]
              exact mapMat_roundtrip st.alphabet st.inv_alphabet hinv doc
                v hmv
  · intro hlk res h cand hc
    unfold encodeU at h
    cases hbl : buildLookup st with
    | error e => rw [hbl] at h; exact Except.noConfusion h
    | ok tr =>
      rw [hbl] at h
      dsimp only at h
      by_cases ht0 : tr.length = 0
      · rw [if_pos ht0] at h
        exact Except.noConfusion h
      · rw [if_neg ht0] at h
        by_cases hb2 : st.fwd.length = 0 ∨ st.bwd.length = 0 ∨
            st.weights.length = 0
        · rw [if_pos hb2] at h
          exact Except.noConfusion h
        · rw [if_neg hb2] at h
          by_cases hd0 : doc.length = 0
          · rw [if_pos hd0] at h
            cases h
            exact absurd hc (List.not_mem_nil cand)
          · rw [if_neg hd0] at h
            cases hdv : docToVec st doc with
            | error e => rw [hdv] at h; exact Except.noConfusion h
            | ok v =>
              rw [hdv] at h
              dsimp only at h
              cases hpa : phaseA tr v fuel 0 with
              | error e => rw [hpa] at h; exact Except.noConfusion h
              | ok stks =>
                rw [hpa] at h
                dsimp only at h
                cases hpb : phaseB tr v fuel stks.reverse [] with
                | error e => rw [hpb] at h; exact Except.noConfusion h
                | ok nodes =>
                  rw [hpb] at h
                  dsimp only at h
                  cases hpc : phaseC philog st.weights nodes (top_n % 256)
                      v.length [(v.length, [dCand])] with
                  | error e => rw [hpc] at h; exact Except.noConfusion h
                  | ok tails =>
                    rw [hpc] at h
                    cases h
                    have hlkeq : lkOf st = tr := by
                      unfold lkOf
                      rw [hbl]
                      rfl
                    have hveq : vecOf st doc = v := by
                      unfold vecOf
                      rw [hdv]
                      rfl
                    rw [hlkeq, hveq] at hlk
                    have hlk2 : ∀ start, start < v.length → ∀ stack,
                        treeTrace tr v start = .ok stack →
                        ∀ e ∈ stack, e.1 ≠ [] ∧ e.1 <+: v.drop start ∧
                          dec1 st.bwd e.2 = e.1 := by
                      intro start hs stack hst e he
                      refine hlk start (List.mem_range.mpr hs) e ?_
                      rw [hst]
                      exact he
                    have hstks : ∀ p ∈ stks.reverse, p.1 < v.length ∧
                        treeTrace tr v p.1 = .ok p.2 := by
                      intro p hp
                      exact phaseA_spec tr v fuel 0 stks hpa p
                        (List.mem_reverse.mp hp)
                    have hnodes := phaseB_spec tr v st.bwd hlk2 fuel
                      stks.reverse [] nodes hstks
                      (fun nd hnd => absurd hnd (List.not_mem_nil nd)) hpb
                    have htails0 : ∀ td ∈ [(v.length, [(dCand : W × List Nat ×
                        List (Nat × Nat))])], ∀ c ∈ td.2,
                        (c.2.1.map (dec1 st.bwd)).join = v.drop td.1 := by
                      intro td htd c hcd
                      rcases List.mem_cons.mp htd with htd1 | htd1
                      · rcases List.mem_cons.mp (htd1 ▸ hcd) with hc1 | hc1
                        · rw [htd1, hc1]
                          show (([] : List Nat).map (dec1 st.bwd)).join =
                            v.drop v.length
                          rw [List.drop_length]
                          rfl
                        · exact absurd hc1 (List.not_mem_nil c)
                      · exact absurd htd1 (List.not_mem_nil td)
                    have htails := phaseC_tails philog st.weights st.bwd v
                      nodes (top_n % 256) hnodes v.length
                      [(v.length, [dCand])] tails htails0 hpc
                    rcases List.mem_map.mp hc with ⟨c, hcm, hcc⟩
                    have hctile : (c.2.1.map (dec1 st.bwd)).join = v := by
                      cases hm : mlook tails 0 with
                      | none =>
                        rw [hm] at hcm
                        exact absurd hcm (List.not_mem_nil c)
                      | some cl0 =>
                        rw [hm] at hcm
                        have := htails (0, cl0)
                          (mlook_mem tails 0 cl0 hm) c hcm
                        rw [List.drop_zero] at this
                        exact this
                    have hmv : mapMat st.alphabet doc = .ok v := by
                      rw [docToVec, mapM_eq_mapMat] at hdv
                      exact hdv
                    have hvne : v ≠ [] := by
                      intro hx
                      rw [hx] at hmv
                      exact hd0 (mapMat_length st.alphabet doc [] hmv).symm
                    have hcne : c.2.1 ≠ [] := by
                      intro hx
                      rw [hx] at hctile
                      exact hvne hctile.symm
                    rw [← hcc]
                    show decodeU st c.2.1 = .ok doc
                    unfold decodeU
                    rw [if_neg hb2,
                      if_neg (by simp [List.length_eq_zero, hcne]),
                      hctile, vecToDoc, mapM_eq_mapMat]
                    exact mapMat_roundtrip st.alphabet st.inv_alphabet hinv
                      doc v hmv

end ClaimC1

end UbpeV

namespace UbpeV

section ClaimC1W

/-- C1 counterexample: a loaded universal tokenizer over the NON-identity
alphabet `{100 -> 0, 101 -> 1}` with the single merge `2 -> [0, 1]`.
Encoding `[100, 101]` with `top_n = 2` returns the candidate
`[100, 101]` (the trie stores `inverse_alphabet` VALUES for singleton
keys), and decoding that candidate throws (`inverse_alphabet.at(100)` is
out of range) instead of returning the document. -/
theorem C1_decode_encode_counterexample :
    encodeU (fun c => (c : ℚ))
        ⟨3, 2, [(100, 0), (101, 1)], [(0, 100), (1, 101)], [([0, 1], 2)],
          [(2, [0, 1])], [(2, 5)]⟩ 10 [100, 101] 2 =
      .ok [([2], 5), ([100, 101], 0)] ∧
    decodeU (⟨3, 2, [(100, 0), (101, 1)], [(0, 100), (1, 101)],
        [([0, 1], 2)], [(2, [0, 1])], [(2, 5)]⟩ : UbpeState ℚ)
      [100, 101] = .error .atFail := by
  constructor
  · have e1 : buildLookup (⟨3, 2, [(100, 0), (101, 1)], [(0, 100),
        (1, 101)], [([0, 1], 2)], [(2, [0, 1])], [(2, 5)]⟩ :
        UbpeState ℚ) =
        .ok [TrieNode.mk [0] (some 100) [TrieNode.mk [1] (some 2) []],
          TrieNode.mk [1] (some 101) []] := rfl
    have e2 : docToVec (⟨3, 2, [(100, 0), (101, 1)], [(0, 100), (1, 101)],
        [([0, 1], 2)], [(2, [0, 1])], [(2, 5)]⟩ : UbpeState ℚ)
        [100, 101] = .ok [0, 1] := rfl
    have e3 : phaseA [TrieNode.mk [0] (some 100)
        [TrieNode.mk [1] (some 2) []], TrieNode.mk [1] (some 101) []]
        [0, 1] 10 0 = .ok [(0, [([0], 100), ([0, 1], 2)])] := rfl
    have e4 : phaseB [TrieNode.mk [0] (some 100)
        [TrieNode.mk [1] (some 2) []], TrieNode.mk [1] (some 101) []]
        [0, 1] 10 [(0, [([0], 100), ([0, 1], 2)])] [] =
        .ok [(0, [([0], (100, 1)), ([0, 1], (2, 2))]),
          (1, [([1], (101, 2))])] := rfl
    have e5 : candsAt (fun c => (c : ℚ)) [(2, 5)]
        [(0, [([0], (100, 1)), ([0, 1], (2, 2))]), (1, [([1], (101, 2))])]
        2 [(2, [(0, [], [])])] 1 = .ok [(0, [101], [(101, 1)])] := by
      simp +decide [candsAt, List.foldlM, tePush, hpush, siftdown,
        siftdownFrom, hpushpop, hreplace, siftup, siftupBubble,
        chooseChild, teSorted, drainAll, hpop, List.getLast,
        List.dropLast, heapify, heapifyGo, accWeight, dCand, ecLT, ecGT,
        msetk, mlook, Bind.bind, Except.bind, Pure.pure, Except.pure]
    have e6 : candsAt (fun c => (c : ℚ)) [(2, 5)]
        [(0, [([0], (100, 1)), ([0, 1], (2, 2))]), (1, [([1], (101, 2))])]
        2 [(1, [(0, [101], [(101, 1)])]), (2, [(0, [], [])])] 0 =
        .ok [(5, [2], [(2, 1)]),
          (0, [100, 101], [(100, 1), (101, 1)])] := by
      simp +decide [candsAt, List.foldlM, tePush, hpush, siftdown,
        siftdownFrom, hpushpop, hreplace, siftup, siftupBubble,
        chooseChild, teSorted, drainAll, hpop, List.getLast,
        List.dropLast, heapify, heapifyGo, accWeight, dCand, ecLT, ecGT,
        msetk, mlook, Bind.bind, Except.bind, Pure.pure, Except.pure]
    simp +decide [encodeU, e1, e2, e3, e4, e5, e6, phaseC, msetk, mlook,
      dCand]
  · rfl

/-- Witness for `C1_decode_encode`: the identity-alphabet tokenizer with
the merge `2 -> [0, 1]`; the classic candidate of `encode([0, 1], 2)` and
both universal candidates decode back to `[0, 1]`. -/
theorem C1_decode_encode_witness :
    decodeClassic (⟨3, 2, [(0, 0), (1, 1)], [(0, 0), (1, 1)],
        [([0, 1], 2)], [(2, [0, 1])], [(2, 5)]⟩ : UbpeState ℚ) [2] =
      .ok [0, 1] ∧
    decodeU (⟨3, 2, [(0, 0), (1, 1)], [(0, 0), (1, 1)], [([0, 1], 2)],
        [(2, [0, 1])], [(2, 5)]⟩ : UbpeState ℚ) [2] = .ok [0, 1] ∧
    decodeU (⟨3, 2, [(0, 0), (1, 1)], [(0, 0), (1, 1)], [([0, 1], 2)],
        [(2, [0, 1])], [(2, 5)]⟩ : UbpeState ℚ) [0, 1] = .ok [0, 1] := by
  have heval : encodeU (fun c => (c : ℚ))
      (⟨3, 2, [(0, 0), (1, 1)], [(0, 0), (1, 1)], [([0, 1], 2)],
        [(2, [0, 1])], [(2, 5)]⟩ : UbpeState ℚ) 10 [0, 1] 2 =
      .ok [([2], 5), ([0, 1], 0)] := by
    have e1 : buildLookup (⟨3, 2, [(0, 0), (1, 1)], [(0, 0), (1, 1)],
        [([0, 1], 2)], [(2, [0, 1])], [(2, 5)]⟩ : UbpeState ℚ) =
        .ok [TrieNode.mk [0] (some 0) [TrieNode.mk [1] (some 2) []],
          TrieNode.mk [1] (some 1) []] := rfl
    have e2 : docToVec (⟨3, 2, [(0, 0), (1, 1)], [(0, 0), (1, 1)],
        [([0, 1], 2)], [(2, [0, 1])], [(2, 5)]⟩ : UbpeState ℚ)
        [0, 1] = .ok [0, 1] := rfl
    have e3 : phaseA [TrieNode.mk [0] (some 0)
        [TrieNode.mk [1] (some 2) []], TrieNode.mk [1] (some 1) []]
        [0, 1] 10 0 = .ok [(0, [([0], 0), ([0, 1], 2)])] := rfl
    have e4 : phaseB [TrieNode.mk [0] (some 0)
        [TrieNode.mk [1] (some 2) []], TrieNode.mk [1] (some 1) []]
        [0, 1] 10 [(0, [([0], 0), ([0, 1], 2)])] [] =
        .ok [(0, [([0], (0, 1)), ([0, 1], (2, 2))]),
          (1, [([1], (1, 2))])] := rfl
    have e5 : candsAt (fun c => (c : ℚ)) [(2, 5)]
        [(0, [([0], (0, 1)), ([0, 1], (2, 2))]), (1, [([1], (1, 2))])]
        2 [(2, [(0, [], [])])] 1 = .ok [(0, [1], [(1, 1)])] := by
      simp +decide [candsAt, List.foldlM, tePush, hpush, siftdown,
        siftdownFrom, hpushpop, hreplace, siftup, siftupBubble,
        chooseChild, teSorted, drainAll, hpop, List.getLast,
        List.dropLast, heapify, heapifyGo, accWeight, dCand, ecLT, ecGT,
        msetk, mlook, Bind.bind, Except.bind, Pure.pure, Except.pure]
    have e6 : candsAt (fun c => (c : ℚ)) [(2, 5)]
        [(0, [([0], (0, 1)), ([0, 1], (2, 2))]), (1, [([1], (1, 2))])]
        2 [(1, [(0, [1], [(1, 1)])]), (2, [(0, [], [])])] 0 =
        .ok [(5, [2], [(2, 1)]), (0, [0, 1], [(0, 1), (1, 1)])] := by
      simp +decide [candsAt, List.foldlM, tePush, hpush, siftdown,
        siftdownFrom, hpushpop, hreplace, siftup, siftupBubble,
        chooseChild, teSorted, drainAll, hpop, List.getLast,
        List.dropLast, heapify, heapifyGo, accWeight, dCand, ecLT, ecGT,
        msetk, mlook, Bind.bind, Except.bind, Pure.pure, Except.pure]
    simp +decide [encodeU, e1, e2, e3, e4, e5, e6, phaseC, msetk, mlook,
      dCand, -Prod.mk_zero_zero, -Prod.mk_one_one]
  have heval2 : encodeClassic (fun c => (c : ℚ))
      (⟨3, 2, [(0, 0), (1, 1)], [(0, 0), (1, 1)], [([0, 1], 2)],
        [(2, [0, 1])], [(2, 5)]⟩ : UbpeState ℚ) [0, 1] 2 =
      .ok [([2], 5)] := by
    simp +decide [encodeClassic, docToVec, encodeLoop, firstMatch,
      pairsMem, pairAt, encSelect, buildSub, mat, mlook, alook,
      replaceTokenPairs, replaceLoop, counterOf, accWeight, msetk,
      List.foldlM, List.mapM, List.mapM.loop, Bind.bind, Except.bind,
      Pure.pure, Except.pure, -Prod.mk_zero_zero, -Prod.mk_one_one]
  have hth := C1_decode_encode (fun c => (c : ℚ))
    ⟨3, 2, [(0, 0), (1, 1)], [(0, 0), (1, 1)], [([0, 1], 2)],
      [(2, [0, 1])], [(2, 5)]⟩ [0, 1] 2 10 (by decide)
  have hu := hth.2 (by decide) [([2], 5), ([0, 1], 0)] heval
  have hcl := hth.1 ⟨fun t => t, by decide⟩ (by decide)
    (by
      intro e he id hid
      rw [List.mem_singleton] at he
      subst he
      have h2 : id = 2 := by
        have hx : mlook [([0, 1], 2)] [0, 1] = some id := hid
        rw [show mlook [([0, 1], 2)] [0, 1] = some 2 from rfl] at hx
        exact (Option.some.inj hx).symm
      subst h2
      rfl)
    (by decide) [([2], 5)] heval2 ([2], 5) (List.mem_cons_self _ _)
  exact ⟨hcl, hu ([2], 5) (List.mem_cons_self _ _),
    hu ([0, 1], 0) (List.mem_cons_of_mem _ (List.mem_cons_self _ _))⟩

end ClaimC1W

end UbpeV

namespace UbpeV

section ClaimC2Lemmas

variable {W : Type} [LinearOrderedCommRing W]

/-- Every phase-C buffer respects the capacity and comes out of
`TopElements::sorted` pairwise non-ascending under the candidate order. -/
theorem candsAt_props (philog : Nat → W) (weights : List (Nat × W))
    (nodes : List (Nat × List (List Nat × (Nat × Nat)))) (topn : Nat)
    (tails : List (Nat × List (W × List Nat × List (Nat × Nat))))
    (start : Nat) (out : List (W × List Nat × List (Nat × Nat)))
    (h : candsAt philog weights nodes topn tails start = .ok out) :
    out.length ≤ topn ∧
    List.Pairwise (fun a b => ecLT a b = false) out := by
  unfold candsAt at h
  cases hfold : ((mlook nodes start).getD []).foldlM
      (fun heap node =>
        ((mlook tails node.2.2).getD []).foldlM
          (fun heap tl =>
            let el := node.2.1 :: tl.2.1
            let cnt := msetk tl.2.2 node.2.1
              ((mlook tl.2.2 node.2.1).getD 0 + 1)
            tePush ecLT ecGT dCand topn heap
              (accWeight philog weights cnt, el, cnt)) heap) [] with
  | error e => rw [hfold] at h; exact Except.noConfusion h
  | ok buf =>
    rw [hfold] at h
    cases h
    have hnil : IsHeap (ecLT (W := W)) dCand [] := by
      intro i j _ hj
      exact absurd hj (by simp)
    have hinv : buf.length ≤ topn ∧ IsHeap ecLT dCand buf := by
      refine foldlM_inv _
        (fun heap => heap.length ≤ topn ∧ IsHeap ecLT dCand heap) _ []
        ⟨Nat.zero_le _, hnil⟩ ?_ buf hfold
      intro acc node _ hacc r hr
      refine foldlM_inv _
        (fun heap => heap.length ≤ topn ∧ IsHeap ecLT dCand heap) _ acc
        hacc ?_ r hr
      intro acc2 tl _ hacc2 r2 hr2
      exact ⟨tePush_length ecLT ecGT dCand topn acc2 _ r2 hacc2.1 hr2,
        tePush_isHeap ecLT ecGT dCand swo_ecLT topn acc2 _ r2 hacc2.2 hr2⟩
    exact ⟨by
        rw [(teSorted_perm ecLT dCand buf).length_eq]
        exact hinv.1,
      teSorted_sorted ecLT dCand swo_ecLT buf hinv.2⟩

/-- Every entry of the final `tails` map is the initial entry or a
phase-C buffer. -/
theorem phaseC_entries (philog : Nat → W) (weights : List (Nat × W))
    (nodes : List (Nat × List (List Nat × (Nat × Nat)))) (topn : Nat) :
    ∀ (count : Nat)
      (tails out : List (Nat × List (W × List Nat × List (Nat × Nat)))),
      phaseC philog weights nodes topn count tails = .ok out →
      ∀ td ∈ out, td ∈ tails ∨
        ∃ start tails2,
          candsAt philog weights nodes topn tails2 start = .ok td.2 := by
  intro count
  induction count with
  | zero =>
    intro tails out h td htd
    rw [phaseC] at h
    cases h
    exact Or.inl htd
  | succ count ih =>
    intro tails out h td htd
    rw [phaseC] at h
    cases hca : candsAt philog weights nodes topn tails count with
    | error e => rw [hca] at h; exact Except.noConfusion h
    | ok cl =>
      rw [hca] at h
      dsimp only at h
      rcases ih (msetk tails count cl) out h td htd with htd1 | htd1
      · rcases msetk_mem_cases td tails count cl htd1 with htd2 | htd2
        · exact Or.inl htd2
        · refine Or.inr ⟨count, tails, ?_⟩
          rw [htd2]
          exact hca
      · exact Or.inr htd1

end ClaimC2Lemmas

end UbpeV

namespace UbpeV

section ClaimC2

/-- C2 (corrected): whenever universal `encode(doc, top_n)` RETURNS a
list, that list has at most `top_n % 256` (hence at most `top_n`)
candidates, and for any candidate listed before another the former has
strictly larger weight, or equal weight and a sequence no longer than the
latter's (the non-strict reading of "higher weight wins; on equal weight
fewer tokens wins").  The unrestricted claim is false because the call
need not return at all: with `top_n = 0` the first `TopElements::push`
reads `data.front()` of an empty buffer and aborts
(see `C2_encode_order_counterexample`). -/
theorem C2_encode_order {W : Type} [LinearOrderedCommRing W]
    (philog : Nat → W) (st : UbpeState W) (fuel : Nat) (doc : List Nat)
    (top_n : Nat) (res : List (List Nat × W))
    (h : encodeU philog st fuel doc top_n = .ok res) :
    res.length ≤ top_n % 256 ∧ res.length ≤ top_n ∧
    List.Pairwise (fun a b => b.2 < a.2 ∨
      (a.2 = b.2 ∧ a.1.length ≤ b.1.length)) res := by
  have hmain : res.length ≤ top_n % 256 ∧
      List.Pairwise (fun a b => b.2 < a.2 ∨
        (a.2 = b.2 ∧ a.1.length ≤ b.1.length)) res := by
    unfold encodeU at h
    cases hbl : buildLookup st with
    | error e => rw [hbl] at h; exact Except.noConfusion h
    | ok tr =>
      rw [hbl] at h
      dsimp only at h
      by_cases ht0 : tr.length = 0
      · rw [if_pos ht0] at h
        exact Except.noConfusion h
      · rw [if_neg ht0] at h
        by_cases hb2 : st.fwd.length = 0 ∨ st.bwd.length = 0 ∨
            st.weights.length = 0
        · rw [if_pos hb2] at h
          exact Except.noConfusion h
        · rw [if_neg hb2] at h
          by_cases hd0 : doc.length = 0
          · rw [if_pos hd0] at h
            cases h
            exact ⟨Nat.zero_le _, List.Pairwise.nil⟩
          · rw [if_neg hd0] at h
            cases hdv : docToVec st doc with
            | error e => rw [hdv] at h; exact Except.noConfusion h
            | ok v =>
              rw [hdv] at h
              dsimp only at h
              cases hpa : phaseA tr v fuel 0 with
              | error e => rw [hpa] at h; exact Except.noConfusion h
              | ok stks =>
                rw [hpa] at h
                dsimp only at h
                cases hpb : phaseB tr v fuel stks.reverse [] with
                | error e => rw [hpb] at h; exact Except.noConfusion h
                | ok nodes =>
                  rw [hpb] at h
                  dsimp only at h
                  cases hpc : phaseC philog st.weights nodes (top_n % 256)
                      v.length [(v.length, [dCand])] with
                  | error e => rw [hpc] at h; exact Except.noConfusion h
                  | ok tails =>
                    rw [hpc] at h
                    cases h
                    cases hm : mlook tails 0 with
                    | none =>
                      exact ⟨Nat.zero_le _, List.Pairwise.nil⟩
                    | some cl0 =>
                      have hvne : v.length ≠ 0 := by
                        intro hx
                        rw [docToVec, mapM_eq_mapMat] at hdv
                        have := mapMat_length st.alphabet doc v hdv
                        omega
                      rcases phaseC_entries philog st.weights nodes
                        (top_n % 256) v.length [(v.length, [dCand])]
                        tails hpc (0, cl0) (mlook_mem tails 0 cl0 hm) with
                        hin | ⟨start, tails2, hca⟩
                      · rcases List.mem_cons.mp hin with hin1 | hin1
                        · exact absurd (congrArg Prod.fst hin1)
                            (by simpa using fun hx => hvne hx.symm)
                        · exact absurd hin1 (List.not_mem_nil _)
                      · rcases candsAt_props philog st.weights nodes
                          (top_n % 256) tails2 start cl0 hca with
                          ⟨hlen, hpw⟩
                        constructor
                        · rw [List.length_map]
                          exact hlen
                        · rw [List.pairwise_map]
                          refine hpw.imp ?_
                          intro a b hab
                          unfold ecLT at hab
                          by_cases he : a.1 = b.1
                          · rw [if_pos he] at hab
                            exact Or.inr ⟨he,
                              le_of_not_lt (of_decide_eq_false hab)⟩
                          · rw [if_neg he] at hab
                            exact Or.inl (lt_of_le_of_ne
                              (le_of_not_lt (of_decide_eq_false hab))
                              (fun hx => he hx.symm))
  exact ⟨hmain.1, le_trans hmain.1 (Nat.mod_le top_n 256), hmain.2⟩

end ClaimC2

end UbpeV

namespace UbpeV

section ClaimC2W

/-- C2 counterexample: with `top_n = 0` the encoder does not return a
candidate list at all — the first `TopElements::push` compares against
`data.front()` of an empty buffer. -/
theorem C2_encode_order_counterexample :
    encodeU (fun c => (c : ℚ))
        ⟨3, 2, [(0, 0), (1, 1)], [(0, 0), (1, 1)], [([0, 1], 2)],
          [(2, [0, 1])], [(2, 5)]⟩ 10 [0, 1] 0 = .error .emptyTop ∧
    ∀ res, encodeU (fun c => (c : ℚ))
        ⟨3, 2, [(0, 0), (1, 1)], [(0, 0), (1, 1)], [([0, 1], 2)],
          [(2, [0, 1])], [(2, 5)]⟩ 10 [0, 1] 0 ≠ .ok res := by
  have heq : encodeU (fun c => (c : ℚ))
      ⟨3, 2, [(0, 0), (1, 1)], [(0, 0), (1, 1)], [([0, 1], 2)],
        [(2, [0, 1])], [(2, 5)]⟩ 10 [0, 1] 0 = .error .emptyTop := by
    have e1 : buildLookup (⟨3, 2, [(0, 0), (1, 1)], [(0, 0), (1, 1)],
        [([0, 1], 2)], [(2, [0, 1])], [(2, 5)]⟩ : UbpeState ℚ) =
        .ok [TrieNode.mk [0] (some 0) [TrieNode.mk [1] (some 2) []],
          TrieNode.mk [1] (some 1) []] := rfl
    have e2 : docToVec (⟨3, 2, [(0, 0), (1, 1)], [(0, 0), (1, 1)],
        [([0, 1], 2)], [(2, [0, 1])], [(2, 5)]⟩ : UbpeState ℚ)
        [0, 1] = .ok [0, 1] := rfl
    have e3 : phaseA [TrieNode.mk [0] (some 0)
        [TrieNode.mk [1] (some 2) []], TrieNode.mk [1] (some 1) []]
        [0, 1] 10 0 = .ok [(0, [([0], 0), ([0, 1], 2)])] := rfl
    have e4 : phaseB [TrieNode.mk [0] (some 0)
        [TrieNode.mk [1] (some 2) []], TrieNode.mk [1] (some 1) []]
        [0, 1] 10 [(0, [([0], 0), ([0, 1], 2)])] [] =
        .ok [(0, [([0], (0, 1)), ([0, 1], (2, 2))]),
          (1, [([1], (1, 2))])] := rfl
    have e5 : candsAt (fun c => (c : ℚ)) [(2, 5)]
        [(0, [([0], (0, 1)), ([0, 1], (2, 2))]), (1, [([1], (1, 2))])]
        0 [(2, [(0, [], [])])] 1 = .error .emptyTop := by
      simp +decide [candsAt, List.foldlM, tePush, hpush, siftdown,
        siftdownFrom, hpushpop, hreplace, siftup, siftupBubble,
        chooseChild, teSorted, drainAll, hpop, List.getLast,
        List.dropLast, heapify, heapifyGo, accWeight, dCand, ecLT, ecGT,
        msetk, mlook, Bind.bind, Except.bind, Pure.pure, Except.pure]
    simp +decide [encodeU, e1, e2, e3, e4, e5, phaseC, msetk, mlook,
      dCand, -Prod.mk_zero_zero, -Prod.mk_one_one]
  refine ⟨heq, ?_⟩
  intro res hres
  rw [heq] at hres
  exact Except.noConfusion hres

/-- Witness for `C2_encode_order`: the identity-alphabet tokenizer's two
candidates for `[0, 1]` at `top_n = 2` respect the bound and the order. -/
theorem C2_encode_order_witness :
    ([([2], (5 : ℚ)), ([0, 1], 0)] : List (List Nat × ℚ)).length ≤
      2 % 256 ∧
    ([([2], (5 : ℚ)), ([0, 1], 0)] : List (List Nat × ℚ)).length ≤ 2 ∧
    List.Pairwise (fun a b => b.2 < a.2 ∨
        (a.2 = b.2 ∧ a.1.length ≤ b.1.length))
      ([([2], (5 : ℚ)), ([0, 1], 0)] : List (List Nat × ℚ)) := by
  have heval : encodeU (fun c => (c : ℚ))
      (⟨3, 2, [(0, 0), (1, 1)], [(0, 0), (1, 1)], [([0, 1], 2)],
        [(2, [0, 1])], [(2, 5)]⟩ : UbpeState ℚ) 10 [0, 1] 2 =
      .ok [([2], 5), ([0, 1], 0)] := by
    have e1 : buildLookup (⟨3, 2, [(0, 0), (1, 1)], [(0, 0), (1, 1)],
        [([0, 1], 2)], [(2, [0, 1])], [(2, 5)]⟩ : UbpeState ℚ) =
        .ok [TrieNode.mk [0] (some 0) [TrieNode.mk [1] (some 2) []],
          TrieNode.mk [1] (some 1) []] := rfl
    have e2 : docToVec (⟨3, 2, [(0, 0), (1, 1)], [(0, 0), (1, 1)],
        [([0, 1], 2)], [(2, [0, 1])], [(2, 5)]⟩ : UbpeState ℚ)
        [0, 1] = .ok [0, 1] := rfl
    have e3 : phaseA [TrieNode.mk [0] (some 0)
        [TrieNode.mk [1] (some 2) []], TrieNode.mk [1] (some 1) []]
        [0, 1] 10 0 = .ok [(0, [([0], 0), ([0, 1], 2)])] := rfl
    have e4 : phaseB [TrieNode.mk [0] (some 0)
        [TrieNode.mk [1] (some 2) []], TrieNode.mk [1] (some 1) []]
        [0, 1] 10 [(0, [([0], 0), ([0, 1], 2)])] [] =
        .ok [(0, [([0], (0, 1)), ([0, 1], (2, 2))]),
          (1, [([1], (1, 2))])] := rfl
    have e5 : candsAt (fun c => (c : ℚ)) [(2, 5)]
        [(0, [([0], (0, 1)), ([0, 1], (2, 2))]), (1, [([1], (1, 2))])]
        2 [(2, [(0, [], [])])] 1 = .ok [(0, [1], [(1, 1)])] := by
      simp +decide [candsAt, List.foldlM, tePush, hpush, siftdown,
        siftdownFrom, hpushpop, hreplace, siftup, siftupBubble,
        chooseChild, teSorted, drainAll, hpop, List.getLast,
        List.dropLast, heapify, heapifyGo, accWeight, dCand, ecLT, ecGT,
        msetk, mlook, Bind.bind, Except.bind, Pure.pure, Except.pure]
    have e6 : candsAt (fun c => (c : ℚ)) [(2, 5)]
        [(0, [([0], (0, 1)), ([0, 1], (2, 2))]), (1, [([1], (1, 2))])]
        2 [(1, [(0, [1], [(1, 1)])]), (2, [(0, [], [])])] 0 =
        .ok [(5, [2], [(2, 1)]), (0, [0, 1], [(0, 1), (1, 1)])] := by
      simp +decide [candsAt, List.foldlM, tePush, hpush, siftdown,
        siftdownFrom, hpushpop, hreplace, siftup, siftupBubble,
        chooseChild, teSorted, drainAll, hpop, List.getLast,
        List.dropLast, heapify, heapifyGo, accWeight, dCand, ecLT, ecGT,
        msetk, mlook, Bind.bind, Except.bind, Pure.pure, Except.pure]
    simp +decide [encodeU, e1, e2, e3, e4, e5, e6, phaseC, msetk, mlook,
      dCand, -Prod.mk_zero_zero, -Prod.mk_one_one]
  exact C2_encode_order (fun c => (c : ℚ))
    ⟨3, 2, [(0, 0), (1, 1)], [(0, 0), (1, 1)], [([0, 1], 2)],
      [(2, [0, 1])], [(2, 5)]⟩ 10 [0, 1] 2 [([2], 5), ([0, 1], 0)] heval

end ClaimC2W

end UbpeV

namespace UbpeV

section ClaimC8

/-- `mapMat` fails exactly when some element misses the map. -/
theorem mapMat_error_iff {κ : Type} [LinearOrder κ] {β : Type}
    (m : List (κ × β)) :
    ∀ l : List κ, (∃ e, mapMat m l = .error e) ↔
      ∃ a ∈ l, mlook m a = none := by
  intro l
  induction l with
  | nil =>
    constructor
    · intro ⟨e, he⟩
      rw [show mapMat m [] = .ok ([] : List β) from rfl] at he
      exact Except.noConfusion he
    · intro ⟨a, ha, _⟩
      exact absurd ha (List.not_mem_nil a)
  | cons a l ih =>
    cases hl : mlook m a with
    | none =>
      constructor
      · intro _
        exact ⟨a, List.mem_cons_self a l, hl⟩
      · intro _
        refine ⟨.atFail, ?_⟩
        rw [mapMat, show mat m a = .error .atFail from by
          unfold mat; rw [hl]]
    | some b =>
      have hstep : ∀ e, mapMat m (a :: l) = .error e ↔
          mapMat m l = .error e := by
        intro e
        rw [mapMat, show mat m a = .ok b from by unfold mat; rw [hl]]
        cases hm : mapMat m l with
        | error e2 => simp
        | ok bs => simp
      constructor
      · intro ⟨e, he⟩
        rcases ih.mp ⟨e, (hstep e).mp he⟩ with ⟨x, hx, hxn⟩
        exact ⟨x, List.mem_cons_of_mem a hx, hxn⟩
      · intro ⟨x, hx, hxn⟩
        rcases List.mem_cons.mp hx with hx1 | hx1
        · rw [hx1, hl] at hxn
          exact Option.noConfusion hxn
        · rcases ih.mpr ⟨x, hx1, hxn⟩ with ⟨e, he⟩
          exact ⟨e, (hstep e).mpr he⟩

/-- C8 (confirmed): for a fitted universal tokenizer (nonempty mappers,
backward sequences made of base ids the inverse alphabet knows),
`decode(ids)` fails exactly when some id is neither a backward-mapper key
nor an id of the alphabet's inverse map, and on success it returns the
one-level backward expansion mapped through `inverse_alphabet`. -/
theorem C8_decode_errors {W : Type} (st : UbpeState W) (ids : List Nat)
    (hfwd : st.fwd ≠ []) (hbwd : st.bwd ≠ []) (hw : st.weights ≠ [])
    (hbase : ∀ e ∈ st.bwd, ∀ s ∈ e.2, (mlook st.inv_alphabet s).isSome) :
    ((∃ e, decodeU st ids = .error e) ↔
      ∃ id ∈ ids, mlook st.bwd id = none ∧
        mlook st.inv_alphabet id = none) ∧
    ∀ doc, decodeU st ids = .ok doc →
      mapMat st.inv_alphabet ((ids.map (dec1 st.bwd)).join) = .ok doc := by
  unfold decodeU
  rw [if_neg (by simp [List.length_eq_zero, hfwd, hbwd, hw])]
  by_cases h0 : ids.length = 0
  · have hids : ids = [] := List.length_eq_zero.mp h0
    subst hids
    rw [if_pos (show List.length ([] : List Nat) = 0 from rfl)]
    constructor
    · constructor
      · intro ⟨e, he⟩
        exact Except.noConfusion he
      · intro ⟨id, hid, _⟩
        exact absurd hid (List.not_mem_nil id)
    · intro doc hdoc
      rw [← Except.ok.inj hdoc]
      rfl
  · rw [if_neg h0, vecToDoc, mapM_eq_mapMat]
    refine ⟨?_, fun doc hdoc => hdoc⟩
    rw [mapMat_error_iff]
    constructor
    · intro ⟨x, hx, hnone⟩
      rcases List.mem_join.mp hx with ⟨lx, hlx, hxin⟩
      rcases List.mem_map.mp hlx with ⟨id, hid, hdec⟩
      cases hb : mlook st.bwd id with
      | some seq =>
        exfalso
        have hxseq : x ∈ seq := by
          rw [← hdec] at hxin
          rw [dec1, hb] at hxin
          exact hxin
        have := hbase (id, seq) (mlook_mem st.bwd id seq hb) x hxseq
        rw [hnone] at this
        exact Bool.noConfusion this
      | none =>
        have hxid : x = id := by
          rw [← hdec] at hxin
          rw [dec1, hb] at hxin
          rcases List.mem_cons.mp hxin with hx1 | hx1
          · exact hx1
          · exact absurd hx1 (List.not_mem_nil x)
        rw [hxid] at hnone
        exact ⟨id, hid, hb, hnone⟩
    · intro ⟨id, hid, hbnone, hinone⟩
      refine ⟨id, ?_, hinone⟩
      refine List.mem_join.mpr ⟨[id], ?_, List.mem_singleton.mpr rfl⟩
      have hdec : dec1 st.bwd id = [id] := by
        rw [dec1, hbnone]
        rfl
      rw [← hdec]
      exact List.mem_map_of_mem (dec1 st.bwd) hid

/-- Witness for `C8_decode_errors`: id `99` is neither a backward-mapper
key nor an inverse-alphabet id, so `decode([99, 2])` fails. -/
theorem C8_decode_errors_witness :
    ∃ e, decodeU (⟨3, 2, [(0, 0), (1, 1)], [(0, 0), (1, 1)],
      [([0, 1], 2)], [(2, [0, 1])], [(2, 5)]⟩ : UbpeState ℚ)
      [99, 2] = .error e :=
  (C8_decode_errors
    (⟨3, 2, [(0, 0), (1, 1)], [(0, 0), (1, 1)], [([0, 1], 2)],
      [(2, [0, 1])], [(2, 5)]⟩ : UbpeState ℚ) [99, 2]
    (by decide) (by decide) (by decide) (by decide)).1.mpr
    ⟨99, by decide, by decide, by decide⟩

end ClaimC8

end UbpeV
